import Mathlib

/-!
A shallow embedding of the memex-fs Merkle-DAG store (Go) in Lean 4, with
theorems checking the natural-language specification against the code.

Modelling conventions, used throughout:
- A Go byte slice is a `List Nat` whose in-domain elements are < 256.
- A Go string is a Lean `String`/`List Char` (Go strings hold UTF-8 bytes;
  all in-domain strings are valid UTF-8, and explicit UTF-8 encode/decode
  functions connect the two views where the code moves between them).
- `time.Time` values are carried as their RFC-3339(-nanosecond) formatted
  strings: the code only ever produces them with `time.Now().UTC()` and
  serializes them through the stdlib formatter, so a commit or envelope
  timestamp is modelled as the string the serializer would emit.
- JSON numbers are modelled as integers: every number the system writes
  (schema versions, byte sizes) is integral.
- Go map iteration order is unspecified; wherever the source iterates a map
  and the result is order-sensitive, the model notes the choice made.
-/

namespace MemexFS

/-- Byte sequences: Go `[]byte`. In-domain elements are < 256. -/
abbrev Bytes := List Nat

/-- Every element of the byte list is a real byte value. -/
def validBytes (bs : Bytes) : Prop := ∀ b ∈ bs, b < 256

instance : DecidablePred validBytes := fun bs =>
  inferInstanceAs (Decidable (∀ b ∈ bs, b < 256))

/-! ## SHA-256 (crypto/sha256)

A direct executable implementation of FIPS 180-4 SHA-256 over byte lists.
The Go code reaches it via `crypto/sha256.Sum256` and (indirectly) via
`multihash.Sum`. -/

def sha256K : List Nat :=
  [1116352408, 1899447441, 3049323471, 3921009573, 961987163, 1508970993,
   2453635748, 2870763221, 3624381080, 310598401, 607225278, 1426881987,
   1925078388, 2162078206, 2614888103, 3248222580, 3835390401, 4022224774,
   264347078, 604807628, 770255983, 1249150122, 1555081692, 1996064986,
   2554220882, 2821834349, 2952996808, 3210313671, 3336571891, 3584528711,
   113926993, 338241895, 666307205, 773529912, 1294757372, 1396182291,
   1695183700, 1986661051, 2177026350, 2456956037, 2730485921, 2820302411,
   3259730800, 3345764771, 3516065817, 3600352804, 4094571909, 275423344,
   430227734, 506948616, 659060556, 883997877, 958139571, 1322822218,
   1537002063, 1747873779, 1955562222, 2024104815, 2227730452, 2361852424,
   2428436474, 2756734187, 3204031479, 3329325298]

/-- 2^32, the word modulus. -/
def m32 : Nat := 4294967296

/-- Rotate a 32-bit word right by `n`. -/
def rotr (x n : Nat) : Nat :=
  ((x >>> n) ||| (x <<< (32 - n))) % m32

/-- SHA-256 message padding: append 0x80, zeros, and the 64-bit big-endian
bit length, reaching a multiple of 64 bytes. -/
def sha256pad (msg : Bytes) : Bytes :=
  let len := msg.length
  let padLen : Nat := (55 + 64 - len % 64) % 64 + 1
  let bitLen := len * 8
  msg ++ (0x80 :: List.replicate (padLen - 1) 0) ++
    [(bitLen >>> 56) % 256, (bitLen >>> 48) % 256, (bitLen >>> 40) % 256, (bitLen >>> 32) % 256,
     (bitLen >>> 24) % 256, (bitLen >>> 16) % 256, (bitLen >>> 8) % 256, bitLen % 256]

/-- Big-endian 32-bit words of a (padded) byte list. -/
def toWords : Bytes → List Nat
  | b0 :: b1 :: b2 :: b3 :: rest => ((b0 <<< 24) ||| (b1 <<< 16) ||| (b2 <<< 8) ||| b3) :: toWords rest
  | _ => []

/-- Split a word list into 16-word blocks (the input length is a multiple
of 16 for padded messages; a ragged tail would be dropped). -/
def chunk16 : List Nat → List (List Nat)
  | w0 :: w1 :: w2 :: w3 :: w4 :: w5 :: w6 :: w7 :: w8 :: w9 :: w10 :: w11 :: w12 :: w13 :: w14 :: w15 :: rest =>
    [w0, w1, w2, w3, w4, w5, w6, w7, w8, w9, w10, w11, w12, w13, w14, w15] :: chunk16 rest
  | _ => []

def sSigma0 (x : Nat) : Nat := (rotr x 7) ^^^ (rotr x 18) ^^^ (x >>> 3)
def sSigma1 (x : Nat) : Nat := (rotr x 17) ^^^ (rotr x 19) ^^^ (x >>> 10)
def bSigma0 (x : Nat) : Nat := (rotr x 2) ^^^ (rotr x 13) ^^^ (rotr x 22)
def bSigma1 (x : Nat) : Nat := (rotr x 6) ^^^ (rotr x 11) ^^^ (rotr x 25)

/-- Message schedule: extend 16 words to 64. -/
def sha256schedule (w16 : List Nat) : List Nat :=
  (List.range 48).foldl (fun w i =>
    let v := (sSigma1 (w.getD (i + 14) 0) + w.getD (i + 9) 0 + sSigma0 (w.getD (i + 1) 0) + w.getD i 0) % m32
    w ++ [v]) w16

structure Sha256State where
  a : Nat
  b : Nat
  c : Nat
  d : Nat
  e : Nat
  f : Nat
  g : Nat
  h : Nat
deriving DecidableEq

def sha256round (st : Sha256State) (kw : Nat × Nat) : Sha256State :=
  let ch := (st.e &&& st.f) ^^^ ((st.e ^^^ 0xffffffff) &&& st.g)
  let maj := (st.a &&& st.b) ^^^ (st.a &&& st.c) ^^^ (st.b &&& st.c)
  let t1 := (st.h + bSigma1 st.e + ch + kw.1 + kw.2) % m32
  let t2 := (bSigma0 st.a + maj) % m32
  ⟨(t1 + t2) % m32, st.a, st.b, st.c, (st.d + t1) % m32, st.e, st.f, st.g⟩

def sha256compress (hs : List Nat) (block : List Nat) : List Nat :=
  let w := sha256schedule block
  let st0 : Sha256State :=
    ⟨hs.getD 0 0, hs.getD 1 0, hs.getD 2 0, hs.getD 3 0, hs.getD 4 0, hs.getD 5 0, hs.getD 6 0, hs.getD 7 0⟩
  let st := (sha256K.zip w).foldl sha256round st0
  [(hs.getD 0 0 + st.a) % m32, (hs.getD 1 0 + st.b) % m32, (hs.getD 2 0 + st.c) % m32,
   (hs.getD 3 0 + st.d) % m32, (hs.getD 4 0 + st.e) % m32, (hs.getD 5 0 + st.f) % m32,
   (hs.getD 6 0 + st.g) % m32, (hs.getD 7 0 + st.h) % m32]

def sha256H0 : List Nat :=
  [1779033703, 3144134277, 1013904242, 2773480762,
   1359893119, 2600822924, 528734635, 1541459225]

def wordToBytes (w : Nat) : Bytes := [(w >>> 24) % 256, (w >>> 16) % 256, (w >>> 8) % 256, w % 256]

/-- SHA-256 digest (32 bytes) of a byte list. -/
def sha256 (msg : Bytes) : Bytes :=
  let blocks := chunk16 (toWords (sha256pad msg))
  let hs := blocks.foldl sha256compress sha256H0
  hs.flatMap wordToBytes

theorem sha256_valid (msg : Bytes) : validBytes (sha256 msg) := by
  intro b hb
  simp only [sha256, List.mem_flatMap] at hb
  obtain ⟨w, -, hw⟩ := hb
  simp only [wordToBytes, List.mem_cons, List.not_mem_nil, or_false] at hw
  rcases hw with h | h | h | h <;> subst h <;> omega

/-- Lowercase hex digits. -/
def hexChars : List Char := "0123456789abcdef".toList

def byteToHex (b : Nat) : List Char := [hexChars.getD (b / 16) '0', hexChars.getD (b % 16) '0']

/-- `hex.EncodeToString`: lowercase hex of a byte list. -/
def bytesToHex (bs : Bytes) : String := String.mk (bs.flatMap byteToHex)

/-! ## UTF-8

Go strings are UTF-8 byte slices; the model keeps them as `List Char`
(codepoints) and encodes/decodes explicitly at the byte boundary. -/

/-- UTF-8 encoding of one codepoint. -/
def utf8Char (c : Char) : Bytes :=
  let v := c.toNat
  if v < 0x80 then [v]
  else if v < 0x800 then [0xc0 + v / 64, 0x80 + v % 64]
  else if v < 0x10000 then [0xe0 + v / 4096, 0x80 + v / 64 % 64, 0x80 + v % 64]
  else [0xf0 + v / 262144, 0x80 + v / 4096 % 64, 0x80 + v / 64 % 64, 0x80 + v % 64]

/-- UTF-8 byte length of one codepoint (`len` of a one-rune Go string). -/
def utf8Len (c : Char) : Nat :=
  if c.toNat < 0x80 then 1
  else if c.toNat < 0x800 then 2
  else if c.toNat < 0x10000 then 3
  else 4

/-- UTF-8 bytes of a codepoint list. -/
def utf8Encode (cs : List Char) : Bytes := cs.flatMap utf8Char

/-- UTF-8 bytes of a string: the byte content of the Go string. -/
def strBytes (s : String) : Bytes := utf8Encode s.toList

/-- Go `len(s)` for a string: its UTF-8 byte count. -/
def goStrLen (cs : List Char) : Nat := (cs.map utf8Len).sum

/-- Decode one UTF-8 codepoint from the front of a byte list, returning it
together with the remaining bytes (fails on malformed sequences; in-domain
bytes are always produced by `utf8Encode`). -/
def utf8DecodeOne : Bytes → Option (Char × Bytes)
  | [] => none
  | b0 :: rest =>
    if b0 < 0x80 then some (Char.ofNat b0, rest)
    else if b0 < 0xc2 then none
    else if b0 < 0xe0 then
      match rest with
      | b1 :: rest' =>
        if 0x80 ≤ b1 ∧ b1 < 0xc0 then
          some (Char.ofNat ((b0 - 0xc0) * 64 + (b1 - 0x80)), rest')
        else none
      | _ => none
    else if b0 < 0xf0 then
      match rest with
      | b1 :: b2 :: rest' =>
        if 0x80 ≤ b1 ∧ b1 < 0xc0 ∧ 0x80 ≤ b2 ∧ b2 < 0xc0 then
          some (Char.ofNat ((b0 - 0xe0) * 4096 + (b1 - 0x80) * 64 + (b2 - 0x80)), rest')
        else none
      | _ => none
    else if b0 < 0xf5 then
      match rest with
      | b1 :: b2 :: b3 :: rest' =>
        if 0x80 ≤ b1 ∧ b1 < 0xc0 ∧ 0x80 ≤ b2 ∧ b2 < 0xc0 ∧ 0x80 ≤ b3 ∧ b3 < 0xc0 then
          some (Char.ofNat ((b0 - 0xf0) * 262144 + (b1 - 0x80) * 4096 + (b2 - 0x80) * 64 + (b3 - 0x80)), rest')
        else none
      | _ => none
    else none

/-- Fuelled UTF-8 decoding loop; the fuel only needs to cover the number of
bytes, which `utf8Decode` supplies. -/
def utf8DecodeF : Nat → Bytes → Option (List Char)
  | _, [] => some []
  | 0, _ :: _ => none
  | fuel + 1, b0 :: rest =>
    (utf8DecodeOne (b0 :: rest)).bind fun p => (utf8DecodeF fuel p.2).map (p.1 :: ·)

/-- UTF-8 decoding of a byte list into codepoints. -/
def utf8Decode (bs : Bytes) : Option (List Char) := utf8DecodeF bs.length bs

theorem char_toNat_lt (c : Char) : c.toNat < 1114112 := by
  have h := c.valid
  rcases h with h | h
  · exact Nat.lt_trans h (by omega)
  · exact h.2

theorem ofNat_toNat (c : Char) : Char.ofNat c.toNat = c := by
  have h : c.toNat.isValidChar := by
    rcases c.valid with h | h
    · exact Or.inl h
    · exact Or.inr h
  simp only [Char.ofNat, h, dite_true, Char.ofNatAux]
  cases c
  rfl

theorem utf8DecodeOne_char (c : Char) (rest : Bytes) :
    utf8DecodeOne (utf8Char c ++ rest) = some (c, rest) := by
  have hlt := char_toNat_lt c
  have htn : c.toNat = c.val.toNat := rfl
  have hval := c.valid
  rw [UInt32.isValidChar, Nat.isValidChar] at hval
  by_cases h1 : c.toNat < 0x80
  · simp only [utf8Char, h1, if_true, List.cons_append, List.nil_append, utf8DecodeOne]
    rw [ofNat_toNat]
  · by_cases h2 : c.toNat < 0x800
    · simp only [utf8Char, h1, h2, if_true, if_false, List.cons_append, List.nil_append,
        utf8DecodeOne]
      rw [if_neg (by omega), if_neg (by omega), if_pos (by omega : 0xc0 + c.toNat / 64 < 0xe0),
        if_pos (by omega : 0x80 ≤ 0x80 + c.toNat % 64 ∧ 0x80 + c.toNat % 64 < 0xc0)]
      have : (0xc0 + c.toNat / 64 - 0xc0) * 64 + (0x80 + c.toNat % 64 - 0x80) = c.toNat := by
        omega
      rw [this, ofNat_toNat]
    · by_cases h3 : c.toNat < 0x10000
      · simp only [utf8Char, h1, h2, h3, if_true, if_false, List.cons_append, List.nil_append,
          utf8DecodeOne]
        rw [if_neg (by omega), if_neg (by omega), if_neg (by omega),
          if_pos (by omega : 0xe0 + c.toNat / 4096 < 0xf0),
          if_pos (by omega : 0x80 ≤ 0x80 + c.toNat / 64 % 64 ∧ 0x80 + c.toNat / 64 % 64 < 0xc0 ∧
            0x80 ≤ 0x80 + c.toNat % 64 ∧ 0x80 + c.toNat % 64 < 0xc0)]
        have : (0xe0 + c.toNat / 4096 - 0xe0) * 4096 + (0x80 + c.toNat / 64 % 64 - 0x80) * 64 +
            (0x80 + c.toNat % 64 - 0x80) = c.toNat := by omega
        rw [this, ofNat_toNat]
      · simp only [utf8Char, h1, h2, h3, if_true, if_false, List.cons_append, List.nil_append,
          utf8DecodeOne]
        rw [if_neg (by omega), if_neg (by omega), if_neg (by omega), if_neg (by omega),
          if_pos (by omega : 0xf0 + c.toNat / 262144 < 0xf5),
          if_pos (by omega : 0x80 ≤ 0x80 + c.toNat / 4096 % 64 ∧ 0x80 + c.toNat / 4096 % 64 < 0xc0 ∧
            0x80 ≤ 0x80 + c.toNat / 64 % 64 ∧ 0x80 + c.toNat / 64 % 64 < 0xc0 ∧
            0x80 ≤ 0x80 + c.toNat % 64 ∧ 0x80 + c.toNat % 64 < 0xc0)]
        have : (0xf0 + c.toNat / 262144 - 0xf0) * 262144 + (0x80 + c.toNat / 4096 % 64 - 0x80) * 4096 +
            (0x80 + c.toNat / 64 % 64 - 0x80) * 64 + (0x80 + c.toNat % 64 - 0x80) = c.toNat := by
          omega
        rw [this, ofNat_toNat]

theorem utf8Char_length_pos (c : Char) : 1 ≤ (utf8Char c).length := by
  simp only [utf8Char]
  split
  · simp
  · split
    · simp
    · split <;> simp

theorem utf8DecodeF_encode (cs : List Char) :
    ∀ fuel, (utf8Encode cs).length ≤ fuel → utf8DecodeF fuel (utf8Encode cs) = some cs := by
  induction cs with
  | nil => intro fuel _; cases fuel <;> rfl
  | cons c cs ih =>
    intro fuel hfuel
    have hpos := utf8Char_length_pos c
    simp only [utf8Encode, List.flatMap_cons, List.length_append] at hfuel ⊢
    have hc : ∃ b0 bs, utf8Char c = b0 :: bs := by
      cases h : utf8Char c with
      | nil => rw [h] at hpos; simp at hpos
      | cons b0 bs => exact ⟨b0, bs, rfl⟩
    obtain ⟨b0, bs, hc⟩ := hc
    obtain ⟨fuel, rfl⟩ : ∃ f, fuel = f + 1 := by
      refine ⟨fuel - 1, ?_⟩
      omega
    have henc : cs.flatMap utf8Char = utf8Encode cs := rfl
    rw [hc, List.cons_append, utf8DecodeF, ← List.cons_append, ← hc, henc]
    rw [utf8DecodeOne_char]
    simp only [Option.bind_some, Option.some_bind]
    rw [ih fuel (by simp only [utf8Encode] at *; omega)]
    rfl

/-- UTF-8 round-trip: decoding the encoding of any codepoint list gives it
back. -/
theorem utf8Decode_encode (cs : List Char) : utf8Decode (utf8Encode cs) = some cs :=
  utf8DecodeF_encode cs _ (Nat.le_refl _)

/-! ## Bit-level helpers for base32 and base64

Both encodings regroup the big-endian bit stream of the input bytes. -/

/-- Big-endian bits of one byte. -/
def byteBits (b : Nat) : List Bool :=
  [b / 128 % 2 == 1, b / 64 % 2 == 1, b / 32 % 2 == 1, b / 16 % 2 == 1,
   b / 8 % 2 == 1, b / 4 % 2 == 1, b / 2 % 2 == 1, b % 2 == 1]

/-- Value of a big-endian bit list. -/
def bitsVal : List Bool → Nat
  | [] => 0
  | x :: xs => (if x then 1 else 0) * 2 ^ xs.length + bitsVal xs

/-- Big-endian bit stream of a byte list. -/
def bytesBits (bs : Bytes) : List Bool := bs.flatMap byteBits

/-- Regroup a bit stream into bytes, eight bits at a time; a ragged tail of
fewer than eight bits is dropped. -/
def bytesFromBits : List Bool → Bytes
  | x0 :: x1 :: x2 :: x3 :: x4 :: x5 :: x6 :: x7 :: rest =>
    bitsVal [x0, x1, x2, x3, x4, x5, x6, x7] :: bytesFromBits rest
  | _ => []

set_option maxRecDepth 4000 in
theorem bitsVal_byteBits (b : Nat) (h : b < 256) : bitsVal (byteBits b) = b := by
  revert h
  revert b
  decide

theorem bytesFromBits_byte (b : Nat) (h : b < 256) (rest : List Bool) :
    bytesFromBits (byteBits b ++ rest) = b :: bytesFromBits rest := by
  simp only [byteBits, List.cons_append, List.nil_append]
  rw [bytesFromBits]
  rw [show ([b / 128 % 2 == 1, b / 64 % 2 == 1, b / 32 % 2 == 1, b / 16 % 2 == 1,
    b / 8 % 2 == 1, b / 4 % 2 == 1, b / 2 % 2 == 1, b % 2 == 1] : List Bool) = byteBits b from rfl]
  rw [bitsVal_byteBits b h]

theorem bytesFromBits_short (l : List Bool) (h : l.length < 8) : bytesFromBits l = [] := by
  rcases l with _ | ⟨x0, _ | ⟨x1, _ | ⟨x2, _ | ⟨x3, _ | ⟨x4, _ | ⟨x5, _ | ⟨x6, _ | ⟨x7, rest⟩⟩⟩⟩⟩⟩⟩⟩ <;>
    first
      | rfl
      | (exfalso; simp only [List.length_cons] at h; omega)

theorem bytesFromBits_encode (bs : Bytes) (h : validBytes bs) (extra : List Bool)
    (hx : extra.length < 8) : bytesFromBits (bytesBits bs ++ extra) = bs := by
  induction bs with
  | nil => simpa [bytesBits] using bytesFromBits_short extra hx
  | cons b bs ih =>
    have hb : b < 256 := h b (List.mem_cons_self ..)
    have hbs : validBytes bs := fun x hxm => h x (List.mem_cons_of_mem _ hxm)
    simp only [bytesBits, List.flatMap_cons, List.append_assoc]
    rw [bytesFromBits_byte b hb]
    rw [show bs.flatMap byteBits = bytesBits bs from rfl]
    rw [ih hbs]

theorem bytesBits_length (bs : Bytes) : (bytesBits bs).length = 8 * bs.length := by
  induction bs with
  | nil => rfl
  | cons b bs ih =>
    simp only [bytesBits, List.flatMap_cons, List.length_append, List.length_cons] at *
    rw [ih]
    simp only [byteBits, List.length_cons, List.length_nil]
    omega

/-- Generic character-by-character decoding against an alphabet lookup. -/
def decodeVals (charVal : Char → Option Nat) : List Char → Option (List Nat)
  | [] => some []
  | c :: cs =>
    match charVal c, decodeVals charVal cs with
    | some v, some vs => some (v :: vs)
    | _, _ => none

/-! ## base32 (go-multibase, Base32 = RFC 4648 lowercase, no padding)

`multibase.Encode(multibase.Base32, ...)` produces a `'b'` prefix followed by
the base32 encoding; `multibase.Decode` reads the prefix back. Only the
Base32 case can occur in this repository, so the model decodes only it. -/

def b32Alphabet : List Char := "abcdefghijklmnopqrstuvwxyz234567".toList

/-- Big-endian bits of a 5-bit group value. -/
def natBits5 (v : Nat) : List Bool :=
  [v / 16 % 2 == 1, v / 8 % 2 == 1, v / 4 % 2 == 1, v / 2 % 2 == 1, v % 2 == 1]

def chunk5 : List Bool → List (List Bool)
  | x0 :: x1 :: x2 :: x3 :: x4 :: rest => [x0, x1, x2, x3, x4] :: chunk5 rest
  | _ => []

/-- `multibase.Encode(multibase.Base32, bs)`: the textual multibase form. -/
def multibaseB32 (bs : Bytes) : String :=
  let bits := bytesBits bs ++ List.replicate ((5 - (8 * bs.length) % 5) % 5) false
  String.mk ('b' :: (chunk5 bits).map (fun g => b32Alphabet.getD (bitsVal g) 'a'))

def b32CharVal (c : Char) : Option Nat := List.findIdx? (· == c) b32Alphabet

/-- `multibase.Decode`: strip the `'b'` prefix and decode base32. -/
def multibaseDecode (s : String) : Option Bytes :=
  match s.toList with
  | 'b' :: cs => (decodeVals b32CharVal cs).map fun vs => bytesFromBits (vs.flatMap natBits5)
  | _ => none

theorem bitsVal_lt_32 (g : List Bool) (h : g.length = 5) : bitsVal g < 32 := by
  rcases g with _ | ⟨x0, _ | ⟨x1, _ | ⟨x2, _ | ⟨x3, _ | ⟨x4, rest⟩⟩⟩⟩⟩ <;>
    simp only [List.length_cons, List.length_nil] at h <;> try omega
  have : rest = [] := by
    cases rest
    · rfl
    · simp only [List.length_cons] at h; omega
  subst this
  revert x0 x1 x2 x3 x4
  decide

theorem b32CharVal_enc (v : Nat) (h : v < 32) :
    b32CharVal (b32Alphabet.getD v 'a') = some v := by
  revert h
  revert v
  decide

theorem natBits5_bitsVal (g : List Bool) (h : g.length = 5) : natBits5 (bitsVal g) = g := by
  rcases g with _ | ⟨x0, _ | ⟨x1, _ | ⟨x2, _ | ⟨x3, _ | ⟨x4, rest⟩⟩⟩⟩⟩ <;>
    simp only [List.length_cons, List.length_nil] at h <;> try omega
  have : rest = [] := by
    cases rest
    · rfl
    · simp only [List.length_cons] at h; omega
  subst this
  revert x0 x1 x2 x3 x4
  decide

theorem chunk5_lengths (bits : List Bool) : ∀ g ∈ chunk5 bits, g.length = 5 := by
  induction bits using chunk5.induct with
  | case1 x0 x1 x2 x3 x4 rest ih =>
    intro g hg
    rw [chunk5] at hg
    rcases List.mem_cons.mp hg with hgg | hgg
    · subst hgg; rfl
    · exact ih g hgg
  | case2 t hne =>
    intro g hg
    rcases t with _ | ⟨x0, _ | ⟨x1, _ | ⟨x2, _ | ⟨x3, _ | ⟨x4, rest⟩⟩⟩⟩⟩ <;>
      first
        | exact (hne _ _ _ _ _ _ rfl).elim
        | (simp only [chunk5] at hg; exact absurd hg (List.not_mem_nil g))

theorem chunk5_flatten : ∀ (bits : List Bool), bits.length % 5 = 0 →
    (chunk5 bits).flatten = bits := by
  intro bits
  induction bits using chunk5.induct with
  | case1 x0 x1 x2 x3 x4 rest ih =>
    intro h
    rw [chunk5, List.flatten_cons]
    simp only [List.length_cons] at h
    rw [ih (by omega)]
    rfl
  | case2 t hne =>
    intro h
    rcases t with _ | ⟨x0, _ | ⟨x1, _ | ⟨x2, _ | ⟨x3, _ | ⟨x4, rest⟩⟩⟩⟩⟩
    · rfl
    all_goals first
      | exact (hne _ _ _ _ _ _ rfl).elim
      | (exfalso; simp only [List.length_cons, List.length_nil] at h; omega)

theorem decodeVals_b32 (groups : List (List Bool)) (h : ∀ g ∈ groups, g.length = 5) :
    decodeVals b32CharVal (groups.map (fun g => b32Alphabet.getD (bitsVal g) 'a')) =
      some (groups.map bitsVal) := by
  induction groups with
  | nil => rfl
  | cons g gs ih =>
    simp only [List.map_cons]
    rw [decodeVals]
    rw [b32CharVal_enc _ (bitsVal_lt_32 g (h g (List.mem_cons_self ..)))]
    rw [ih fun x hx => h x (List.mem_cons_of_mem _ hx)]

theorem flatMap_natBits5 (groups : List (List Bool)) (h : ∀ g ∈ groups, g.length = 5) :
    (groups.map bitsVal).flatMap natBits5 = groups.flatten := by
  induction groups with
  | nil => rfl
  | cons g gs ih =>
    simp only [List.map_cons, List.flatMap_cons, List.flatten_cons]
    rw [natBits5_bitsVal g (h g (List.mem_cons_self ..)), ih fun x hx => h x (List.mem_cons_of_mem _ hx)]

/-- base32 multibase round-trip. -/
theorem multibaseDecode_encode (bs : Bytes) (h : validBytes bs) :
    multibaseDecode (multibaseB32 bs) = some bs := by
  rw [multibaseB32, multibaseDecode]
  simp only [String.toList]
  rw [decodeVals_b32 _ (chunk5_lengths _), Option.map_some']
  rw [flatMap_natBits5 _ (chunk5_lengths _)]
  rw [chunk5_flatten _ (by
    simp only [List.length_append, List.length_replicate, bytesBits_length]
    omega)]
  rw [bytesFromBits_encode bs h _ (by simp only [List.length_replicate]; omega)]

/-! ## base64 (encoding/base64 StdEncoding, with padding)

Envelope content bytes are serialized as standard base64 strings by Go's
`encoding/json`, and decoded back on unmarshal. -/

def b64Alphabet : List Char :=
  "ABCDEFGHIJKLMNOPQRSTUVWXYZabcdefghijklmnopqrstuvwxyz0123456789+/".toList

/-- Big-endian bits of a 6-bit group value. -/
def natBits6 (v : Nat) : List Bool :=
  [v / 32 % 2 == 1, v / 16 % 2 == 1, v / 8 % 2 == 1, v / 4 % 2 == 1, v / 2 % 2 == 1, v % 2 == 1]

def chunk6 : List Bool → List (List Bool)
  | x0 :: x1 :: x2 :: x3 :: x4 :: x5 :: rest => [x0, x1, x2, x3, x4, x5] :: chunk6 rest
  | _ => []

/-- `base64.StdEncoding.EncodeToString`. -/
def base64Encode (bs : Bytes) : String :=
  let bits := bytesBits bs ++ List.replicate ((6 - (8 * bs.length) % 6) % 6) false
  let chars := (chunk6 bits).map (fun g => b64Alphabet.getD (bitsVal g) 'A')
  String.mk (chars ++ List.replicate ((4 - chars.length % 4) % 4) '=')

def b64CharVal (c : Char) : Option Nat := List.findIdx? (· == c) b64Alphabet

/-- `base64.StdEncoding.DecodeString`: in-domain inputs are always produced
by the encoder, so the model decodes the data characters and drops the
trailing padding. -/
def base64Decode (s : String) : Option Bytes :=
  let core := s.toList.takeWhile (· != '=')
  (decodeVals b64CharVal core).map fun vs => bytesFromBits (vs.flatMap natBits6)

theorem bitsVal_lt_64 (g : List Bool) (h : g.length = 6) : bitsVal g < 64 := by
  rcases g with _ | ⟨x0, _ | ⟨x1, _ | ⟨x2, _ | ⟨x3, _ | ⟨x4, _ | ⟨x5, rest⟩⟩⟩⟩⟩⟩ <;>
    simp only [List.length_cons, List.length_nil] at h <;> try omega
  have : rest = [] := by
    cases rest
    · rfl
    · simp only [List.length_cons] at h; omega
  subst this
  revert x0 x1 x2 x3 x4 x5
  decide

theorem b64CharVal_enc (v : Nat) (h : v < 64) :
    b64CharVal (b64Alphabet.getD v 'A') = some v := by
  revert h
  revert v
  decide

theorem b64Char_ne_pad (v : Nat) (h : v < 64) : (b64Alphabet.getD v 'A') ≠ '=' := by
  revert h
  revert v
  decide

theorem natBits6_bitsVal (g : List Bool) (h : g.length = 6) : natBits6 (bitsVal g) = g := by
  rcases g with _ | ⟨x0, _ | ⟨x1, _ | ⟨x2, _ | ⟨x3, _ | ⟨x4, _ | ⟨x5, rest⟩⟩⟩⟩⟩⟩ <;>
    simp only [List.length_cons, List.length_nil] at h <;> try omega
  have : rest = [] := by
    cases rest
    · rfl
    · simp only [List.length_cons] at h; omega
  subst this
  revert x0 x1 x2 x3 x4 x5
  decide

theorem chunk6_lengths (bits : List Bool) : ∀ g ∈ chunk6 bits, g.length = 6 := by
  induction bits using chunk6.induct with
  | case1 x0 x1 x2 x3 x4 x5 rest ih =>
    intro g hg
    rw [chunk6] at hg
    rcases List.mem_cons.mp hg with hgg | hgg
    · subst hgg; rfl
    · exact ih g hgg
  | case2 t hne =>
    intro g hg
    rcases t with _ | ⟨x0, _ | ⟨x1, _ | ⟨x2, _ | ⟨x3, _ | ⟨x4, _ | ⟨x5, rest⟩⟩⟩⟩⟩⟩ <;>
      first
        | exact (hne _ _ _ _ _ _ _ rfl).elim
        | (simp only [chunk6] at hg; exact absurd hg (List.not_mem_nil g))

theorem chunk6_flatten : ∀ (bits : List Bool), bits.length % 6 = 0 →
    (chunk6 bits).flatten = bits := by
  intro bits
  induction bits using chunk6.induct with
  | case1 x0 x1 x2 x3 x4 x5 rest ih =>
    intro h
    rw [chunk6, List.flatten_cons]
    simp only [List.length_cons] at h
    rw [ih (by omega)]
    rfl
  | case2 t hne =>
    intro h
    rcases t with _ | ⟨x0, _ | ⟨x1, _ | ⟨x2, _ | ⟨x3, _ | ⟨x4, _ | ⟨x5, rest⟩⟩⟩⟩⟩⟩
    · rfl
    all_goals first
      | exact (hne _ _ _ _ _ _ _ rfl).elim
      | (exfalso; simp only [List.length_cons, List.length_nil] at h; omega)

theorem decodeVals_b64 (groups : List (List Bool)) (h : ∀ g ∈ groups, g.length = 6) :
    decodeVals b64CharVal (groups.map (fun g => b64Alphabet.getD (bitsVal g) 'A')) =
      some (groups.map bitsVal) := by
  induction groups with
  | nil => rfl
  | cons g gs ih =>
    simp only [List.map_cons]
    rw [decodeVals]
    rw [b64CharVal_enc _ (bitsVal_lt_64 g (h g (List.mem_cons_self ..)))]
    rw [ih fun x hx => h x (List.mem_cons_of_mem _ hx)]

theorem flatMap_natBits6 (groups : List (List Bool)) (h : ∀ g ∈ groups, g.length = 6) :
    (groups.map bitsVal).flatMap natBits6 = groups.flatten := by
  induction groups with
  | nil => rfl
  | cons g gs ih =>
    simp only [List.map_cons, List.flatMap_cons, List.flatten_cons]
    rw [natBits6_bitsVal g (h g (List.mem_cons_self ..)), ih fun x hx => h x (List.mem_cons_of_mem _ hx)]

theorem takeWhile_data_pad (chars : List Char) (pad : Nat)
    (hc : ∀ c ∈ chars, c ≠ '=') :
    (chars ++ List.replicate pad '=').takeWhile (· != '=') = chars := by
  induction chars with
  | nil =>
    cases pad
    · rfl
    · simp [List.replicate, List.takeWhile]
  | cons c cs ih =>
    simp only [List.cons_append, List.takeWhile_cons]
    rw [if_pos (by simpa using hc c (List.mem_cons_self ..))]
    rw [ih fun x hx => hc x (List.mem_cons_of_mem _ hx)]

/-- base64 round-trip. -/
theorem base64Decode_encode (bs : Bytes) (h : validBytes bs) :
    base64Decode (base64Encode bs) = some bs := by
  rw [base64Encode, base64Decode]
  simp only [String.toList]
  rw [takeWhile_data_pad _ _ (by
    intro c hc
    simp only [List.mem_map] at hc
    obtain ⟨g, hg, rfl⟩ := hc
    exact b64Char_ne_pad _ (bitsVal_lt_64 g (chunk6_lengths _ g hg)))]
  rw [decodeVals_b64 _ (chunk6_lengths _), Option.map_some']
  rw [flatMap_natBits6 _ (chunk6_lengths _)]
  rw [chunk6_flatten _ (by
    simp only [List.length_append, List.length_replicate, bytesBits_length]
    omega)]
  rw [bytesFromBits_encode bs h _ (by simp only [List.length_replicate]; omega)]


/-! ## Go string helpers (strings.ReplaceAll, TrimSpace, Contains, FieldsFunc)

All are modelled over `List Char`; the patterns used by this repository
(":", "__") are ASCII, and UTF-8 is self-synchronizing, so byte-level and
codepoint-level scanning agree. -/

/-- One left-to-right scan step list for `strings.ReplaceAll`: when the
pattern starts at the cursor, emit the replacement and jump past the
pattern, else emit one character. Fuelled by the input length (the pattern
is non-empty for every call site in this repository). -/
def goReplaceAllF (pat rep : List Char) : Nat → List Char → List Char
  | _, [] => []
  | 0, s => s
  | fuel + 1, c :: s =>
    if pat.isPrefixOf (c :: s) then rep ++ goReplaceAllF pat rep fuel (s.drop (pat.length - 1))
    else c :: goReplaceAllF pat rep fuel s

/-- `strings.ReplaceAll(s, pat, rep)` over codepoint lists. -/
def goReplaceAll (s pat rep : List Char) : List Char :=
  goReplaceAllF pat rep s.length s

/-- `strings.Contains(s, sub)`. -/
def goContains : List Char → List Char → Bool
  | [], sub => sub.isEmpty
  | c :: t, sub => sub.isPrefixOf (c :: t) || goContains t sub

/-- `unicode.IsSpace` (White_Space property). -/
def goIsSpace (c : Char) : Bool :=
  c.toNat = 0x20 || (0x09 ≤ c.toNat && c.toNat ≤ 0x0d) || c.toNat = 0x85 || c.toNat = 0xa0 ||
  c.toNat = 0x1680 || (0x2000 ≤ c.toNat && c.toNat ≤ 0x200a) || c.toNat = 0x2028 ||
  c.toNat = 0x2029 || c.toNat = 0x202f || c.toNat = 0x205f || c.toNat = 0x3000

/-- `strings.TrimSpace`. -/
def goTrimSpace (s : List Char) : List Char :=
  ((s.dropWhile goIsSpace).reverse.dropWhile goIsSpace).reverse

theorem dropWhile_of_none (p : Char → Bool) (s : List Char)
    (h : ∀ c ∈ s, p c = false) : s.dropWhile p = s := by
  induction s with
  | nil => rfl
  | cons c t ih =>
    rw [List.dropWhile_cons, if_neg (by simp [h c (List.mem_cons_self ..)])]

theorem goTrimSpace_no_space (s : List Char) (h : ∀ c ∈ s, goIsSpace c = false) :
    goTrimSpace s = s := by
  rw [goTrimSpace, dropWhile_of_none _ _ h,
    dropWhile_of_none _ _ (fun c hc => h c (List.mem_reverse.mp hc)), List.reverse_reverse]

/-- `strings.FieldsFunc(s, f)`: maximal runs of characters on which `f` is
false, with an accumulator for the current run. -/
def fieldsAux (f : Char → Bool) : List Char → List Char → List (List Char)
  | cur, [] => if cur.isEmpty then [] else [cur.reverse]
  | cur, c :: rest =>
    if f c then
      if cur.isEmpty then fieldsAux f [] rest else cur.reverse :: fieldsAux f [] rest
    else fieldsAux f (c :: cur) rest

def goFieldsFunc (f : Char → Bool) (s : List Char) : List (List Char) := fieldsAux f [] s

/-! ## Byte-lexicographic string order (sort.Strings, sort.Slice keys)

Go compares strings byte-wise; UTF-8 preserves codepoint order, so the
codepoint-lexicographic order below coincides with Go's byte order. Defined
as executable Bool functions (Lean's own String order is not used). -/

def charListLe : List Char → List Char → Bool
  | [], _ => true
  | _ :: _, [] => false
  | a :: as, b :: bs =>
    if a.toNat < b.toNat then true
    else if b.toNat < a.toNat then false
    else charListLe as bs

def charListLt : List Char → List Char → Bool
  | [], [] => false
  | [], _ :: _ => true
  | _ :: _, [] => false
  | a :: as, b :: bs =>
    if a.toNat < b.toNat then true
    else if b.toNat < a.toNat then false
    else charListLt as bs

/-- Go `a <= b` on strings. -/
def strLe (a b : String) : Bool := charListLe a.toList b.toList

/-- Go `a < b` on strings. -/
def strLt (a b : String) : Bool := charListLt a.toList b.toList

theorem charListLe_total (a b : List Char) : charListLe a b = true ∨ charListLe b a = true := by
  induction a generalizing b with
  | nil => exact Or.inl rfl
  | cons x xs ih =>
    cases b with
    | nil => exact Or.inr rfl
    | cons y ys =>
      rw [charListLe, charListLe]
      by_cases h1 : x.toNat < y.toNat
      · rw [if_pos h1]
        exact Or.inl rfl
      · by_cases h2 : y.toNat < x.toNat
        · rw [if_neg h1, if_pos h2, if_pos h2]
          exact Or.inr rfl
        · rw [if_neg h1, if_neg h2, if_neg h2, if_neg h1]
          exact ih ys

theorem strLe_total (a b : String) : strLe a b = true ∨ strLe b a = true :=
  charListLe_total a.toList b.toList

/-! ## JSON values

`encoding/json` trees: `json.Unmarshal` into `interface` produces nulls,
bools, numbers, strings, arrays and string-keyed objects. Numbers are
modelled as integers (every in-domain number is integral and far below the
magnitude where Go's float64 formatting switches to exponent form). -/

inductive Json where
  | null : Json
  | bool (b : Bool) : Json
  | num (n : Int) : Json
  | str (s : String) : Json
  | arr (elems : List Json) : Json
  | obj (fields : List (String × Json)) : Json

/-- Go `encoding/json` string escaping of one character (with the default
HTML escaping of `json.Marshal`). -/
def escChar (c : Char) : List Char :=
  if c = '"' then ['\\', '"']
  else if c = '\\' then ['\\', '\\']
  else if c = '\n' then ['\\', 'n']
  else if c = '\r' then ['\\', 'r']
  else if c = '\t' then ['\\', 't']
  else if c.toNat < 0x20 then
    ['\\', 'u', '0', '0', hexChars.getD (c.toNat / 16) '0', hexChars.getD (c.toNat % 16) '0']
  else if c = '<' then ['\\', 'u', '0', '0', '3', 'c']
  else if c = '>' then ['\\', 'u', '0', '0', '3', 'e']
  else if c = '&' then ['\\', 'u', '0', '0', '2', '6']
  else if c.toNat = 0x2028 then ['\\', 'u', '2', '0', '2', '8']
  else if c.toNat = 0x2029 then ['\\', 'u', '2', '0', '2', '9']
  else [c]

/-- A JSON string literal as Go's encoder emits it. -/
def renderString (s : String) : List Char :=
  '"' :: (s.toList.flatMap escChar ++ ['"'])

/-- Decimal digits of a natural number (fuelled; `natDigits` supplies
enough fuel). -/
def natDigitsF : Nat → Nat → List Char
  | 0, _ => []
  | fuel + 1, n =>
    if n < 10 then [hexChars.getD n '0']
    else natDigitsF fuel (n / 10) ++ [hexChars.getD (n % 10) '0']

def natDigits (n : Nat) : List Char := natDigitsF (n + 1) n

/-- Go's rendering of an integral float64 (in-domain numbers are small
integers, rendered in plain decimal). -/
def renderInt (n : Int) : List Char :=
  if n < 0 then '-' :: natDigits n.natAbs else natDigits n.toNat

/-- Comma-join rendered pieces. -/
def joinComma : List (List Char) → List Char
  | [] => []
  | [x] => x
  | x :: xs => x ++ ',' :: joinComma xs

mutual

/-- `canonicalEncode` (src/unnamed/part_002): deterministic JSON encoding —
object keys sorted lexicographically at every level, no whitespace, scalars
as Go's encoder writes them. The source sorts an object's keys and then
renders each value; the model renders each field and then sorts the
rendered fields by key, which produces the same text because the sort key
is the field name alone and in-domain objects (Go maps) have no duplicate
names. -/
def canonicalEncode : Json → List Char
  | .null => 'n' :: ['u', 'l', 'l']
  | .bool true => 't' :: ['r', 'u', 'e']
  | .bool false => 'f' :: ['a', 'l', 's', 'e']
  | .num n => renderInt n
  | .str s => renderString s
  | .arr xs => '[' :: (joinComma (encodeItems xs) ++ [']'])
  | .obj kvs =>
    '{' :: (joinComma ((List.insertionSort (fun a b => strLe a.1 b.1 = true)
      (encodeFields kvs)).map (fun kv => renderString kv.1 ++ ':' :: kv.2)) ++ ['}'])

def encodeItems : List Json → List (List Char)
  | [] => []
  | x :: xs => canonicalEncode x :: encodeItems xs

def encodeFields : List (String × Json) → List (String × List Char)
  | [] => []
  | (k, v) :: rest => (k, canonicalEncode v) :: encodeFields rest

end

/-- Keys strictly sorted (so in particular no duplicates). -/
def keysSorted : List (String × Json) → Bool
  | [] => true
  | [_] => true
  | (k1, _) :: (k2, v2) :: rest => strLt k1 k2 && keysSorted ((k2, v2) :: rest)

mutual

/-- A tree is canonical when every object's keys are strictly sorted, at
every level; `sortJson` fixes exactly these trees. -/
def isCanon : Json → Bool
  | .null => true
  | .bool _ => true
  | .num _ => true
  | .str _ => true
  | .arr xs => itemsCanon xs
  | .obj kvs => keysSorted kvs && fieldsCanon kvs

def itemsCanon : List Json → Bool
  | [] => true
  | x :: xs => isCanon x && itemsCanon xs

def fieldsCanon : List (String × Json) → Bool
  | [] => true
  | (_, v) :: rest => isCanon v && fieldsCanon rest

end

/-! ## JSON parsing (the decoding half of `encoding/json.Unmarshal`)

The system only ever unmarshals bytes it produced itself with
`CanonicalJSON`, so the parser handles exactly the canonical grammar: no
whitespace skipping, integral numbers, and the escapes Go's encoder emits.
All loops are fuelled; every entry point supplies fuel from the input
length, and the round-trip theorems show any sufficient fuel gives the same
answer. -/

def parseHexDigit (c : Char) : Option Nat :=
  if '0' ≤ c ∧ c ≤ '9' then some (c.toNat - 48)
  else if 'a' ≤ c ∧ c ≤ 'f' then some (c.toNat - 87)
  else if 'A' ≤ c ∧ c ≤ 'F' then some (c.toNat - 55)
  else none

/-- First character test without consuming. -/
def headIs (c : Char) : List Char → Bool
  | [] => false
  | x :: _ => x = c

/-- A JSON string escape after the backslash. -/
def parseEsc : List Char → Option (Char × List Char)
  | [] => none
  | e :: rest =>
    if e = '"' ∨ e = '\\' ∨ e = '/' then some (e, rest)
    else if e = 'n' then some ('\n', rest)
    else if e = 'r' then some ('\r', rest)
    else if e = 't' then some ('\t', rest)
    else if e = 'b' then some (Char.ofNat 8, rest)
    else if e = 'f' then some (Char.ofNat 12, rest)
    else if e = 'u' then
      match rest with
      | h1 :: h2 :: h3 :: h4 :: rest' =>
        match parseHexDigit h1, parseHexDigit h2, parseHexDigit h3, parseHexDigit h4 with
        | some v1, some v2, some v3, some v4 =>
          some (Char.ofNat (v1 * 4096 + v2 * 256 + v3 * 16 + v4), rest')
        | _, _, _, _ => none
      | _ => none
    else none

/-- Body of a JSON string literal after the opening quote, undoing
`escChar`. -/
def parseStringBody : Nat → List Char → Option (List Char × List Char)
  | _, [] => none
  | 0, _ :: _ => none
  | fuel + 1, c :: rest =>
    if c = '"' then some ([], rest)
    else if c = '\\' then
      (parseEsc rest).bind fun p => (parseStringBody fuel p.2).map (fun q => (p.1 :: q.1, q.2))
    else (parseStringBody fuel rest).map (fun q => (c :: q.1, q.2))

def isDigitCh (c : Char) : Bool := '0' ≤ c && c ≤ '9'

def digitsVal (ds : List Char) : Nat := ds.foldl (fun a c => a * 10 + (c.toNat - 48)) 0

def parseNat (s : List Char) : Option (Nat × List Char) :=
  let ds := s.takeWhile isDigitCh
  if ds.isEmpty then none else some (digitsVal ds, s.dropWhile isDigitCh)

def parseNumber (s : List Char) : Option (Int × List Char) :=
  if headIs '-' s then (parseNat s.tail).map (fun p => (-(p.1 : Int), p.2))
  else (parseNat s).map (fun p => ((p.1 : Int), p.2))

mutual

def parseVal : Nat → List Char → Option (Json × List Char)
  | 0, _ => none
  | _ + 1, [] => none
  | fuel + 1, c :: rest =>
    if c = 'n' then
      if ['u', 'l', 'l'].isPrefixOf rest then some (Json.null, rest.drop 3) else none
    else if c = 't' then
      if ['r', 'u', 'e'].isPrefixOf rest then some (Json.bool true, rest.drop 3) else none
    else if c = 'f' then
      if ['a', 'l', 's', 'e'].isPrefixOf rest then some (Json.bool false, rest.drop 4) else none
    else if c = '"' then
      (parseStringBody fuel rest).map (fun p => (Json.str (String.mk p.1), p.2))
    else if c = '[' then
      if headIs ']' rest then some (Json.arr [], rest.tail)
      else (parseItems fuel rest).map (fun p => (Json.arr p.1, p.2))
    else if c = '{' then
      if headIs '}' rest then some (Json.obj [], rest.tail)
      else (parseFields fuel rest).map (fun p => (Json.obj p.1, p.2))
    else
      (parseNumber (c :: rest)).map (fun p => (Json.num p.1, p.2))

def parseItems : Nat → List Char → Option (List Json × List Char)
  | 0, _ => none
  | fuel + 1, s =>
    (parseVal fuel s).bind fun p =>
      if headIs ',' p.2 then (parseItems fuel p.2.tail).map (fun q => (p.1 :: q.1, q.2))
      else if headIs ']' p.2 then some ([p.1], p.2.tail)
      else none

def parseFields : Nat → List Char → Option (List (String × Json) × List Char)
  | 0, _ => none
  | fuel + 1, s =>
    if headIs '"' s then
      (parseStringBody fuel s.tail).bind fun pk =>
        if headIs ':' pk.2 then
          (parseVal fuel pk.2.tail).bind fun pv =>
            if headIs ',' pv.2 then
              (parseFields fuel pv.2.tail).map (fun q => ((String.mk pk.1, pv.1) :: q.1, q.2))
            else if headIs '}' pv.2 then some ([(String.mk pk.1, pv.1)], pv.2.tail)
            else none
        else none
    else none

end

/-- Parse a whole JSON document (the canonical grammar), requiring the
input to be fully consumed, as `json.Unmarshal` does. -/
def parseJson (s : List Char) : Option Json :=
  (parseVal (2 * s.length + 2) s).bind fun p => if p.2.isEmpty then some p.1 else none

/-! ## Parser round-trip lemmas -/

theorem parseHexDigit_enc (x : Nat) (h : x < 16) :
    parseHexDigit (hexChars.getD x '0') = some x := by
  revert h
  revert x
  decide

theorem psb_quote (fuel : Nat) (rest : List Char) :
    parseStringBody (fuel + 1) ('"' :: rest) = some ([], rest) := rfl

theorem psb_backslash (fuel : Nat) (rest : List Char) :
    parseStringBody (fuel + 1) ('\\' :: rest) =
      (parseEsc rest).bind fun p =>
        (parseStringBody fuel p.2).map (fun q => (p.1 :: q.1, q.2)) := rfl

theorem psb_plain (fuel : Nat) (c : Char) (rest : List Char) (h1 : ¬ c = '"')
    (h2 : ¬ c = '\\') :
    parseStringBody (fuel + 1) (c :: rest) =
      (parseStringBody fuel rest).map (fun q => (c :: q.1, q.2)) := by
  conv_lhs => rw [parseStringBody.eq_def]
  dsimp only
  rw [if_neg h1, if_neg h2]

theorem parseEsc_u (a b c' d : Char) (rest : List Char) :
    parseEsc ('u' :: a :: b :: c' :: d :: rest) =
      match parseHexDigit a, parseHexDigit b, parseHexDigit c', parseHexDigit d with
      | some v1, some v2, some v3, some v4 =>
        some (Char.ofNat (v1 * 4096 + v2 * 256 + v3 * 16 + v4), rest)
      | _, _, _, _ => none := rfl

theorem parseStringBody_char (c : Char) (fuel : Nat) (s : List Char) :
    parseStringBody (fuel + 1) (escChar c ++ s) =
      (parseStringBody fuel s).map (fun q => (c :: q.1, q.2)) := by
  have hval := c.valid
  rw [UInt32.isValidChar, Nat.isValidChar] at hval
  have htn : c.toNat = c.val.toNat := rfl
  by_cases h1 : c = '"'
  · subst h1; rfl
  · by_cases h2 : c = '\\'
    · subst h2; rfl
    · by_cases h3 : c = '\n'
      · subst h3; rfl
      · by_cases h4 : c = '\r'
        · subst h4; rfl
        · by_cases h5 : c = '\t'
          · subst h5; rfl
          · by_cases h6 : c.toNat < 0x20
            · simp only [escChar, if_neg h1, if_neg h2, if_neg h3, if_neg h4, if_neg h5,
                if_pos h6, List.cons_append, List.nil_append]
              rw [psb_backslash, parseEsc_u]
              rw [show parseHexDigit '0' = some 0 from rfl]
              rw [parseHexDigit_enc (c.toNat / 16) (by omega),
                parseHexDigit_enc (c.toNat % 16) (by omega)]
              dsimp only
              have hv : (0 : Nat) * 4096 + 0 * 256 + c.toNat / 16 * 16 + c.toNat % 16 =
                  c.toNat := by omega
              rw [hv, ofNat_toNat]
              rfl
            · by_cases h7 : c = '<'
              · subst h7; rfl
              · by_cases h8 : c = '>'
                · subst h8; rfl
                · by_cases h9 : c = '&'
                  · subst h9; rfl
                  · by_cases h10 : c.toNat = 0x2028
                    · simp only [escChar, if_neg h1, if_neg h2, if_neg h3, if_neg h4,
                        if_neg h5, if_neg h6, if_neg h7, if_neg h8, if_neg h9, if_pos h10,
                        List.cons_append, List.nil_append]
                      rw [psb_backslash, parseEsc_u]
                      rw [show parseHexDigit '2' = some 2 from rfl,
                        show parseHexDigit '0' = some 0 from rfl,
                        show parseHexDigit '8' = some 8 from rfl]
                      dsimp only
                      have hv : (2 : Nat) * 4096 + 0 * 256 + 2 * 16 + 8 = c.toNat := by omega
                      rw [hv, ofNat_toNat]
                      rfl
                    · by_cases h11 : c.toNat = 0x2029
                      · simp only [escChar, if_neg h1, if_neg h2, if_neg h3, if_neg h4,
                          if_neg h5, if_neg h6, if_neg h7, if_neg h8, if_neg h9, if_neg h10,
                          if_pos h11, List.cons_append, List.nil_append]
                        rw [psb_backslash, parseEsc_u]
                        rw [show parseHexDigit '2' = some 2 from rfl,
                          show parseHexDigit '0' = some 0 from rfl,
                          show parseHexDigit '9' = some 9 from rfl]
                        dsimp only
                        have hv : (2 : Nat) * 4096 + 0 * 256 + 2 * 16 + 9 = c.toNat := by omega
                        rw [hv, ofNat_toNat]
                        rfl
                      · simp only [escChar, if_neg h1, if_neg h2, if_neg h3, if_neg h4,
                          if_neg h5, if_neg h6, if_neg h7, if_neg h8, if_neg h9, if_neg h10,
                          if_neg h11, List.cons_append, List.nil_append]
                        exact psb_plain fuel c s h1 h2

theorem parseStringBody_render (cs : List Char) :
    ∀ fuel s, cs.length + 1 ≤ fuel →
      parseStringBody fuel (cs.flatMap escChar ++ ('"' :: s)) = some (cs, s) := by
  induction cs with
  | nil =>
    intro fuel s hf
    obtain ⟨f, rfl⟩ : ∃ f, fuel = f + 1 := ⟨fuel - 1, by omega⟩
    rw [List.flatMap_nil, List.nil_append, parseStringBody, if_pos rfl]
  | cons c cs ih =>
    intro fuel s hf
    simp only [List.length_cons] at hf
    obtain ⟨f, rfl⟩ : ∃ f, fuel = f + 1 := ⟨fuel - 1, by omega⟩
    rw [List.flatMap_cons, List.append_assoc, parseStringBody_char, ih f s (by omega)]
    rfl

theorem digitCh_val (n : Nat) (h : n < 10) : (hexChars.getD n '0').toNat = n + 48 := by
  revert h; revert n; decide

theorem digitCh_isDigit (n : Nat) (h : n < 10) : isDigitCh (hexChars.getD n '0') = true := by
  revert h; revert n; decide

theorem natDigitsF_digits (fuel : Nat) :
    ∀ n, n < 10 ^ fuel → ∀ c ∈ natDigitsF fuel n, isDigitCh c = true := by
  induction fuel with
  | zero => intro n hn c hc; simp [natDigitsF] at hc
  | succ fuel ih =>
    intro n hn c hc
    rw [natDigitsF] at hc
    by_cases h : n < 10
    · rw [if_pos h] at hc
      rcases List.mem_singleton.mp hc with rfl
      exact digitCh_isDigit n h
    · rw [if_neg h] at hc
      rcases List.mem_append.mp hc with hm | hm
      · refine ih (n / 10) ?_ c hm
        rw [pow_succ] at hn
        omega
      · rcases List.mem_singleton.mp hm with rfl
        exact digitCh_isDigit (n % 10) (by omega)

theorem natDigitsF_ne_nil (fuel n : Nat) : natDigitsF (fuel + 1) n ≠ [] := by
  rw [natDigitsF]
  by_cases h : n < 10
  · rw [if_pos h]; simp
  · rw [if_neg h]; simp

theorem digitsVal_append_one (ds : List Char) (c : Char) :
    digitsVal (ds ++ [c]) = 10 * digitsVal ds + (c.toNat - 48) := by
  rw [digitsVal, List.foldl_append]
  show (digitsVal ds) * 10 + (c.toNat - 48) = _
  omega

theorem digitsVal_natDigitsF (fuel : Nat) :
    ∀ n, n < 10 ^ fuel → digitsVal (natDigitsF fuel n) = n := by
  induction fuel with
  | zero => intro n hn; interval_cases n; rfl
  | succ fuel ih =>
    intro n hn
    rw [natDigitsF]
    by_cases h : n < 10
    · rw [if_pos h]
      show digitsVal ([] ++ [hexChars.getD n '0']) = n
      rw [digitsVal_append_one, digitCh_val n h]
      show 10 * digitsVal [] + (n + 48 - 48) = n
      rw [show digitsVal [] = 0 from rfl]
      omega
    · rw [if_neg h, digitsVal_append_one]
      rw [ih (n / 10) (by rw [pow_succ] at hn; omega), digitCh_val (n % 10) (by omega)]
      omega

theorem lt_ten_pow (n : Nat) : n < 10 ^ (n + 1) := by
  induction n with
  | zero => decide
  | succ n ih =>
    rw [pow_succ]
    omega

theorem natDigits_digits (n : Nat) : ∀ c ∈ natDigits n, isDigitCh c = true :=
  natDigitsF_digits (n + 1) n (lt_ten_pow n)

theorem digitsVal_natDigits (n : Nat) : digitsVal (natDigits n) = n :=
  digitsVal_natDigitsF (n + 1) n (lt_ten_pow n)

theorem natDigits_ne_nil (n : Nat) : natDigits n ≠ [] := natDigitsF_ne_nil n n

theorem takeWhile_append_all (p : Char → Bool) (l rest : List Char)
    (h : ∀ c ∈ l, p c = true) :
    (l ++ rest).takeWhile p = l ++ rest.takeWhile p := by
  induction l with
  | nil => rfl
  | cons c t ih =>
    rw [List.cons_append, List.takeWhile_cons, if_pos (h c (List.mem_cons_self ..)),
      ih fun x hx => h x (List.mem_cons_of_mem _ hx)]
    rfl

theorem dropWhile_append_all (p : Char → Bool) (l rest : List Char)
    (h : ∀ c ∈ l, p c = true) :
    (l ++ rest).dropWhile p = rest.dropWhile p := by
  induction l with
  | nil => rfl
  | cons c t ih =>
    rw [List.cons_append, List.dropWhile_cons, if_pos (h c (List.mem_cons_self ..)),
      ih fun x hx => h x (List.mem_cons_of_mem _ hx)]

/-- The continuation after a rendered scalar never starts with a digit: it
is empty or starts with a separator. -/
def noDigitHead : List Char → Bool
  | [] => true
  | c :: _ => ! isDigitCh c

theorem takeWhile_noDigit (rest : List Char) (h : noDigitHead rest = true) :
    rest.takeWhile isDigitCh = [] := by
  cases rest with
  | nil => rfl
  | cons c t =>
    rw [noDigitHead] at h
    rw [List.takeWhile_cons, if_neg (by simpa using h)]

theorem dropWhile_noDigit (rest : List Char) (h : noDigitHead rest = true) :
    rest.dropWhile isDigitCh = rest := by
  cases rest with
  | nil => rfl
  | cons c t =>
    rw [noDigitHead] at h
    rw [List.dropWhile_cons, if_neg (by simpa using h)]

theorem parseNat_render (n : Nat) (rest : List Char) (h : noDigitHead rest = true) :
    parseNat (natDigits n ++ rest) = some (n, rest) := by
  rw [parseNat]
  rw [takeWhile_append_all _ _ _ (natDigits_digits n), takeWhile_noDigit rest h]
  rw [dropWhile_append_all _ _ _ (natDigits_digits n), dropWhile_noDigit rest h]
  rw [List.append_nil]
  rw [if_neg (by simpa using natDigits_ne_nil n)]
  rw [digitsVal_natDigits]

theorem headIs_of_digits (n : Nat) (rest : List Char) :
    headIs '-' (natDigits n ++ rest) = false := by
  cases hd : natDigits n with
  | nil => exact absurd hd (natDigits_ne_nil n)
  | cons c t =>
    have hdig : isDigitCh c = true := by
      refine natDigits_digits n c ?_
      rw [hd]
      exact List.mem_cons_self ..
    rw [List.cons_append, headIs]
    have : ¬ c = '-' := by
      rintro rfl
      simp [isDigitCh] at hdig
    simpa using this

theorem parseNumber_render (n : Int) (rest : List Char) (h : noDigitHead rest = true) :
    parseNumber (renderInt n ++ rest) = some (n, rest) := by
  rw [renderInt]
  by_cases hn : n < 0
  · rw [if_pos hn, List.cons_append, parseNumber]
    rw [show headIs '-' ('-' :: (natDigits n.natAbs ++ rest)) = true from rfl]
    rw [if_pos rfl]
    show (parseNat (natDigits n.natAbs ++ rest)).map _ = _
    rw [parseNat_render _ _ h, Option.map_some']
    have : -(n.natAbs : Int) = n := by omega
    rw [this]
  · rw [if_neg hn, parseNumber, headIs_of_digits]
    rw [if_neg (by simp)]
    rw [parseNat_render _ _ h, Option.map_some']
    have : ((n.toNat : Nat) : Int) = n := by omega
    rw [this]

/-! ## Canonical-encoding round-trip

Fuel requirements for the parser, and the round-trip theorem: parsing the
canonical encoding of a canonical tree (object keys strictly sorted at
every level — true of every tree this system writes, since they come from
Go maps with sorted-key encoding) returns the tree. -/

mutual

def needV : Json → Nat
  | .null => 1
  | .bool _ => 1
  | .num _ => 1
  | .str s => s.toList.length + 2
  | .arr xs => 1 + needItems xs
  | .obj kvs => 1 + needFields kvs

def needItems : List Json → Nat
  | [] => 0
  | x :: xs => 1 + needV x + needItems xs

def needFields : List (String × Json) → Nat
  | [] => 0
  | (k, v) :: rest => 2 + k.toList.length + needV v + needFields rest

end

theorem encHead (j : Json) : ∃ c t, canonicalEncode j = c :: t ∧
    (c = 'n' ∨ c = 't' ∨ c = 'f' ∨ c = '"' ∨ c = '[' ∨ c = '{' ∨ c = '-' ∨
      isDigitCh c = true) := by
  cases j with
  | null => exact ⟨'n', _, rfl, Or.inl rfl⟩
  | bool b =>
    cases b
    · exact ⟨'f', _, rfl, Or.inr (Or.inr (Or.inl rfl))⟩
    · exact ⟨'t', _, rfl, Or.inr (Or.inl rfl)⟩
  | num n =>
    rw [show canonicalEncode (Json.num n) = renderInt n from rfl, renderInt]
    by_cases hn : n < 0
    · rw [if_pos hn]
      exact ⟨'-', _, rfl, by simp⟩
    · rw [if_neg hn]
      cases hd : natDigits n.toNat with
      | nil => exact absurd hd (natDigits_ne_nil _)
      | cons c t =>
        refine ⟨c, t, rfl, Or.inr (Or.inr (Or.inr (Or.inr (Or.inr (Or.inr (Or.inr ?_))))))⟩
        refine natDigits_digits n.toNat c ?_
        rw [hd]
        exact List.mem_cons_self ..
  | str s => exact ⟨'"', _, rfl, by simp⟩
  | arr xs => exact ⟨'[', _, rfl, by simp⟩
  | obj kvs => exact ⟨'{', _, rfl, by simp⟩

theorem headIs_enc_false (d : Char) (j : Json) (r : List Char)
    (hd : d = ']' ∨ d = '}') : headIs d (canonicalEncode j ++ r) = false := by
  obtain ⟨c, t, he, hc⟩ := encHead j
  rw [he, List.cons_append, headIs]
  have : ¬ c = d := by
    rcases hd with rfl | rfl <;>
      rcases hc with rfl | rfl | rfl | rfl | rfl | rfl | rfl | hdig <;>
        first
          | decide
          | (intro hcd; subst hcd; simp [isDigitCh] at hdig)
  simpa using this

theorem string_mk_toList (s : String) : String.mk s.toList = s := rfl

/- Step lemmas: `parseVal` at each concrete leading character. -/

theorem parseVal_quote (fuel : Nat) (tail : List Char) :
    parseVal (fuel + 1) ('"' :: tail) =
      (parseStringBody fuel tail).map (fun p => (Json.str (String.mk p.1), p.2)) := rfl

theorem parseVal_bracket (fuel : Nat) (tail : List Char) :
    parseVal (fuel + 1) ('[' :: tail) =
      if headIs ']' tail then some (Json.arr [], tail.tail)
      else (parseItems fuel tail).map (fun p => (Json.arr p.1, p.2)) := rfl

theorem parseVal_brace (fuel : Nat) (tail : List Char) :
    parseVal (fuel + 1) ('{' :: tail) =
      if headIs '}' tail then some (Json.obj [], tail.tail)
      else (parseFields fuel tail).map (fun p => (Json.obj p.1, p.2)) := rfl

theorem parseVal_other (fuel : Nat) (c : Char) (rest : List Char)
    (h1 : ¬ c = 'n') (h2 : ¬ c = 't') (h3 : ¬ c = 'f') (h4 : ¬ c = '"')
    (h5 : ¬ c = '[') (h6 : ¬ c = '{') :
    parseVal (fuel + 1) (c :: rest) =
      (parseNumber (c :: rest)).map (fun p => (Json.num p.1, p.2)) := by
  conv_lhs => rw [parseVal.eq_def]
  dsimp only
  rw [if_neg h1, if_neg h2, if_neg h3, if_neg h4, if_neg h5, if_neg h6]

theorem isPrefixOf_append (l r : List Char) : l.isPrefixOf (l ++ r) = true := by
  induction l with
  | nil => simp [List.isPrefixOf]
  | cons a as ih => simp [List.isPrefixOf, ih]

theorem parseVal_n (fuel : Nat) (tail : List Char) :
    parseVal (fuel + 1) ('n' :: tail) =
      if ['u', 'l', 'l'].isPrefixOf tail then some (Json.null, tail.drop 3) else none := rfl

theorem parseVal_t (fuel : Nat) (tail : List Char) :
    parseVal (fuel + 1) ('t' :: tail) =
      if ['r', 'u', 'e'].isPrefixOf tail then some (Json.bool true, tail.drop 3) else none := rfl

theorem parseVal_f (fuel : Nat) (tail : List Char) :
    parseVal (fuel + 1) ('f' :: tail) =
      if ['a', 'l', 's', 'e'].isPrefixOf tail then some (Json.bool false, tail.drop 4)
      else none := rfl

theorem parseItems_step (fuel : Nat) (s : List Char) :
    parseItems (fuel + 1) s =
      (parseVal fuel s).bind fun p =>
        if headIs ',' p.2 then (parseItems fuel p.2.tail).map (fun q => (p.1 :: q.1, q.2))
        else if headIs ']' p.2 then some ([p.1], p.2.tail)
        else none := rfl

theorem parseFields_step (fuel : Nat) (s : List Char) :
    parseFields (fuel + 1) s =
      if headIs '"' s then
        (parseStringBody fuel s.tail).bind fun pk =>
          if headIs ':' pk.2 then
            (parseVal fuel pk.2.tail).bind fun pv =>
              if headIs ',' pv.2 then
                (parseFields fuel pv.2.tail).map (fun q => ((String.mk pk.1, pv.1) :: q.1, q.2))
              else if headIs '}' pv.2 then some ([(String.mk pk.1, pv.1)], pv.2.tail)
              else none
          else none
      else none := rfl

/- The round-trip statements, one per parser entry point. -/

def PV (j : Json) : Prop :=
  isCanon j = true → ∀ fuel rest, needV j ≤ fuel → noDigitHead rest = true →
    parseVal fuel (canonicalEncode j ++ rest) = some (j, rest)

def PI (xs : List Json) : Prop :=
  itemsCanon xs = true → xs ≠ [] → ∀ fuel rest, needItems xs ≤ fuel →
    parseItems fuel (joinComma (encodeItems xs) ++ (']' :: rest)) = some (xs, rest)

def PF (kvs : List (String × Json)) : Prop :=
  fieldsCanon kvs = true → kvs ≠ [] → ∀ fuel rest, needFields kvs ≤ fuel →
    parseFields fuel (joinComma ((encodeFields kvs).map
      (fun kv => renderString kv.1 ++ ':' :: kv.2)) ++ ('}' :: rest)) = some (kvs, rest)

theorem pv_null : PV Json.null := by
  intro _ fuel rest hf _
  obtain ⟨f, rfl⟩ : ∃ f, fuel = f + 1 := ⟨fuel - 1, by simp only [needV] at hf; omega⟩
  rw [show canonicalEncode Json.null ++ rest = 'n' :: (['u', 'l', 'l'] ++ rest) from rfl]
  rw [parseVal_n, if_pos (isPrefixOf_append _ _)]
  rw [show (3 : Nat) = (['u', 'l', 'l'] : List Char).length from rfl, List.drop_left]

theorem pv_bool (b : Bool) : PV (Json.bool b) := by
  intro _ fuel rest hf _
  obtain ⟨f, rfl⟩ : ∃ f, fuel = f + 1 := ⟨fuel - 1, by simp only [needV] at hf; omega⟩
  cases b
  · rw [show canonicalEncode (Json.bool false) ++ rest =
      'f' :: (['a', 'l', 's', 'e'] ++ rest) from rfl]
    rw [parseVal_f, if_pos (isPrefixOf_append _ _)]
    rw [show (4 : Nat) = (['a', 'l', 's', 'e'] : List Char).length from rfl, List.drop_left]
  · rw [show canonicalEncode (Json.bool true) ++ rest =
      't' :: (['r', 'u', 'e'] ++ rest) from rfl]
    rw [parseVal_t, if_pos (isPrefixOf_append _ _)]
    rw [show (3 : Nat) = (['r', 'u', 'e'] : List Char).length from rfl, List.drop_left]

theorem pv_num (n : Int) : PV (Json.num n) := by
  intro _ fuel rest hf hrest
  obtain ⟨f, rfl⟩ : ∃ f, fuel = f + 1 := ⟨fuel - 1, by simp only [needV] at hf; omega⟩
  rw [show canonicalEncode (Json.num n) = renderInt n from rfl, renderInt]
  by_cases hn : n < 0
  · rw [if_pos hn, List.cons_append]
    rw [show parseVal (f + 1) ('-' :: (natDigits n.natAbs ++ rest)) =
      (parseNumber ('-' :: (natDigits n.natAbs ++ rest))).map
        (fun p => (Json.num p.1, p.2)) from rfl]
    rw [show ('-' :: (natDigits n.natAbs ++ rest)) =
      (renderInt n ++ rest) from by rw [renderInt, if_pos hn]; rfl]
    rw [parseNumber_render n rest hrest]
    rfl
  · rw [if_neg hn]
    cases hd : natDigits n.toNat with
    | nil => exact absurd hd (natDigits_ne_nil _)
    | cons c t =>
      have hdig : isDigitCh c = true := by
        refine natDigits_digits n.toNat c ?_
        rw [hd]
        exact List.mem_cons_self ..
      rw [List.cons_append]
      rw [parseVal_other f c (t ++ rest)
        (by rintro rfl; simp [isDigitCh] at hdig)
        (by rintro rfl; simp [isDigitCh] at hdig)
        (by rintro rfl; simp [isDigitCh] at hdig)
        (by rintro rfl; simp [isDigitCh] at hdig)
        (by rintro rfl; simp [isDigitCh] at hdig)
        (by rintro rfl; simp [isDigitCh] at hdig)]
      rw [show (c :: (t ++ rest)) = (renderInt n ++ rest) from by
        rw [renderInt, if_neg hn, hd]; rfl]
      rw [parseNumber_render n rest hrest]
      rfl

theorem pv_str (s : String) : PV (Json.str s) := by
  intro _ fuel rest hf _
  rw [show needV (Json.str s) = s.toList.length + 2 from rfl] at hf
  obtain ⟨f, rfl⟩ : ∃ f, fuel = f + 1 := ⟨fuel - 1, by omega⟩
  rw [show canonicalEncode (Json.str s) = renderString s from rfl, renderString,
    List.cons_append, parseVal_quote]
  rw [List.append_assoc, List.singleton_append]
  rw [parseStringBody_render s.toList f rest (by omega)]
  rw [Option.map_some', string_mk_toList]

theorem charListLt_trans : ∀ a b c : List Char, charListLt a b = true →
    charListLt b c = true → charListLt a c = true := by
  intro a
  induction a with
  | nil =>
    intro b c hab hbc
    cases b with
    | nil => exact hbc
    | cons y ys =>
      cases c with
      | nil => simp [charListLt] at hbc
      | cons z zs => rfl
  | cons x xs ih =>
    intro b c hab hbc
    cases b with
    | nil => simp [charListLt] at hab
    | cons y ys =>
      cases c with
      | nil => simp [charListLt] at hbc
      | cons z zs =>
        rw [charListLt] at hab hbc ⊢
        by_cases hxy : x.toNat < y.toNat
        · by_cases hyz : y.toNat < z.toNat
          · rw [if_pos (by omega)]
          · rw [if_neg hyz] at hbc
            by_cases hzy : z.toNat < y.toNat
            · rw [if_pos hzy] at hbc
              exact absurd hbc (by simp)
            · rw [if_pos (by omega)]
        · rw [if_neg hxy] at hab
          by_cases hyx : y.toNat < x.toNat
          · rw [if_pos hyx] at hab
            exact absurd hab (by simp)
          · rw [if_neg hyx] at hab
            by_cases hyz : y.toNat < z.toNat
            · rw [if_pos (by omega)]
            · rw [if_neg hyz] at hbc
              by_cases hzy : z.toNat < y.toNat
              · rw [if_pos hzy] at hbc
                exact absurd hbc (by simp)
              · rw [if_neg hzy] at hbc
                rw [if_neg (by omega), if_neg (by omega)]
                exact ih ys zs hab hbc

theorem strLt_trans (a b c : String) (hab : strLt a b = true) (hbc : strLt b c = true) :
    strLt a c = true :=
  charListLt_trans a.toList b.toList c.toList hab hbc

theorem charListLt_le : ∀ a b : List Char, charListLt a b = true → charListLe a b = true := by
  intro a
  induction a with
  | nil => intro b _; rfl
  | cons x xs ih =>
    intro b h
    cases b with
    | nil => simp [charListLt] at h
    | cons y ys =>
      rw [charListLt] at h
      rw [charListLe]
      by_cases hxy : x.toNat < y.toNat
      · rw [if_pos hxy]
      · rw [if_neg hxy] at h ⊢
        by_cases hyx : y.toNat < x.toNat
        · rw [if_pos hyx] at h
          exact absurd h (by simp)
        · rw [if_neg hyx] at h ⊢
          exact ih ys h

theorem strLt_le (a b : String) (h : strLt a b = true) : strLe a b = true :=
  charListLt_le a.toList b.toList h

theorem keysSorted_pairwise : ∀ kvs : List (String × Json), keysSorted kvs = true →
    kvs.Pairwise (fun a b => strLt a.1 b.1 = true) := by
  intro kvs
  induction kvs with
  | nil => intro _; exact List.Pairwise.nil
  | cons kv rest ih =>
    intro h
    cases rest with
    | nil => exact List.pairwise_singleton _ _
    | cons kv2 rest2 =>
      obtain ⟨k, v⟩ := kv
      obtain ⟨k2, v2⟩ := kv2
      rw [keysSorted, Bool.and_eq_true] at h
      have hp := ih h.2
      refine List.Pairwise.cons ?_ hp
      intro a ha
      rcases List.mem_cons.mp ha with rfl | ha2
      · exact h.1
      · have := (List.pairwise_cons.mp hp).1 a ha2
        exact strLt_trans _ _ _ h.1 this

theorem encodeFields_eq_map (kvs : List (String × Json)) :
    encodeFields kvs = kvs.map (fun kv => (kv.1, canonicalEncode kv.2)) := by
  induction kvs with
  | nil => rfl
  | cons kv rest ih =>
    obtain ⟨k, v⟩ := kv
    rw [encodeFields, ih]
    rfl

theorem canonSort_eq (kvs : List (String × Json)) (h : keysSorted kvs = true) :
    List.insertionSort (fun a b => strLe a.1 b.1 = true) (encodeFields kvs) =
      encodeFields kvs := by
  apply List.Sorted.insertionSort_eq
  rw [List.Sorted, encodeFields_eq_map, List.pairwise_map]
  exact (keysSorted_pairwise kvs h).imp fun hab => strLt_le _ _ hab

theorem joinComma_cons2 (a b : List Char) (t : List (List Char)) :
    joinComma (a :: b :: t) = a ++ ',' :: joinComma (b :: t) := rfl

theorem headIs_joinItems (d : Char) (x : Json) (xs : List Json) (D : List Char)
    (hd : d = ']' ∨ d = '}') :
    headIs d (joinComma (encodeItems (x :: xs)) ++ D) = false := by
  cases xs with
  | nil => exact headIs_enc_false d x D hd
  | cons y ys =>
    rw [show encodeItems (x :: y :: ys) =
      canonicalEncode x :: encodeItems (y :: ys) from rfl]
    rw [show encodeItems (y :: ys) = canonicalEncode y :: encodeItems ys from rfl]
    rw [joinComma_cons2, List.append_assoc]
    exact headIs_enc_false d x _ hd

theorem renderString_cons (k : String) :
    renderString k = '"' :: (k.toList.flatMap escChar ++ ['"']) := rfl

theorem headIs_joinFields (d : Char) (kv : String × List Char)
    (kvs : List (String × List Char)) (D : List Char) (hd : ¬ d = '"') :
    headIs d (joinComma ((kv :: kvs).map
      (fun kv => renderString kv.1 ++ ':' :: kv.2)) ++ D) = false := by
  cases kvs with
  | nil =>
    rw [List.map_singleton]
    show headIs d (((renderString kv.1 ++ ':' :: kv.2)) ++ D) = false
    rw [renderString_cons, List.cons_append, List.cons_append, headIs]
    simpa using fun hc => absurd hc.symm hd
  | cons kv2 rest =>
    rw [List.map_cons, List.map_cons, joinComma_cons2, List.append_assoc]
    rw [renderString_cons, List.cons_append, List.cons_append, headIs]
    simpa using fun hc => absurd hc.symm hd

theorem pi_nil : PI [] := by
  intro _ hne
  exact absurd rfl hne

theorem noDigitHead_cons (c : Char) (t : List Char) (h : isDigitCh c = false) :
    noDigitHead (c :: t) = true := by
  rw [noDigitHead, h]
  rfl

theorem pi_cons (x : Json) (xs : List Json) (hx : PV x) (hxs : PI xs) : PI (x :: xs) := by
  intro hcanon _ fuel rest hfuel
  rw [show itemsCanon (x :: xs) = (isCanon x && itemsCanon xs) from rfl,
    Bool.and_eq_true] at hcanon
  rw [show needItems (x :: xs) = 1 + needV x + needItems xs from rfl] at hfuel
  obtain ⟨f, rfl⟩ : ∃ f, fuel = f + 1 := ⟨fuel - 1, by omega⟩
  rw [parseItems_step]
  cases xs with
  | nil =>
    rw [show joinComma (encodeItems [x]) = canonicalEncode x from rfl]
    rw [hx hcanon.1 f (']' :: rest) (by omega) (noDigitHead_cons _ _ (by decide))]
    rw [Option.some_bind]
    dsimp only
    rw [show headIs ',' (']' :: rest) = false from rfl]
    rw [show headIs ']' (']' :: rest) = true from rfl]
    rw [if_neg (by simp), if_pos rfl]
    rfl
  | cons y ys =>
    rw [show encodeItems (x :: y :: ys) = canonicalEncode x :: encodeItems (y :: ys) from rfl]
    rw [show encodeItems (y :: ys) = canonicalEncode y :: encodeItems ys from rfl]
    rw [joinComma_cons2]
    simp only [List.append_assoc, List.cons_append]
    rw [hx hcanon.1 f (',' :: (joinComma (canonicalEncode y :: encodeItems ys) ++ ']' :: rest))
      (by omega) (noDigitHead_cons ',' _ (by decide))]
    rw [Option.some_bind]
    dsimp only
    rw [show ∀ X : List Char, headIs ',' (',' :: X) = true from fun X => rfl]
    rw [if_pos rfl]
    rw [show ∀ X : List Char, (',' :: X).tail = X from fun X => rfl]
    rw [show (canonicalEncode y :: encodeItems ys : List (List Char)) =
      encodeItems (y :: ys) from rfl]
    rw [hxs hcanon.2 (by simp) f rest (by omega)]
    rfl

theorem pv_arr (xs : List Json) (hxs : PI xs) : PV (Json.arr xs) := by
  intro hcanon fuel rest hf _
  rw [show needV (Json.arr xs) = 1 + needItems xs from rfl] at hf
  obtain ⟨f, rfl⟩ : ∃ f, fuel = f + 1 := ⟨fuel - 1, by omega⟩
  cases xs with
  | nil =>
    rw [show canonicalEncode (Json.arr []) ++ rest = '[' :: (']' :: rest) from rfl]
    rw [parseVal_bracket]
    rw [show headIs ']' (']' :: rest) = true from rfl]
    rw [if_pos rfl]
    rfl
  | cons x xs' =>
    rw [show canonicalEncode (Json.arr (x :: xs')) =
      '[' :: (joinComma (encodeItems (x :: xs')) ++ [']']) from rfl]
    rw [List.cons_append, List.append_assoc, List.singleton_append, parseVal_bracket]
    rw [headIs_joinItems ']' x xs' (']' :: rest) (Or.inl rfl)]
    rw [if_neg (by simp)]
    rw [hxs (by rwa [show isCanon (Json.arr (x :: xs')) =
      itemsCanon (x :: xs') from rfl] at hcanon) (by simp) f rest
      (by rw [show needItems (x :: xs') = 1 + needV x + needItems xs' from rfl] at hf ⊢; omega)]
    rfl

theorem pf_nil : PF [] := by
  intro _ hne
  exact absurd rfl hne

theorem pf_cons (kv : String × Json) (kvs : List (String × Json)) (hv : PV kv.2)
    (hkvs : PF kvs) : PF (kv :: kvs) := by
  obtain ⟨k, v⟩ := kv
  have hv' : PV v := hv
  intro hcanon _ fuel rest hfuel
  rw [show fieldsCanon ((k, v) :: kvs) = (isCanon v && fieldsCanon kvs) from rfl,
    Bool.and_eq_true] at hcanon
  rw [show needFields ((k, v) :: kvs) =
    2 + k.toList.length + needV v + needFields kvs from rfl] at hfuel
  obtain ⟨f, rfl⟩ : ∃ f, fuel = f + 1 := ⟨fuel - 1, by omega⟩
  rw [show encodeFields ((k, v) :: kvs) = (k, canonicalEncode v) :: encodeFields kvs from rfl]
  rw [List.map_cons]
  dsimp only
  cases kvs with
  | nil =>
    rw [show encodeFields [] = [] from rfl, List.map_nil]
    rw [show joinComma [(renderString k ++ ':' :: canonicalEncode v : List Char)] =
      renderString k ++ ':' :: canonicalEncode v from rfl]
    rw [renderString_cons, List.cons_append, List.cons_append, parseFields_step]
    rw [show ∀ X : List Char, headIs '"' ('"' :: X) = true from fun X => rfl]
    rw [if_pos rfl]
    rw [show ∀ X : List Char, ('"' :: X).tail = X from fun X => rfl]
    rw [List.append_assoc, List.append_assoc]
    rw [show (['"'] ++ (':' :: canonicalEncode v ++ '}' :: rest) : List Char) =
      '"' :: (':' :: (canonicalEncode v ++ '}' :: rest)) from by
        rw [List.singleton_append, List.cons_append]]
    rw [parseStringBody_render k.toList f _ (by omega)]
    rw [Option.some_bind]
    dsimp only
    rw [show ∀ X : List Char, headIs ':' (':' :: X) = true from fun X => rfl]
    rw [if_pos rfl]
    rw [show ∀ X : List Char, (':' :: X).tail = X from fun X => rfl]
    rw [hv' hcanon.1 f ('}' :: rest) (by omega) (noDigitHead_cons '}' _ (by decide))]
    rw [Option.some_bind]
    dsimp only
    rw [show headIs ',' ('}' :: rest) = false from rfl]
    rw [show headIs '}' ('}' :: rest) = true from rfl]
    rw [if_neg (by simp), if_pos rfl]
    rw [string_mk_toList]
    rfl
  | cons kv2 kvs2 =>
    rw [show encodeFields (kv2 :: kvs2) = (kv2.1, canonicalEncode kv2.2) ::
      encodeFields kvs2 from by
        cases kv2
        rfl]
    rw [List.map_cons]
    dsimp only
    rw [joinComma_cons2]
    rw [renderString_cons]
    simp only [List.append_assoc, List.cons_append, List.singleton_append]
    rw [parseFields_step]
    rw [show ∀ X : List Char, headIs '"' ('"' :: X) = true from fun X => rfl]
    rw [if_pos rfl]
    rw [show ∀ X : List Char, ('"' :: X).tail = X from fun X => rfl]
    rw [parseStringBody_render k.toList f _ (by omega)]
    simp only [List.nil_append]
    rw [Option.some_bind]
    dsimp only
    rw [show ∀ X : List Char, headIs ':' (':' :: X) = true from fun X => rfl]
    rw [if_pos rfl]
    rw [show ∀ X : List Char, (':' :: X).tail = X from fun X => rfl]
    rw [hv' hcanon.1 f (',' :: (joinComma
      ((renderString kv2.1 ++ ':' :: canonicalEncode kv2.2) ::
        List.map (fun kv => renderString kv.1 ++ ':' :: kv.2) (encodeFields kvs2)) ++
      '}' :: rest)) (by omega) (noDigitHead_cons ',' _ (by decide))]
    rw [Option.some_bind]
    dsimp only
    rw [show ∀ X : List Char, headIs ',' (',' :: X) = true from fun X => rfl]
    rw [if_pos rfl]
    rw [show ∀ X : List Char, (',' :: X).tail = X from fun X => rfl]
    rw [show ((renderString kv2.1 ++ ':' :: canonicalEncode kv2.2) ::
      List.map (fun kv => renderString kv.1 ++ ':' :: kv.2) (encodeFields kvs2) :
        List (List Char)) =
      (encodeFields (kv2 :: kvs2)).map (fun kv => renderString kv.1 ++ ':' :: kv.2) from by
        cases kv2
        rfl]
    rw [hkvs hcanon.2 (by simp) f rest (by omega)]
    rw [string_mk_toList]
    rfl

theorem pv_obj (kvs : List (String × Json)) (hkvs : PF kvs) : PV (Json.obj kvs) := by
  intro hcanon fuel rest hf _
  rw [show isCanon (Json.obj kvs) = (keysSorted kvs && fieldsCanon kvs) from rfl,
    Bool.and_eq_true] at hcanon
  rw [show needV (Json.obj kvs) = 1 + needFields kvs from rfl] at hf
  obtain ⟨f, rfl⟩ : ∃ f, fuel = f + 1 := ⟨fuel - 1, by omega⟩
  rw [show canonicalEncode (Json.obj kvs) =
    '{' :: (joinComma ((List.insertionSort (fun a b => strLe a.1 b.1 = true)
      (encodeFields kvs)).map (fun kv => renderString kv.1 ++ ':' :: kv.2)) ++ ['}'])
    from rfl]
  rw [canonSort_eq kvs hcanon.1]
  cases kvs with
  | nil =>
    rw [show (joinComma ((encodeFields ([] : List (String × Json))).map
      (fun kv => renderString kv.1 ++ ':' :: kv.2)) ++
      ['}'] : List Char) = ['}'] from rfl]
    rw [List.cons_append, List.singleton_append, parseVal_brace]
    rw [show ∀ X : List Char, headIs '}' ('}' :: X) = true from fun X => rfl]
    rw [if_pos rfl]
    rfl
  | cons kv kvs' =>
    rw [show encodeFields (kv :: kvs') = (kv.1, canonicalEncode kv.2) ::
      encodeFields kvs' from by cases kv; rfl]
    rw [List.cons_append, List.append_assoc, List.singleton_append, parseVal_brace]
    rw [headIs_joinFields '}' (kv.1, canonicalEncode kv.2) _ _ (by decide)]
    rw [if_neg (by simp)]
    rw [show ((kv.1, canonicalEncode kv.2) :: encodeFields kvs' :
      List (String × List Char)) = encodeFields (kv :: kvs') from by cases kv; rfl]
    rw [hkvs hcanon.2 (by simp) f rest (by omega)]
    rfl

/-- Parsing the canonical encoding of a canonical tree returns the tree
(with any sufficient fuel and any non-digit-led continuation). -/
theorem parseVal_canonicalEncode (j : Json) : PV j :=
  Json.rec (motive_1 := PV) (motive_2 := PI) (motive_3 := PF)
    (motive_4 := fun kv => PV kv.2)
    pv_null pv_bool pv_num pv_str pv_arr pv_obj
    pi_nil (fun x xs hx hxs => pi_cons x xs hx hxs)
    pf_nil (fun kv kvs hkv hkvs => pf_cons kv kvs hkv hkvs)
    (fun _ _ hv => hv) j

set_option maxHeartbeats 1000000 in
theorem escChar_length_pos (c : Char) : 1 ≤ (escChar c).length := by
  rw [escChar.eq_def]
  repeat' split
  all_goals simp

theorem flatMap_escChar_ge (cs : List Char) : cs.length ≤ (cs.flatMap escChar).length := by
  induction cs with
  | nil => simp
  | cons c t ih =>
    rw [List.flatMap_cons, List.length_append, List.length_cons]
    have := escChar_length_pos c
    omega

theorem renderInt_ne_nil (n : Int) : renderInt n ≠ [] := by
  rw [renderInt]
  split
  · simp
  · exact natDigits_ne_nil _

/-- Fuel requirement is at most twice the encoded length (for canonical
trees, which are the only ones the system writes). -/
theorem needV_le_len (j : Json) :
    (isCanon j = true → needV j ≤ 2 * (canonicalEncode j).length) := by
  refine Json.rec
    (motive_1 := fun j => isCanon j = true → needV j ≤ 2 * (canonicalEncode j).length)
    (motive_2 := fun xs => itemsCanon xs = true →
      needItems xs ≤ 2 * (joinComma (encodeItems xs)).length + 1)
    (motive_3 := fun kvs => fieldsCanon kvs = true →
      needFields kvs ≤ 2 * (joinComma ((encodeFields kvs).map
        (fun kv => renderString kv.1 ++ ':' :: kv.2))).length + 1)
    (motive_4 := fun kv => isCanon kv.2 = true →
      needV kv.2 ≤ 2 * (canonicalEncode kv.2).length)
    ?_ ?_ ?_ ?_ ?_ ?_ ?_ ?_ ?_ ?_ ?_ j
  · intro _
    simp [needV, canonicalEncode]
  · intro b _
    cases b <;> simp [needV, canonicalEncode]
  · intro n _
    rw [show needV (Json.num n) = 1 from rfl,
      show canonicalEncode (Json.num n) = renderInt n from rfl]
    have := renderInt_ne_nil n
    cases h : renderInt n with
    | nil => exact absurd h this
    | cons a t =>
      simp only [List.length_cons]
      omega
  · intro str _
    rw [show needV (Json.str str) = str.toList.length + 2 from rfl,
      show canonicalEncode (Json.str str) = renderString str from rfl, renderString]
    have := flatMap_escChar_ge str.toList
    simp only [List.length_cons, List.length_append, List.length_singleton]
    omega
  · intro xs ih hc
    rw [show isCanon (Json.arr xs) = itemsCanon xs from rfl] at hc
    rw [show needV (Json.arr xs) = 1 + needItems xs from rfl,
      show canonicalEncode (Json.arr xs) =
        '[' :: (joinComma (encodeItems xs) ++ [']']) from rfl]
    have := ih hc
    simp only [List.length_cons, List.length_append, List.length_singleton]
    omega
  · intro kvs ih hc
    rw [show isCanon (Json.obj kvs) = (keysSorted kvs && fieldsCanon kvs) from rfl,
      Bool.and_eq_true] at hc
    rw [show needV (Json.obj kvs) = 1 + needFields kvs from rfl,
      show canonicalEncode (Json.obj kvs) =
        '{' :: (joinComma ((List.insertionSort (fun a b => strLe a.1 b.1 = true)
          (encodeFields kvs)).map (fun kv => renderString kv.1 ++ ':' :: kv.2)) ++ ['}'])
        from rfl]
    rw [canonSort_eq kvs hc.1]
    have := ih hc.2
    simp only [List.length_cons, List.length_append, List.length_singleton]
    omega
  · intro _
    simp [needItems]
  · intro x xs ihx ihxs hc
    rw [show itemsCanon (x :: xs) = (isCanon x && itemsCanon xs) from rfl,
      Bool.and_eq_true] at hc
    rw [show needItems (x :: xs) = 1 + needV x + needItems xs from rfl]
    have h1 := ihx hc.1
    have h2 := ihxs hc.2
    cases xs with
    | nil =>
      rw [show joinComma (encodeItems [x]) = canonicalEncode x from rfl]
      rw [show needItems ([] : List Json) = 0 from rfl] at h2 ⊢
      omega
    | cons y ys =>
      rw [show encodeItems (y :: ys) = canonicalEncode y :: encodeItems ys from rfl] at h2
      rw [show encodeItems (x :: y :: ys) =
        canonicalEncode x :: canonicalEncode y :: encodeItems ys from rfl, joinComma_cons2]
      simp only [List.length_append, List.length_cons] at h2 ⊢
      omega
  · intro _
    simp [needFields]
  · intro kv kvs ihkv ihkvs hc
    obtain ⟨k, v⟩ := kv
    rw [show fieldsCanon ((k, v) :: kvs) = (isCanon v && fieldsCanon kvs) from rfl,
      Bool.and_eq_true] at hc
    rw [show needFields ((k, v) :: kvs) =
      2 + k.toList.length + needV v + needFields kvs from rfl]
    have h1 := ihkv hc.1
    have h2 := ihkvs hc.2
    have hrs : k.toList.length + 2 ≤ (renderString k).length := by
      rw [renderString]
      have := flatMap_escChar_ge k.toList
      simp only [List.length_cons, List.length_append, List.length_singleton]
      omega
    rw [show encodeFields ((k, v) :: kvs) =
      (k, canonicalEncode v) :: encodeFields kvs from rfl, List.map_cons]
    cases hkk : encodeFields kvs with
    | nil =>
      simp only [List.map_nil]
      rw [show needFields kvs = 0 from by
        cases kvs with
        | nil => rfl
        | cons a b =>
          rw [show encodeFields (a :: b) = (a.1, canonicalEncode a.2) ::
            encodeFields b from by cases a; rfl] at hkk
          exact absurd hkk (by simp)]
      rw [show joinComma [(renderString k ++ ':' :: canonicalEncode v : List Char)] =
        renderString k ++ ':' :: canonicalEncode v from rfl]
      simp only [List.length_append, List.length_cons] at h1 hrs ⊢
      omega
    | cons p ps =>
      rw [hkk, List.map_cons] at h2
      rw [List.map_cons]
      dsimp only at h1 h2 ⊢
      rw [joinComma_cons2]
      simp only [List.length_append, List.length_cons] at h1 hrs h2 ⊢
      omega
  · intro _ v ih
    exact ih

/-- `json.Unmarshal` on the bytes `CanonicalJSON` wrote: parsing the full
canonical encoding of a canonical tree returns exactly the tree. -/
theorem parseJson_canonicalEncode (j : Json) (h : isCanon j = true) :
    parseJson (canonicalEncode j) = some j := by
  have hb := needV_le_len j h
  have hp := parseVal_canonicalEncode j h (2 * (canonicalEncode j).length + 2) []
    (by omega) rfl
  rw [List.append_nil] at hp
  rw [parseJson, hp]
  rfl


/-! ## CIDs and the object store (src/internal/dag/cochange.go, ObjectStore part)

`gocid.Cid` is modelled by its byte form (`Cid.Bytes()`): a CIDv1 for the
raw codec with a SHA2-256 multihash is `0x01 0x55 0x12 0x20` followed by
the 32 digest bytes. A directory on disk is an association list from
filename to content; lookup returns the first match (filenames are unique
in a directory). -/

/-- `ComputeCID`: CIDv1 (version 1, raw codec) over the SHA2-256 multihash
(code 0x12, length 0x20) of the data. -/
def ComputeCID (data : Bytes) : Bytes :=
  0x01 :: 0x55 :: 0x12 :: 0x20 :: sha256 data

/-- `CIDToFilename`: lowercase base32 multibase of the CID bytes. -/
def CIDToFilename (c : Bytes) : String := multibaseB32 c

/-- `gocid.Cast`, restricted to the only CID shape this system ever writes
or reads back (CIDv1, raw codec, SHA2-256 multihash): re-parses the byte
form, failing on anything malformed. -/
def castCid (bs : Bytes) : Option Bytes :=
  match bs with
  | v :: c :: hc :: hl :: digest =>
    if v = 0x01 ∧ c = 0x55 ∧ hc = 0x12 ∧ hl = 0x20 ∧ digest.length = 32 then some bs else none
  | _ => none

abbrev ObjectStore := List (String × Bytes)

def storeLookup : ObjectStore → String → Option Bytes
  | [], _ => none
  | (n, d) :: t, name => if n = name then some d else storeLookup t name

/-- `ObjectStore.Put`: compute the CID, and write the data under its
base32 filename unless that file already exists (then a no-op). -/
def ObjectStore.Put (s : ObjectStore) (data : Bytes) : ObjectStore × Bytes :=
  let c := ComputeCID data
  let name := CIDToFilename c
  if (storeLookup s name).isSome then (s, c) else ((name, data) :: s, c)

/-- `ObjectStore.Get`: read the file named by the CID. -/
def ObjectStore.Get (s : ObjectStore) (c : Bytes) : Option Bytes :=
  storeLookup s (CIDToFilename c)

/-- `ObjectStore.Has`. -/
def ObjectStore.Has (s : ObjectStore) (c : Bytes) : Bool :=
  (storeLookup s (CIDToFilename c)).isSome

/-- Specification-side CID, written from the spec words alone: the 32-byte
SHA-256 of the object bytes, wrapped with the multihash header and a CIDv1
framing (version=1, codec=raw, hash=SHA-256); to be compared with the
`ComputeCID` of the source. -/
def specCID (b : Bytes) : Bytes :=
  let digest := sha256 b
  let mh := 0x12 :: 0x20 :: digest
  0x01 :: 0x55 :: mh

theorem sha256compress_length (hs block : List Nat) : (sha256compress hs block).length = 8 := rfl

theorem foldl_compress_length (blocks : List (List Nat)) (hs : List Nat) (h : hs.length = 8) :
    (blocks.foldl sha256compress hs).length = 8 := by
  induction blocks generalizing hs with
  | nil => exact h
  | cons b bs ih => exact ih _ rfl

theorem flatMap_wordToBytes_length (ws : List Nat) :
    (ws.flatMap wordToBytes).length = 4 * ws.length := by
  induction ws with
  | nil => rfl
  | cons w t ih =>
    rw [List.flatMap_cons, List.length_append, ih, List.length_cons]
    rw [show (wordToBytes w).length = 4 from rfl]
    omega

theorem sha256_length (msg : Bytes) : (sha256 msg).length = 32 := by
  show (((chunk16 (toWords (sha256pad msg))).foldl sha256compress
    sha256H0).flatMap wordToBytes).length = 32
  rw [flatMap_wordToBytes_length, foldl_compress_length _ sha256H0 rfl]

theorem castCid_computeCID (d : Bytes) : castCid (ComputeCID d) = some (ComputeCID d) := by
  show (if (0x01 : Nat) = 0x01 ∧ (0x55 : Nat) = 0x55 ∧ (0x12 : Nat) = 0x12 ∧
      (0x20 : Nat) = 0x20 ∧ (sha256 d).length = 32
    then some (ComputeCID d) else none) = some (ComputeCID d)
  rw [if_pos ⟨rfl, rfl, rfl, rfl, sha256_length d⟩]

theorem computeCID_valid (d : Bytes) : validBytes (ComputeCID d) := by
  intro b hb
  rw [ComputeCID] at hb
  rcases List.mem_cons.mp hb with rfl | hb
  · omega
  rcases List.mem_cons.mp hb with rfl | hb
  · omega
  rcases List.mem_cons.mp hb with rfl | hb
  · omega
  rcases List.mem_cons.mp hb with rfl | hb
  · omega
  exact sha256_valid d b hb

theorem multibaseB32_inj (x y : Bytes) (hx : validBytes x) (hy : validBytes y)
    (h : multibaseB32 x = multibaseB32 y) : x = y := by
  have hh := multibaseDecode_encode x hx
  rw [h, multibaseDecode_encode y hy] at hh
  exact (Option.some.inj hh).symm

theorem computeCID_inj_of_sha (x y : Bytes)
    (h : ComputeCID x = ComputeCID y) : sha256 x = sha256 y := by
  rw [ComputeCID, ComputeCID] at h
  exact (List.cons.inj ((List.cons.inj ((List.cons.inj
    ((List.cons.inj h).2)).2)).2)).2

theorem storeLookup_mem (s : ObjectStore) (name : String) (d : Bytes)
    (h : storeLookup s name = some d) : (name, d) ∈ s := by
  induction s with
  | nil => exact absurd h (by rw [storeLookup]; exact Option.noConfusion)
  | cons p t ih =>
    obtain ⟨n, c⟩ := p
    rw [storeLookup] at h
    by_cases hn : n = name
    · rw [if_pos hn] at h
      rw [← hn, ← Option.some.inj h]
      exact List.mem_cons_self ..
    · rw [if_neg hn] at h
      exact List.mem_cons_of_mem _ (ih h)

/-- C4: for every byte sequence `b`, `Put b` followed by `Get` of the
returned CID yields `b` again, and the returned CID equals the
independently computed CIDv1(raw, sha2-256 multihash) of `b`.  The store
is assumed well-formed (every file sits under its own content CID, with
byte contents) and free of SHA-256 collisions with `b`. -/
theorem objectStore_put_eq (s : ObjectStore) (data : Bytes) :
    ObjectStore.Put s data =
      if (storeLookup s (CIDToFilename (ComputeCID data))).isSome
      then (s, ComputeCID data)
      else ((CIDToFilename (ComputeCID data), data) :: s, ComputeCID data) := rfl

theorem objectStore_put_get_roundtrip (s : ObjectStore) (b : Bytes)
    (hwf : ∀ p ∈ s, p.1 = CIDToFilename (ComputeCID p.2))
    (hnc : ∀ p ∈ s, sha256 p.2 = sha256 b → p.2 = b) :
    ObjectStore.Get (ObjectStore.Put s b).1 (ObjectStore.Put s b).2 = some b ∧
    (ObjectStore.Put s b).2 = specCID b := by
  rw [objectStore_put_eq]
  cases hl : storeLookup s (CIDToFilename (ComputeCID b)) with
  | some d =>
    rw [if_pos (show (some d).isSome = true from rfl)]
    refine ⟨?_, rfl⟩
    have hmem := storeLookup_mem _ _ _ hl
    have h1 := hwf _ hmem
    have h2 : ComputeCID d = ComputeCID b :=
      multibaseB32_inj _ _ (computeCID_valid d) (computeCID_valid b) h1.symm
    have h3 : d = b := hnc _ hmem (computeCID_inj_of_sha _ _ h2)
    show storeLookup s (CIDToFilename (ComputeCID b)) = some b
    rw [hl, h3]
  | none =>
    rw [if_neg (show ¬ (none : Option Bytes).isSome = true from Bool.false_ne_true)]
    refine ⟨?_, rfl⟩
    show storeLookup ((CIDToFilename (ComputeCID b), b) :: s)
      (CIDToFilename (ComputeCID b)) = some b
    rw [storeLookup, if_pos rfl]

theorem objectStore_put_get_roundtrip_witness :
    ObjectStore.Get (ObjectStore.Put [] [104, 105]).1 (ObjectStore.Put [] [104, 105]).2 =
      some [104, 105] ∧ (ObjectStore.Put [] [104, 105]).2 = specCID [104, 105] :=
  objectStore_put_get_roundtrip [] [104, 105]
    (fun p hp => absurd hp (List.not_mem_nil p))
    (fun p hp => absurd hp (List.not_mem_nil p))


/-! ## The ref store (src/internal/dag/refs.go)

Human-readable ID → CID mappings, one file per ref; colons in IDs are
encoded as double underscores in filenames. The refs directory is an
association list from filename to file content. -/

def refFilename (id : String) : String :=
  String.mk (goReplaceAll id.toList [':'] ['_', '_'])

def refIDFromFilename (name : String) : String :=
  String.mk (goReplaceAll name.toList ['_', '_'] [':'])

abbrev RefStore := List (String × String)

def fileLookup : RefStore → String → Option String
  | [], _ => none
  | (n, c) :: t, name => if n = name then some c else fileLookup t name

/-- `os.WriteFile`: overwrite the file if present, else create it. -/
def fileWrite : RefStore → String → String → RefStore
  | [], name, content => [(name, content)]
  | (n, c) :: t, name, content =>
    if n = name then (name, content) :: t else (n, c) :: fileWrite t name content

def fileRemove : RefStore → String → RefStore
  | [], _ => []
  | (n, c) :: t, name => if n = name then t else (n, c) :: fileRemove t name

def RefStore.Set (r : RefStore) (id : String) (c : Bytes) : RefStore :=
  fileWrite r (refFilename id) (multibaseB32 c)

def RefStore.Get (r : RefStore) (id : String) : Option Bytes :=
  (fileLookup r (refFilename id)).bind fun data =>
    (multibaseDecode (String.mk (goTrimSpace data.toList))).bind castCid

def RefStore.Delete (r : RefStore) (id : String) : RefStore :=
  fileRemove r (refFilename id)

def RefStore.Has (r : RefStore) (id : String) : Bool :=
  (fileLookup r (refFilename id)).isSome

/-- `RefStore.List`: `os.ReadDir` returns directory entries sorted by
filename; each filename is decoded back into an ID. -/
def RefStore.List (r : RefStore) : List String :=
  (List.insertionSort (fun a b => strLe a b = true)
    (r.map (fun p => p.1))).map refIDFromFilename

/-! Round-trip analysis of the filename encoding. -/

theorem goReplaceAllF_nil (pat rep : List Char) (fuel : Nat) :
    goReplaceAllF pat rep fuel [] = [] := by
  cases fuel <;> rfl

theorem encF_colon (fuel : Nat) (t : List Char) :
    goReplaceAllF [':'] ['_', '_'] (fuel + 1) (':' :: t) =
      '_' :: '_' :: goReplaceAllF [':'] ['_', '_'] fuel t := by
  rw [goReplaceAllF, if_pos (show ([':'] : List Char).isPrefixOf (':' :: t) = true from by
    simp [List.isPrefixOf])]
  rfl

theorem encF_other (fuel : Nat) (c : Char) (t : List Char) (h : ¬ c = ':') :
    goReplaceAllF [':'] ['_', '_'] (fuel + 1) (c :: t) =
      c :: goReplaceAllF [':'] ['_', '_'] fuel t := by
  rw [goReplaceAllF, if_neg (by
    show ¬ ((':' == c && ([] : List Char).isPrefixOf t) = true)
    intro hh
    rw [Bool.and_eq_true] at hh
    exact h (beq_iff_eq.mp hh.1).symm)]

theorem decF_uu (fuel : Nat) (t : List Char) :
    goReplaceAllF ['_', '_'] [':'] (fuel + 1) ('_' :: '_' :: t) =
      ':' :: goReplaceAllF ['_', '_'] [':'] fuel t := by
  rw [goReplaceAllF, if_pos (show (['_', '_'] : List Char).isPrefixOf ('_' :: '_' :: t) = true
    from by simp [List.isPrefixOf])]
  rfl

theorem decF_other (fuel : Nat) (c : Char) (t : List Char)
    (h : (['_', '_'] : List Char).isPrefixOf (c :: t) = false) :
    goReplaceAllF ['_', '_'] [':'] (fuel + 1) (c :: t) =
      c :: goReplaceAllF ['_', '_'] [':'] fuel t := by
  rw [goReplaceAllF, if_neg (by rw [h]; exact Bool.false_ne_true)]

theorem encF_length_ge (l : List Char) : ∀ f : Nat, l.length ≤ f →
    l.length ≤ (goReplaceAllF [':'] ['_', '_'] f l).length := by
  induction l with
  | nil => intro f _; rw [goReplaceAllF_nil]
  | cons c t ih =>
    intro f hf
    simp only [List.length_cons] at hf
    obtain ⟨f', rfl⟩ : ∃ k, f = k + 1 := ⟨f - 1, by omega⟩
    by_cases hc : c = ':'
    · subst hc
      rw [encF_colon]
      have := ih f' (by omega)
      simp only [List.length_cons]
      omega
    · rw [encF_other _ _ _ hc]
      have := ih f' (by omega)
      simp only [List.length_cons]
      omega

theorem replaceAll_roundtrip_aux : ∀ (l : List Char) (f1 f2 : Nat),
    l.length ≤ f1 → l.length ≤ f2 →
    goContains l ['_', '_'] = false → goContains l ['_', ':'] = false →
    goReplaceAllF ['_', '_'] [':'] f2 (goReplaceAllF [':'] ['_', '_'] f1 l) = l := by
  intro l
  induction l with
  | nil => intro f1 f2 _ _ _ _; rw [goReplaceAllF_nil, goReplaceAllF_nil]
  | cons c t ih =>
    intro f1 f2 h1 h2 hUU hUC
    simp only [List.length_cons] at h1 h2
    rw [goContains, Bool.or_eq_false_iff] at hUU hUC
    obtain ⟨f1', rfl⟩ : ∃ k, f1 = k + 1 := ⟨f1 - 1, by omega⟩
    obtain ⟨f2', rfl⟩ : ∃ k, f2 = k + 1 := ⟨f2 - 1, by omega⟩
    by_cases hc : c = ':'
    · subst hc
      rw [encF_colon, decF_uu, ih f1' f2' (by omega) (by omega) hUU.2 hUC.2]
    · rw [encF_other _ _ _ hc]
      have hpre : (['_', '_'] : List Char).isPrefixOf
          (c :: goReplaceAllF [':'] ['_', '_'] f1' t) = false := by
        by_cases hcu : c = '_'
        · subst hcu
          cases t with
          | nil => rw [goReplaceAllF_nil]; rfl
          | cons d t' =>
            by_cases hd : d = ':'
            · subst hd
              exact absurd hUC.1 (by simp [List.isPrefixOf])
            · have hdu : ¬ d = '_' := by
                intro hdu
                subst hdu
                exact absurd hUU.1 (by simp [List.isPrefixOf])
              obtain ⟨f1'', rfl⟩ : ∃ k, f1' = k + 1 := ⟨f1' - 1, by
                simp only [List.length_cons] at h1
                omega⟩
              rw [encF_other _ _ _ hd]
              show (('_' == '_') && (('_' == d) && _)) = false
              rw [show ('_' == d) = false from by
                cases hbe : ('_' == d) with
                | true => exact absurd (beq_iff_eq.mp hbe).symm hdu
                | false => rfl]
              rw [Bool.false_and, Bool.and_false]
        · show (('_' == c) && _) = false
          rw [show ('_' == c) = false from by
            cases hbe : ('_' == c) with
            | true => exact absurd (beq_iff_eq.mp hbe).symm hcu
            | false => rfl]
          rw [Bool.false_and]
      rw [decF_other _ _ _ hpre, ih f1' f2' (by omega) (by omega) hUU.2 hUC.2]

/-- The filename encoding round-trips on IDs free of both `__` and `_:`. -/
theorem refFilename_roundtrip (id : String)
    (h1 : goContains id.toList ['_', '_'] = false)
    (h2 : goContains id.toList ['_', ':'] = false) :
    refIDFromFilename (refFilename id) = id := by
  rw [refFilename, refIDFromFilename]
  rw [show (String.mk (goReplaceAll id.toList [':'] ['_', '_'])).toList =
    goReplaceAll id.toList [':'] ['_', '_'] from rfl]
  rw [goReplaceAll, goReplaceAll]
  rw [replaceAll_roundtrip_aux id.toList _ _ (Nat.le_refl _)
    (encF_length_ge id.toList _ (Nat.le_refl _)) h1 h2]
  exact string_mk_toList id

theorem fileWrite_mem_keys (r : RefStore) (name content : String) :
    name ∈ (fileWrite r name content).map (fun p => p.1) := by
  induction r with
  | nil => exact List.mem_cons_self ..
  | cons p t ih =>
    obtain ⟨n, c⟩ := p
    rw [fileWrite]
    by_cases hn : n = name
    · rw [if_pos hn, List.map_cons]
      exact List.mem_cons_self ..
    · rw [if_neg hn, List.map_cons]
      exact List.mem_cons_of_mem _ ih

/-- C10 (counterexample to the stated condition): `"a_:b"` contains no
`"__"` substring, yet `Set` followed by `List` reports `"a:_b"`, not
`"a_:b"` — the colon is encoded as `"__"` and the greedy decode then
pairs the preceding literal underscore with the first half of the
sentinel. -/
theorem refStore_roundtrip_counterexample :
    goContains "a_:b".toList ['_', '_'] = false ∧
    refFilename "a_:b" = "a___b" ∧
    refIDFromFilename (refFilename "a_:b") = "a:_b" ∧
    RefStore.List (RefStore.Set [] "a_:b" [1]) = ["a:_b"] ∧
    ¬ RefStore.List (RefStore.Set [] "a_:b" [1]) = ["a_:b"] := by decide

/-- C10 (amended): the round-trip condition needs to exclude `"_:"` as
well as `"__"`: for every ID free of both, `Set` then `List` reports the
ID unchanged; and the encoding is still not injective over all IDs —
`"a__b"` encodes to the same filename as `"a:b"` and `List` decodes it to
`"a:b"`. -/
theorem refStore_roundtrip_amended (id : String) (r : RefStore) (c : Bytes)
    (h1 : goContains id.toList ['_', '_'] = false)
    (h2 : goContains id.toList ['_', ':'] = false) :
    refIDFromFilename (refFilename id) = id ∧
    id ∈ RefStore.List (RefStore.Set r id c) ∧
    refIDFromFilename (refFilename "a__b") = "a:b" := by
  refine ⟨refFilename_roundtrip id h1 h2, ?_, by decide⟩
  rw [RefStore.List, RefStore.Set]
  have hmem : refFilename id ∈
      (List.insertionSort (fun a b => strLe a b = true)
        ((fileWrite r (refFilename id) (multibaseB32 c)).map (fun p => p.1))) :=
    (List.perm_insertionSort _ _).mem_iff.mpr (fileWrite_mem_keys r _ _)
  have := List.mem_map_of_mem refIDFromFilename hmem
  rwa [refFilename_roundtrip id h1 h2] at this

theorem refStore_roundtrip_amended_witness :
    goContains "a:b".toList ['_', '_'] = false ∧
    goContains "a:b".toList ['_', ':'] = false ∧
    (refIDFromFilename (refFilename "a:b") = "a:b" ∧
     "a:b" ∈ RefStore.List (RefStore.Set [] "a:b" [1]) ∧
     refIDFromFilename (refFilename "a__b") = "a:b") :=
  ⟨by decide, by decide, refStore_roundtrip_amended "a:b" [] [1] (by decide) (by decide)⟩


/-! ## Tokenization (src/unnamed/part_003)

`tokenize` lowercases with `strings.ToLower`, splits with
`strings.FieldsFunc` on runes that are neither letters nor digits, then
drops words with `len(w) < 2` (Go byte length) and deduplicates keeping
first occurrences.  The Unicode case-folding and classification tables
are parameters of the model; theorems fix their values only on the
characters they exercise. -/

structure UnicodeTables where
  toLower : Char → Char
  isLetter : Char → Bool
  isDigit : Char → Bool

def tokenizeAux : List (List Char) → List (List Char) → List (List Char)
  | _, [] => []
  | seen, w :: ws =>
    if goStrLen w < 2 then tokenizeAux seen ws
    else if w ∈ seen then tokenizeAux seen ws
    else w :: tokenizeAux (w :: seen) ws

def tokenize (U : UnicodeTables) (text : List Char) : List (List Char) :=
  tokenizeAux [] (goFieldsFunc (fun r => !(U.isLetter r) && !(U.isDigit r))
    (text.map U.toLower))

/-- Specification-side deduplication: keep the first occurrence of each
word. -/
def dedupKeepFirst : List (List Char) → List (List Char) → List (List Char)
  | _, [] => []
  | seen, w :: ws =>
    if w ∈ seen then dedupKeepFirst seen ws
    else w :: dedupKeepFirst (w :: seen) ws

/-- Specification-side pipeline, written from the spec words: lowercase
the input, split at every codepoint that is neither a letter nor a digit,
drop every token shorter than two codepoints, deduplicate keeping first
occurrences. -/
def specTokenize (U : UnicodeTables) (text : List Char) : List (List Char) :=
  dedupKeepFirst []
    ((goFieldsFunc (fun r => !(U.isLetter r) && !(U.isDigit r))
      (text.map U.toLower)).filter (fun w => 2 ≤ w.length))

/-- Restriction of Go's `unicode` tables to the characters the
counterexample exercises: ASCII plus U+00E9 'é', which is a letter and
lowercases to itself. -/
def exTables : UnicodeTables :=
  ⟨fun c => if 'A' ≤ c ∧ c ≤ 'Z' then Char.ofNat (c.toNat + 32) else c,
   fun c => ('a' ≤ c && c ≤ 'z') || ('A' ≤ c && c ≤ 'Z') || c = 'é',
   fun c => '0' ≤ c && c ≤ '9'⟩

/-- C6 (counterexample): the drop test is `len(w) < 2` on Go BYTES, not
codepoints — the single-codepoint token "é" (two UTF-8 bytes) is kept by
`tokenize` although the claimed codepoint reading drops it. -/
theorem tokenize_counterexample :
    tokenize exTables ['é'] = [['é']] ∧
    specTokenize exTables ['é'] = [] ∧
    ¬ tokenize exTables ['é'] = specTokenize exTables ['é'] := by decide

theorem tokenizeAux_dedup (ws : List (List Char)) : ∀ seen : List (List Char),
    tokenizeAux seen ws = dedupKeepFirst seen (ws.filter (fun w => 2 ≤ goStrLen w)) := by
  induction ws with
  | nil => intro seen; rfl
  | cons w t ih =>
    intro seen
    rw [tokenizeAux, List.filter_cons]
    by_cases h2 : goStrLen w < 2
    · rw [if_pos h2, if_neg (show ¬ (decide (2 ≤ goStrLen w) = true) from by
        simp only [decide_eq_true_eq]; omega), ih]
    · rw [if_neg h2, if_pos (show decide (2 ≤ goStrLen w) = true from by
        simp only [decide_eq_true_eq]; omega)]
      rw [dedupKeepFirst]
      by_cases hm : w ∈ seen
      · rw [if_pos hm, if_pos hm, ih]
      · rw [if_neg hm, if_neg hm, ih]

/-- C6 (amended): with the length test read as Go bytes (UTF-8 length),
`tokenize` is exactly the spec pipeline: lowercase, split at every
codepoint that is neither letter nor digit, drop tokens shorter than two
bytes, deduplicate keeping first occurrences. -/
theorem tokenize_amended (U : UnicodeTables) (text : List Char) :
    tokenize U text = dedupKeepFirst []
      ((goFieldsFunc (fun r => !(U.isLetter r) && !(U.isDigit r))
        (text.map U.toLower)).filter (fun w => 2 ≤ goStrLen w)) :=
  tokenizeAux_dedup _ []

/-! ## dagit posts and the signing payload (src/internal/dagit/messages.go)

The Go field `Type` is called `Type'` here (`Type` is reserved in Lean);
`Refs`/`Tags` are `Option` to model nil vs. empty Go slices. -/

structure Post where
  V : Int
  Type' : String
  Content : String
  Author : String
  Refs : Option (List String)
  Tags : Option (List String)
  Timestamp : String
  Signature : String

/-- `signingPayload`: canonical JSON of the seven signing fields — all
fields except `signature` — with nil refs/tags replaced by empty slices.
The fields are listed in the source's map-literal order; `CanonicalJSON`
(marshal, unmarshal, `canonicalEncode`) is the identity on this tree up
to the key sort performed by `canonicalEncode`. -/
def signingPayload (post : Post) : List Char :=
  canonicalEncode (Json.obj
    [("v", Json.num post.V),
     ("type", Json.str post.Type'),
     ("content", Json.str post.Content),
     ("author", Json.str post.Author),
     ("refs", Json.arr ((post.Refs.getD []).map Json.str)),
     ("tags", Json.arr ((post.Tags.getD []).map Json.str)),
     ("timestamp", Json.str post.Timestamp)])

/-- The spec §8 signing vector: the known test DID, content "hello from
test", empty refs and tags, fixed timestamp. -/
def testPost : Post :=
  ⟨2, "post", "hello from test",
   "did:key:z6MkehRgf7yJbgaGfYsdoAsKdBPE3dj2CYhowQdcjqSJgvVd",
   some [], some [], "2024-01-01T00:00:00Z", ""⟩

/-- The byte-for-byte expected canonicalization from the spec. -/
def expectedPayload : String :=
  "\x7b\"author\":\"did:key:z6MkehRgf7yJbgaGfYsdoAsKdBPE3dj2CYhowQdcjqSJgvVd\",\"content\":\"hello from test\",\"refs\":[],\"tags\":[],\"timestamp\":\"2024-01-01T00:00:00Z\",\"type\":\"post\",\"v\":2\x7d"

set_option maxRecDepth 8000 in
/-- C2: the signing payload is the canonical JSON of a mapping with
exactly the keys v, type, content, author, refs, tags, timestamp
(signature excluded), keys sorted lexicographically with no inserted
whitespace; nil refs/tags serialize as empty arrays; and the §8 test post
canonicalizes byte-for-byte to the expected string. -/
theorem signingPayload_canonical (post : Post) :
    signingPayload post =
      canonicalEncode (Json.obj
        [("author", Json.str post.Author),
         ("content", Json.str post.Content),
         ("refs", Json.arr ((post.Refs.getD []).map Json.str)),
         ("tags", Json.arr ((post.Tags.getD []).map Json.str)),
         ("timestamp", Json.str post.Timestamp),
         ("type", Json.str post.Type'),
         ("v", Json.num post.V)]) ∧
    signingPayload { post with Refs := none, Tags := none } =
      signingPayload { post with Refs := some [], Tags := some [] } ∧
    signingPayload testPost = expectedPayload.toList := by
  refine ⟨rfl, rfl, by decide⟩


/-! ## Link entries, commit objects, node envelopes
(src/internal/dag/link.go, src/unnamed/part_000, src/unnamed/part_002)

JSON trees for the on-disk structs.  A Go map has no field order; the
models list object fields in sorted key order, which is invisible both
through `canonicalEncode` (it sorts) and through key lookup.  `time.Time`
values are modelled by their RFC-3339 strings.  Go struct fields named
`Type` are called `Type'` (`Type` is reserved in Lean). -/

structure LinkEntry where
  Source : String
  Target : String
  Type' : String
deriving DecidableEq

def linkToJson (l : LinkEntry) : Json :=
  Json.obj [("source", Json.str l.Source), ("target", Json.str l.Target),
            ("type", Json.str l.Type')]

/-- `CommitObject`.  The `Author` field is modelled from the spec: the
struct in src/unnamed/part_000 predates it (`CommitLog.Commit` in
src/internal/dag/safefile_test.go sets `Author: cl.author`, and the spec
lists an author DID among the commit fields, json tag `author`, no
omitempty). -/
structure CommitObject where
  V : Int
  Parent : String
  Author : String
  Timestamp : String
  Refs : List (String × String)
  Links : List LinkEntry
  Message : String

/-- `json.Marshal` of a CommitObject re-read as a tree: `parent` and
`message` carry `omitempty`; a nil links slice (what `AllEntries` returns
for an empty index) marshals as `null`; `refs` is always a non-nil map. -/
def commitToJson (c : CommitObject) : Json :=
  Json.obj (
    [("author", Json.str c.Author)] ++
    [("links", if c.Links.isEmpty then Json.null
               else Json.arr (c.Links.map linkToJson))] ++
    (if c.Message = "" then [] else [("message", Json.str c.Message)]) ++
    (if c.Parent = "" then [] else [("parent", Json.str c.Parent)]) ++
    [("refs", Json.obj (c.Refs.map (fun kv => (kv.1, Json.str kv.2))))] ++
    [("timestamp", Json.str c.Timestamp)] ++
    [("v", Json.num c.V)])

def jsonLookup : List (String × Json) → String → Option Json
  | [], _ => none
  | (k, v) :: t, key => if k = key then some v else jsonLookup t key

/-- `json.Unmarshal` into a string field: an absent key or a null leaves
the zero value. -/
def jStr : Option Json → Option String
  | none => some ""
  | some (Json.str s) => some s
  | some Json.null => some ""
  | some _ => none

def jInt : Option Json → Option Int
  | none => some 0
  | some (Json.num n) => some n
  | some Json.null => some 0
  | some _ => none

def jBool : Option Json → Option Bool
  | none => some false
  | some (Json.bool b) => some b
  | some Json.null => some false
  | some _ => none

def strFields : List (String × Json) → Option (List (String × String))
  | [] => some []
  | (k, Json.str v) :: t => (strFields t).map (fun r => (k, v) :: r)
  | _ => none

def jStrMap : Option Json → Option (List (String × String))
  | none => some []
  | some Json.null => some []
  | some (Json.obj kvs) => strFields kvs
  | some _ => none

def linkFromJson : Json → Option LinkEntry
  | Json.obj kvs =>
    match jStr (jsonLookup kvs "source"), jStr (jsonLookup kvs "target"),
          jStr (jsonLookup kvs "type") with
    | some s, some t, some ty => some ⟨s, t, ty⟩
    | _, _, _ => none
  | _ => none

def linkList : List Json → Option (List LinkEntry)
  | [] => some []
  | x :: t =>
    match linkFromJson x, linkList t with
    | some l, some r => some (l :: r)
    | _, _ => none

def linksFromJson : Option Json → Option (List LinkEntry)
  | none => some []
  | some Json.null => some []
  | some (Json.arr xs) => linkList xs
  | some _ => none

def unmarshalCommit : Json → Option CommitObject
  | Json.obj kvs =>
    match jInt (jsonLookup kvs "v"), jStr (jsonLookup kvs "parent"),
          jStr (jsonLookup kvs "author"), jStr (jsonLookup kvs "timestamp"),
          jStrMap (jsonLookup kvs "refs"), linksFromJson (jsonLookup kvs "links"),
          jStr (jsonLookup kvs "message") with
    | some v, some p, some a, some ts, some r, some ls, some m =>
      some ⟨v, p, a, ts, r, ls, m⟩
    | _, _, _, _, _, _, _ => none
  | _ => none

theorem strFields_map (rs : List (String × String)) :
    strFields (rs.map (fun kv => (kv.1, Json.str kv.2))) = some rs := by
  induction rs with
  | nil => rfl
  | cons kv t ih =>
    obtain ⟨k, v⟩ := kv
    rw [List.map_cons]
    rw [show strFields ((k, Json.str v) :: t.map (fun kv => (kv.1, Json.str kv.2))) =
      (strFields (t.map (fun kv => (kv.1, Json.str kv.2)))).map (fun r => (k, v) :: r)
      from rfl]
    rw [ih]
    rfl

theorem linkFromJson_toJson (l : LinkEntry) : linkFromJson (linkToJson l) = some l := rfl

theorem linkList_map (ls : List LinkEntry) : linkList (ls.map linkToJson) = some ls := by
  induction ls with
  | nil => rfl
  | cons l t ih =>
    rw [List.map_cons]
    rw [show linkList (linkToJson l :: t.map linkToJson) =
      (match linkFromJson (linkToJson l), linkList (t.map linkToJson) with
       | some x, some r => some (x :: r)
       | _, _ => none) from rfl]
    rw [linkFromJson_toJson, ih]

theorem linkList_map_cons (l : LinkEntry) (t : List LinkEntry) :
    linkList (linkToJson l :: t.map linkToJson) = some (l :: t) := by
  rw [← List.map_cons]
  exact linkList_map _

theorem unmarshalCommit_toJson (c : CommitObject) :
    unmarshalCommit (commitToJson c) = some c := by
  obtain ⟨v, p, a, ts, r, ls, m⟩ := c
  cases ls <;> by_cases hm : m = "" <;> by_cases hp : p = "" <;>
    simp [commitToJson, unmarshalCommit, jsonLookup, jInt, jStr, jStrMap,
      linksFromJson, hm, hp, strFields_map, linkList_map, linkList_map_cons]

/-- Strictly sorted keys of a refs snapshot. -/
def refsKeysSorted : List (String × String) → Bool
  | [] => true
  | [_] => true
  | (k1, _) :: (k2, v2) :: t => strLt k1 k2 && refsKeysSorted ((k2, v2) :: t)

theorem itemsCanon_links (ls : List LinkEntry) : itemsCanon (ls.map linkToJson) = true := by
  induction ls with
  | nil => rfl
  | cons l t ih =>
    rw [List.map_cons]
    rw [show itemsCanon (linkToJson l :: t.map linkToJson) =
      (isCanon (linkToJson l) && itemsCanon (t.map linkToJson)) from rfl]
    rw [show isCanon (linkToJson l) = true from rfl, ih]
    rfl

theorem refsFields_canon (r : List (String × String)) :
    fieldsCanon (r.map (fun kv => (kv.1, Json.str kv.2))) = true := by
  induction r with
  | nil => rfl
  | cons kv t ih =>
    obtain ⟨k, v⟩ := kv
    rw [List.map_cons]
    rw [show fieldsCanon ((k, Json.str v) :: t.map (fun kv => (kv.1, Json.str kv.2))) =
      (isCanon (Json.str v) && fieldsCanon (t.map (fun kv => (kv.1, Json.str kv.2))))
      from rfl]
    rw [ih]
    rfl

theorem refsKeysSorted_toJson (r : List (String × String)) (h : refsKeysSorted r = true) :
    keysSorted (r.map (fun kv => (kv.1, Json.str kv.2))) = true := by
  induction r with
  | nil => rfl
  | cons kv t ih =>
    obtain ⟨k, v⟩ := kv
    cases t with
    | nil => rfl
    | cons kv2 t2 =>
      obtain ⟨k2, v2⟩ := kv2
      rw [refsKeysSorted, Bool.and_eq_true] at h
      rw [List.map_cons, List.map_cons]
      rw [show keysSorted ((k, Json.str v) :: (k2, Json.str v2) ::
        t2.map (fun kv => (kv.1, Json.str kv.2))) =
        (strLt k k2 && keysSorted ((k2, Json.str v2) ::
          t2.map (fun kv => (kv.1, Json.str kv.2)))) from rfl]
      rw [h.1]
      have := ih h.2
      rw [List.map_cons] at this
      rw [this]
      rfl

theorem itemsCanon_links_cons (l : LinkEntry) (t : List LinkEntry) :
    itemsCanon (linkToJson l :: t.map linkToJson) = true := by
  rw [← List.map_cons]
  exact itemsCanon_links _

theorem commitToJson_isCanon (c : CommitObject) (h : refsKeysSorted c.Refs = true) :
    isCanon (commitToJson c) = true := by
  obtain ⟨v, p, a, ts, r, ls, m⟩ := c
  cases ls <;> by_cases hm : m = "" <;> by_cases hp : p = "" <;>
    simp [commitToJson, isCanon, itemsCanon, fieldsCanon, keysSorted, hm, hp,
      itemsCanon_links, itemsCanon_links_cons, refsFields_canon, linkToJson,
      refsKeysSorted_toJson _ h, strLt, charListLt]

/-! ## Node envelopes (src/unnamed/part_002) -/

structure NodeEnvelope where
  V : Int
  ID : String
  Type' : String
  Content : Bytes
  Meta : List (String × Json)
  Created : String
  Modified : String
  Prev : String
  Deleted : Bool

/-- `json.Marshal` of a NodeEnvelope as a tree: `content` (the base64 of
the bytes), `meta`, `prev` and `deleted` carry `omitempty`; an empty
`Content` (nil or zero-length) and an empty `Meta` map are omitted. -/
def envelopeToJson (e : NodeEnvelope) : Json :=
  Json.obj (
    (if e.Content.isEmpty then []
     else [("content", Json.str (base64Encode e.Content))]) ++
    [("created", Json.str e.Created)] ++
    (if e.Deleted then [("deleted", Json.bool true)] else []) ++
    [("id", Json.str e.ID)] ++
    (if e.Meta.isEmpty then [] else [("meta", Json.obj e.Meta)]) ++
    [("modified", Json.str e.Modified)] ++
    (if e.Prev = "" then [] else [("prev", Json.str e.Prev)]) ++
    [("type", Json.str e.Type')] ++
    [("v", Json.num e.V)])

def jContent : Option Json → Option Bytes
  | none => some []
  | some Json.null => some []
  | some (Json.str s) => base64Decode s
  | some _ => none

def jMeta : Option Json → Option (List (String × Json))
  | none => some []
  | some Json.null => some []
  | some (Json.obj kvs) => some kvs
  | some _ => none

def unmarshalEnvelope : Json → Option NodeEnvelope
  | Json.obj kvs =>
    match jInt (jsonLookup kvs "v"), jStr (jsonLookup kvs "id"),
          jStr (jsonLookup kvs "type"), jContent (jsonLookup kvs "content"),
          jMeta (jsonLookup kvs "meta"), jStr (jsonLookup kvs "created"),
          jStr (jsonLookup kvs "modified"), jStr (jsonLookup kvs "prev"),
          jBool (jsonLookup kvs "deleted") with
    | some v, some i, some ty, some ct, some mt, some cr, some mo, some pv, some dl =>
      some ⟨v, i, ty, ct, mt, cr, mo, pv, dl⟩
    | _, _, _, _, _, _, _, _, _ => none
  | _ => none

theorem unmarshalEnvelope_toJson (e : NodeEnvelope) (hv : validBytes e.Content) :
    unmarshalEnvelope (envelopeToJson e) = some e := by
  obtain ⟨v, i, ty, ct, mt, cr, mo, pv, dl⟩ := e
  cases ct <;> cases mt <;> cases dl <;> by_cases hpv : pv = "" <;>
    simp [envelopeToJson, unmarshalEnvelope, jsonLookup, jInt, jStr, jBool,
      jContent, jMeta, hpv, base64Decode_encode _ hv]

theorem envelopeToJson_isCanon (e : NodeEnvelope)
    (hm : isCanon (Json.obj e.Meta) = true) :
    isCanon (envelopeToJson e) = true := by
  obtain ⟨v, i, ty, ct, mt, cr, mo, pv, dl⟩ := e
  rw [show isCanon (Json.obj mt) = (keysSorted mt && fieldsCanon mt) from rfl,
    Bool.and_eq_true] at hm
  cases ct <;> by_cases hmt : mt.isEmpty <;> cases dl <;> by_cases hpv : pv = "" <;>
    simp [envelopeToJson, isCanon, itemsCanon, fieldsCanon, keysSorted, hpv, hmt,
      strLt, charListLt, hm.1, hm.2]

/-! ## Canonical bytes and unmarshalling -/

theorem utf8Char_valid (c : Char) : ∀ b ∈ utf8Char c, b < 256 := by
  intro b hb
  have hlt := char_toNat_lt c
  rw [utf8Char] at hb
  split at hb
  · rcases List.mem_singleton.mp hb with rfl
    omega
  split at hb
  · rcases List.mem_cons.mp hb with rfl | hb
    · omega
    rcases List.mem_singleton.mp hb with rfl
    omega
  split at hb
  · rcases List.mem_cons.mp hb with rfl | hb
    · omega
    rcases List.mem_cons.mp hb with rfl | hb
    · omega
    rcases List.mem_singleton.mp hb with rfl
    omega
  · rcases List.mem_cons.mp hb with rfl | hb
    · omega
    rcases List.mem_cons.mp hb with rfl | hb
    · omega
    rcases List.mem_cons.mp hb with rfl | hb
    · omega
    rcases List.mem_singleton.mp hb with rfl
    omega

theorem utf8Encode_valid (cs : List Char) : validBytes (utf8Encode cs) := by
  intro b hb
  rw [utf8Encode] at hb
  obtain ⟨c, _, hc⟩ := List.mem_flatMap.mp hb
  exact utf8Char_valid c b hc

/-- `CanonicalJSON` (src/unnamed/part_002) as bytes: the canonical
encoding of the tree, UTF-8 encoded. -/
def CanonicalJSON (j : Json) : Bytes := utf8Encode (canonicalEncode j)

/-- `json.Unmarshal` of raw bytes into an `interface` tree. -/
def goUnmarshal (bs : Bytes) : Option Json := (utf8Decode bs).bind parseJson

theorem goUnmarshal_canonicalJSON (j : Json) (h : isCanon j = true) :
    goUnmarshal (CanonicalJSON j) = some j := by
  rw [CanonicalJSON, goUnmarshal, utf8Decode_encode, Option.some_bind,
    parseJson_canonicalEncode j h]


/-! ## The commit log (src/internal/dag/safefile_test.go, CommitLog part)

HEAD is a single-line file; the log state is the object store plus the
optional HEAD file content.  `Commit` is modelled from the point its
snapshots exist: the refs snapshot (step 1: sorted ids, each resolved via
`RefStore.Get` and re-encoded with `CIDToFilename`) and the links
snapshot arrive in a `CommitInput` together with the `time.Now()`
timestamp; steps 2–6 (sort links, parent from HEAD, build, serialize,
store, write HEAD) follow the source. -/

structure CommitState where
  store : ObjectStore
  headFile : Option String

structure CommitInput where
  Refs : List (String × String)
  Links : List LinkEntry
  Message : String
  Timestamp : String

/-- `CommitLog.Head`: outer `none` is a read/decode error; inner `none`
is `gocid.Undef` (missing file or blank content). -/
def Head : Option String → Option (Option Bytes)
  | none => some none
  | some data =>
    if String.mk (goTrimSpace data.toList) = "" then some none
    else
      match multibaseDecode (String.mk (goTrimSpace data.toList)) with
      | none => none
      | some cidBytes =>
        match castCid cidBytes with
        | none => none
        | some c => some (some c)

def commitData (c : CommitObject) : Bytes := CanonicalJSON (commitToJson c)

def commitFilename (c : CommitObject) : String := CIDToFilename (ComputeCID (commitData c))

/-- Step 3 of `Commit`: the parent string from HEAD (empty on error or on
Undef). -/
def parentOf (headFile : Option String) : String :=
  match Head headFile with
  | some (some h) => CIDToFilename h
  | _ => ""

/-- The `sort.Slice` comparator on the links snapshot: by source, then
target, then type. -/
def linkLess (x y : LinkEntry) : Bool :=
  if x.Source ≠ y.Source then strLt x.Source y.Source
  else if x.Target ≠ y.Target then strLt x.Target y.Target
  else strLt x.Type' y.Type'

/-- Step 4 of `Commit`: the commit object (V=1, parent from HEAD, the
log's author, the snapshots, the message). `sort.Slice` is unstable, but
its comparator is a strict total order on the distinct link triples, so
the sorted snapshot is unique; `insertionSort` computes it. -/
def mkCommit (author : String) (st : CommitState) (i : CommitInput) : CommitObject :=
  ⟨1, parentOf st.headFile, author, i.Timestamp, i.Refs,
   List.insertionSort (fun x y => linkLess x y = true) i.Links, i.Message⟩

/-- Steps 5–6 of `Commit`: canonical-serialize, `Put`, write HEAD. -/
def doCommit (author : String) (st : CommitState) (i : CommitInput) :
    CommitState × Bytes :=
  let c := mkCommit author st i
  let pr := ObjectStore.Put st.store (commitData c)
  (⟨pr.1, some (CIDToFilename pr.2 ++ "\n")⟩, pr.2)

/-- `CommitLog.GetCommit`. -/
def GetCommit (store : ObjectStore) (c : Bytes) : Option CommitObject :=
  (ObjectStore.Get store c).bind fun data => (goUnmarshal data).bind unmarshalCommit

/-- Following a parent pointer: stop at an empty or undecodable parent,
else continue with the decoded CID. -/
def logNext (parent : String) (rec : Bytes → List CommitObject) : List CommitObject :=
  if parent = "" then []
  else
    match multibaseDecode parent with
    | none => []
    | some cidBytes =>
      match castCid cidBytes with
      | none => []
      | some c2 => rec c2

/-- The walk inside `CommitLog.Log`: up to `n` steps from the given CID,
stopping at a read error or at the end of the chain. -/
def logWalk (store : ObjectStore) : Nat → Bytes → List CommitObject
  | 0, _ => []
  | n + 1, current =>
    match GetCommit store current with
    | none => []
    | some commit => commit :: logNext commit.Parent (logWalk store n)

/-- `CommitLog.Log`: `none` is an error from `Head`; `some []` when HEAD
is Undef. -/
def Log (st : CommitState) (n : Nat) : Option (List CommitObject) :=
  match Head st.headFile with
  | none => none
  | some none => some []
  | some (some head) => some (logWalk st.store n head)

theorem objectStore_put_snd (s : ObjectStore) (d : Bytes) :
    (ObjectStore.Put s d).2 = ComputeCID d := by
  rw [objectStore_put_eq]
  split <;> rfl

/-- C1: every commit object `Commit` produces records the configured
author DID: the built object's `Author` equals the log's author, its JSON
tree stores it under the "author" key, and the CID returned (under which
the canonical serialization is stored) is that of the canonical
serialization of this very tree. -/
theorem commit_records_author (author : String) (st : CommitState) (i : CommitInput) :
    (mkCommit author st i).Author = author ∧
    (match commitToJson (mkCommit author st i) with
     | Json.obj kvs => jsonLookup kvs "author"
     | _ => none) = some (Json.str author) ∧
    (doCommit author st i).2 =
      ComputeCID (CanonicalJSON (commitToJson (mkCommit author st i))) := by
  refine ⟨rfl, rfl, ?_⟩
  show (ObjectStore.Put st.store (commitData (mkCommit author st i))).2 = _
  rw [objectStore_put_snd]
  rfl


/-! ## Commit chains: a run of sequential mutations

Each successful mutation ends in one `Commit` call; a run is the sequence
of those calls' inputs against a fresh repository (no HEAD, empty object
store).  `runCommits` lists the commit objects the run produces (oldest
first), tracking the parent filename; the no-collision hypothesis (the
run's commit filenames are pairwise distinct, true unless SHA-256
collides) makes the store reconstruction exact. -/

def mkCommitP (author parentFn : String) (i : CommitInput) : CommitObject :=
  ⟨1, parentFn, author, i.Timestamp, i.Refs,
   List.insertionSort (fun x y => linkLess x y = true) i.Links, i.Message⟩

theorem mkCommit_eq (author : String) (st : CommitState) (i : CommitInput) :
    mkCommit author st i = mkCommitP author (parentOf st.headFile) i := rfl

theorem doCommit_eq (author : String) (st : CommitState) (i : CommitInput) :
    doCommit author st i =
      (⟨(ObjectStore.Put st.store (commitData (mkCommit author st i))).1,
        some (CIDToFilename
          (ObjectStore.Put st.store (commitData (mkCommit author st i))).2 ++ "\n")⟩,
       (ObjectStore.Put st.store (commitData (mkCommit author st i))).2) := rfl

def lastFn (cs : List CommitObject) : String :=
  match cs.getLast? with
  | none => ""
  | some c => commitFilename c

def headFileOf (cs : List CommitObject) : Option String :=
  match cs.getLast? with
  | none => none
  | some c => some (commitFilename c ++ "\n")

def commitPairs (cs : List CommitObject) : ObjectStore :=
  cs.map (fun c => (commitFilename c, commitData c))

def commitRunAux (author : String) : CommitState → List CommitInput → CommitState
  | st, [] => st
  | st, i :: rest => commitRunAux author (doCommit author st i).1 rest

def runCommits (author : String) : String → List CommitInput → List CommitObject
  | _, [] => []
  | parentFn, i :: rest =>
    mkCommitP author parentFn i ::
      runCommits author (commitFilename (mkCommitP author parentFn i)) rest

theorem b32Alphabet_no_space : ∀ x ∈ b32Alphabet, goIsSpace x = false := by decide

theorem multibaseB32_toList (bs : Bytes) :
    (multibaseB32 bs).toList =
      'b' :: (chunk5 (bytesBits bs ++
        List.replicate ((5 - (8 * bs.length) % 5) % 5) false)).map
          (fun g => b32Alphabet.getD (bitsVal g) 'a') := rfl

theorem getD_prop {P : Char → Prop} : ∀ (l : List Char) (v : Nat) (d : Char),
    (∀ x ∈ l, P x) → P d → P (l.getD v d) := by
  intro l
  induction l with
  | nil => intro v d _ hd; cases v <;> exact hd
  | cons x t ih =>
    intro v d hl hd
    cases v with
    | zero => exact hl x (List.mem_cons_self ..)
    | succ v' => exact ih v' d (fun y hy => hl y (List.mem_cons_of_mem _ hy)) hd

theorem multibaseB32_chars (bs : Bytes) :
    ∀ ch ∈ (multibaseB32 bs).toList, goIsSpace ch = false := by
  intro ch hch
  rw [multibaseB32_toList] at hch
  rcases List.mem_cons.mp hch with rfl | hch
  · decide
  obtain ⟨g, _, rfl⟩ := List.mem_map.mp hch
  exact getD_prop b32Alphabet _ 'a' b32Alphabet_no_space (by decide)

theorem multibaseB32_ne_empty (bs : Bytes) : ¬ multibaseB32 bs = "" := by
  intro h
  have h2 : (multibaseB32 bs).toList = [] := by rw [h]; rfl
  rw [multibaseB32_toList] at h2
  exact List.noConfusion h2

theorem CIDToFilename_ne_empty (c : Bytes) : ¬ CIDToFilename c = "" :=
  multibaseB32_ne_empty c

theorem goTrimSpace_append_newline (l : List Char) (hne : l ≠ [])
    (h : ∀ c ∈ l, goIsSpace c = false) :
    goTrimSpace (l ++ ['\n']) = l := by
  rw [goTrimSpace]
  cases l with
  | nil => exact absurd rfl hne
  | cons c t =>
    rw [List.cons_append, List.dropWhile_cons,
      if_neg (by rw [h c (List.mem_cons_self ..)]; exact Bool.false_ne_true)]
    rw [show (c :: (t ++ ['\n'])).reverse = '\n' :: (t.reverse ++ [c]) from by
      simp [List.reverse_cons, List.reverse_append]]
    rw [List.dropWhile_cons, if_pos (show goIsSpace '\n' = true from by decide)]
    rw [dropWhile_of_none _ _ (fun x hx => by
      rcases List.mem_append.mp hx with hx | hx
      · exact h x (List.mem_cons_of_mem _ (List.mem_reverse.mp hx))
      · rcases List.mem_singleton.mp hx with rfl
        exact h x (List.mem_cons_self ..))]
    simp [List.reverse_append]

theorem head_of_written (d : Bytes) :
    Head (some (CIDToFilename (ComputeCID d) ++ "\n")) = some (some (ComputeCID d)) := by
  have htrim : String.mk (goTrimSpace ((CIDToFilename (ComputeCID d) ++ "\n").toList)) =
      CIDToFilename (ComputeCID d) := by
    rw [show (CIDToFilename (ComputeCID d) ++ "\n").toList =
      (multibaseB32 (ComputeCID d)).toList ++ ['\n'] from rfl]
    rw [goTrimSpace_append_newline _
      (fun hh => multibaseB32_ne_empty (ComputeCID d) (by
        rw [← string_mk_toList (multibaseB32 (ComputeCID d)), hh]))
      (multibaseB32_chars _)]
    exact string_mk_toList _
  rw [Head, htrim]
  rw [if_neg (CIDToFilename_ne_empty _)]
  rw [show CIDToFilename (ComputeCID d) = multibaseB32 (ComputeCID d) from rfl]
  rw [multibaseDecode_encode _ (computeCID_valid d)]
  show (match castCid (ComputeCID d) with
    | none => none
    | some c => some (some c)) = some (some (ComputeCID d))
  rw [castCid_computeCID]

theorem storeLookup_eq_none (l : ObjectStore) (n : String)
    (h : ¬ n ∈ l.map (fun p => p.1)) : storeLookup l n = none := by
  induction l with
  | nil => rfl
  | cons p t ih =>
    obtain ⟨n', d'⟩ := p
    rw [List.map_cons] at h
    rw [storeLookup, if_neg (fun hh => h (by rw [hh]; exact List.mem_cons_self ..))]
    exact ih (fun hh => h (List.mem_cons_of_mem _ hh))

theorem storeLookup_of_mem (l : ObjectStore) (hnd : (l.map (fun p => p.1)).Nodup)
    (n : String) (d : Bytes) (hmem : (n, d) ∈ l) : storeLookup l n = some d := by
  induction l with
  | nil => exact absurd hmem (List.not_mem_nil _)
  | cons p t ih =>
    obtain ⟨n', d'⟩ := p
    rw [List.map_cons, List.nodup_cons] at hnd
    rcases List.mem_cons.mp hmem with heq | hmem
    · injection heq with h1 h2
      subst h1
      subst h2
      rw [storeLookup, if_pos rfl]
    · rw [storeLookup, if_neg (fun hh => hnd.1 (by
        rw [hh]
        exact List.mem_map.mpr ⟨(n, d), hmem, rfl⟩))]
      exact ih hnd.2 hmem

theorem objectStore_put_fresh (s : ObjectStore) (d : Bytes)
    (h : storeLookup s (CIDToFilename (ComputeCID d)) = none) :
    ObjectStore.Put s d = ((CIDToFilename (ComputeCID d), d) :: s, ComputeCID d) := by
  rw [objectStore_put_eq, h, if_neg (show ¬ (none : Option Bytes).isSome = true from
    Bool.false_ne_true)]

theorem head_headFileOf (done : List CommitObject) :
    Head (headFileOf done) =
      some (done.getLast?.map (fun c => ComputeCID (commitData c))) := by
  cases hl : done.getLast? with
  | none => rw [headFileOf, hl]; rfl
  | some c =>
    rw [headFileOf, hl]
    exact head_of_written (commitData c)

theorem parentOf_headFileOf (done : List CommitObject) :
    parentOf (headFileOf done) = lastFn done := by
  rw [parentOf, head_headFileOf, lastFn]
  cases hl : done.getLast? with
  | none => rfl
  | some c => rfl

theorem commitRun_state (author : String) : ∀ (inputs : List CommitInput)
    (done : List CommitObject),
    ((done ++ runCommits author (lastFn done) inputs).map commitFilename).Nodup →
    commitRunAux author ⟨(commitPairs done).reverse, headFileOf done⟩ inputs =
      ⟨(commitPairs (done ++ runCommits author (lastFn done) inputs)).reverse,
        headFileOf (done ++ runCommits author (lastFn done) inputs)⟩ := by
  intro inputs
  induction inputs with
  | nil =>
    intro done _
    rw [runCommits, List.append_nil]
    rfl
  | cons i rest ih =>
    intro done hnd
    rw [runCommits] at hnd ⊢
    set c : CommitObject := mkCommitP author (lastFn done) i with hc
    have hmk : mkCommit author ⟨(commitPairs done).reverse, headFileOf done⟩ i = c := by
      rw [mkCommit_eq]
      show mkCommitP author (parentOf (headFileOf done)) i = c
      rw [parentOf_headFileOf, hc]
    have hnotin : ¬ commitFilename c ∈ done.map commitFilename := by
      intro hh
      rw [List.map_append, List.map_cons, List.nodup_append] at hnd
      exact hnd.2.2 hh (List.mem_cons_self ..)
    have hfresh : storeLookup (commitPairs done).reverse
        (CIDToFilename (ComputeCID (commitData c))) = none := by
      apply storeLookup_eq_none
      intro hh
      apply hnotin
      rw [show ((commitPairs done).reverse.map (fun p => p.1)) =
        (done.map commitFilename).reverse from by
          rw [commitPairs, List.map_reverse, List.map_map]
          rfl] at hh
      exact List.mem_reverse.mp hh
    rw [commitRunAux, doCommit_eq, hmk, objectStore_put_fresh _ _ hfresh]
    show commitRunAux author
      ⟨(CIDToFilename (ComputeCID (commitData c)), commitData c) ::
        (commitPairs done).reverse,
       some (CIDToFilename (ComputeCID (commitData c)) ++ "\n")⟩ rest = _
    have hstore : ((CIDToFilename (ComputeCID (commitData c)), commitData c) ::
        (commitPairs done).reverse : ObjectStore) =
        (commitPairs (done ++ [c])).reverse := by
      rw [commitPairs, commitPairs, List.map_append, List.reverse_append]
      rfl
    have hhead : (some (CIDToFilename (ComputeCID (commitData c)) ++ "\n") :
        Option String) = headFileOf (done ++ [c]) := by
      rw [headFileOf, List.getLast?_concat]
      rfl
    rw [hstore, hhead]
    have hlast : lastFn (done ++ [c]) = commitFilename c := by
      rw [lastFn, List.getLast?_concat]
    have hnd' : (((done ++ [c]) ++ runCommits author (lastFn (done ++ [c])) rest).map
        commitFilename).Nodup := by
      rw [hlast, List.append_assoc, List.singleton_append]
      exact hnd
    rw [ih (done ++ [c]) hnd']
    rw [hlast, List.append_assoc, List.singleton_append]

def chainFrom (p : String) : List CommitObject → Bool
  | [] => true
  | c :: t => (c.Parent == p) && chainFrom (commitFilename c) t

theorem chainFrom_runCommits (author : String) :
    ∀ (inputs : List CommitInput) (p : String),
      chainFrom p (runCommits author p inputs) = true := by
  intro inputs
  induction inputs with
  | nil => intro p; rfl
  | cons i rest ih =>
    intro p
    rw [runCommits, chainFrom]
    rw [show (mkCommitP author p i).Parent = p from rfl]
    rw [beq_self_eq_true, ih]
    rfl

/-- Newest-first adjacency: each commit's parent names the next (older)
commit, and the oldest one's parent is `p`. -/
def chainOKFrom (p : String) : List CommitObject → Bool
  | [] => true
  | [c] => c.Parent == p
  | c :: c2 :: t => (c.Parent == commitFilename c2) && chainOKFrom p (c2 :: t)

theorem chainOKFrom_concat : ∀ (X : List CommitObject) (c : CommitObject) (p : String),
    chainOKFrom (commitFilename c) X = true → (c.Parent == p) = true →
    chainOKFrom p (X ++ [c]) = true := by
  intro X
  induction X with
  | nil =>
    intro c p _ h2
    rw [List.nil_append]
    exact h2
  | cons x t ih =>
    intro c p h1 h2
    cases t with
    | nil =>
      rw [List.cons_append, List.nil_append]
      rw [show chainOKFrom p [x, c] =
        ((x.Parent == commitFilename c) && chainOKFrom p [c]) from rfl]
      rw [show chainOKFrom (commitFilename c) [x] = (x.Parent == commitFilename c)
        from rfl] at h1
      rw [h1, show chainOKFrom p [c] = (c.Parent == p) from rfl, h2]
      rfl
    | cons y t2 =>
      rw [show chainOKFrom (commitFilename c) (x :: y :: t2) =
        ((x.Parent == commitFilename y) && chainOKFrom (commitFilename c) (y :: t2))
        from rfl, Bool.and_eq_true] at h1
      simp only [List.cons_append]
      rw [show chainOKFrom p (x :: y :: (t2 ++ [c])) =
        ((x.Parent == commitFilename y) && chainOKFrom p (y :: (t2 ++ [c]))) from rfl]
      rw [h1.1]
      have := ih c p h1.2 h2
      rw [List.cons_append] at this
      rw [this]
      rfl

theorem chainFrom_reverse : ∀ (L : List CommitObject) (p : String),
    chainFrom p L = true → chainOKFrom p L.reverse = true := by
  intro L
  induction L with
  | nil => intro p _; rfl
  | cons c t ih =>
    intro p h
    rw [chainFrom, Bool.and_eq_true] at h
    rw [List.reverse_cons]
    exact chainOKFrom_concat t.reverse c p (ih _ h.2) h.1

theorem logNext_empty (rec : Bytes → List CommitObject) : logNext "" rec = [] := by
  rw [logNext, if_pos rfl]

theorem logNext_cid (d : Bytes) (rec : Bytes → List CommitObject) :
    logNext (CIDToFilename (ComputeCID d)) rec = rec (ComputeCID d) := by
  rw [logNext, if_neg (CIDToFilename_ne_empty _),
    show CIDToFilename (ComputeCID d) = multibaseB32 (ComputeCID d) from rfl,
    multibaseDecode_encode _ (computeCID_valid d)]
  dsimp only
  rw [castCid_computeCID]

theorem logWalk_chain : ∀ (E : List CommitObject) (s : ObjectStore) (n : Nat)
    (c0 : CommitObject),
    (∀ c ∈ c0 :: E, GetCommit s (ComputeCID (commitData c)) = some c) →
    chainOKFrom "" (c0 :: E) = true →
    E.length + 1 ≤ n →
    logWalk s n (ComputeCID (commitData c0)) = c0 :: E := by
  intro E
  induction E with
  | nil =>
    intro s n c0 hget hchain hn
    obtain ⟨n', rfl⟩ : ∃ k, n = k + 1 := ⟨n - 1, by omega⟩
    rw [logWalk, hget c0 (List.mem_cons_self ..)]
    have hp : c0.Parent = "" :=
      beq_iff_eq.mp (show (c0.Parent == "") = true from hchain)
    dsimp only
    rw [hp, logNext_empty]
  | cons c1 t ih =>
    intro s n c0 hget hchain hn
    obtain ⟨n', rfl⟩ : ∃ k, n = k + 1 := ⟨n - 1, by omega⟩
    rw [logWalk, hget c0 (List.mem_cons_self ..)]
    rw [show chainOKFrom "" (c0 :: c1 :: t) =
      ((c0.Parent == commitFilename c1) && chainOKFrom "" (c1 :: t)) from rfl,
      Bool.and_eq_true] at hchain
    have hp : c0.Parent = commitFilename c1 := beq_iff_eq.mp hchain.1
    dsimp only
    rw [hp, show commitFilename c1 = CIDToFilename (ComputeCID (commitData c1)) from rfl,
      logNext_cid]
    rw [ih s n' c1 (fun c hc => hget c (List.mem_cons_of_mem _ hc)) hchain.2
      (by simp only [List.length_cons] at hn ⊢; omega)]

theorem getCommit_pairs (cs : List CommitObject) (c : CommitObject)
    (hnd : (cs.map commitFilename).Nodup) (hc : c ∈ cs)
    (hcanon : refsKeysSorted c.Refs = true) :
    GetCommit (commitPairs cs).reverse (ComputeCID (commitData c)) = some c := by
  rw [GetCommit]
  have hlook : storeLookup (commitPairs cs).reverse
      (CIDToFilename (ComputeCID (commitData c))) = some (commitData c) := by
    apply storeLookup_of_mem
    · rw [show ((commitPairs cs).reverse.map (fun p => p.1)) =
        (cs.map commitFilename).reverse from by
          rw [commitPairs, List.map_reverse, List.map_map]
          rfl]
      exact List.nodup_reverse.mpr hnd
    · rw [List.mem_reverse, commitPairs]
      exact List.mem_map_of_mem _ hc
  rw [show ObjectStore.Get ((commitPairs cs).reverse) (ComputeCID (commitData c)) =
    storeLookup (commitPairs cs).reverse (CIDToFilename (ComputeCID (commitData c)))
    from rfl, hlook]
  rw [Option.some_bind]
  rw [show commitData c = CanonicalJSON (commitToJson c) from rfl]
  rw [goUnmarshal_canonicalJSON _ (commitToJson_isCanon c hcanon)]
  rw [Option.some_bind]
  exact unmarshalCommit_toJson c

theorem runCommits_refs (author : String) :
    ∀ (inputs : List CommitInput) (p : String),
      (∀ i ∈ inputs, refsKeysSorted i.Refs = true) →
      ∀ c ∈ runCommits author p inputs, refsKeysSorted c.Refs = true := by
  intro inputs
  induction inputs with
  | nil =>
    intro p _ c hc
    exact absurd hc (List.not_mem_nil c)
  | cons i rest ih =>
    intro p h c hc
    rw [runCommits] at hc
    rcases List.mem_cons.mp hc with rfl | hc
    · exact h i (List.mem_cons_self ..)
    · exact ih _ (fun j hj => h j (List.mem_cons_of_mem _ hj)) c hc

theorem runCommits_length (author : String) :
    ∀ (inputs : List CommitInput) (p : String),
      (runCommits author p inputs).length = inputs.length := by
  intro inputs
  induction inputs with
  | nil => intro p; rfl
  | cons i rest ih =>
    intro p
    rw [runCommits, List.length_cons, List.length_cons, ih]

/-- C3: from a repository with no commits, after N sequential successful
mutations (N ≤ 1000), `Log N` returns exactly the N commit objects newest
first; the parent of commit i is the textual CID of commit i+1, the
oldest commit's parent is empty, and HEAD is the CID of commit 0.  The
run's refs snapshots are sorted maps (as `Commit` builds them) and the N
commit filenames are pairwise distinct (no SHA-256 collision in the
run). -/
theorem commitLog_chain (author : String) (inputs : List CommitInput)
    (hN : inputs.length ≤ 1000)
    (hrefs : ∀ i ∈ inputs, refsKeysSorted i.Refs = true)
    (hnd : ((runCommits author "" inputs).map commitFilename).Nodup) :
    Log (commitRunAux author ⟨[], none⟩ inputs) inputs.length =
      some ((runCommits author "" inputs).reverse) ∧
    (runCommits author "" inputs).reverse.length = inputs.length ∧
    chainOKFrom "" ((runCommits author "" inputs).reverse) = true ∧
    (∀ c0, ((runCommits author "" inputs).reverse).head? = some c0 →
      Head (commitRunAux author ⟨[], none⟩ inputs).headFile =
        some (some (ComputeCID (commitData c0)))) := by
  have hstate : commitRunAux author ⟨[], none⟩ inputs =
      ⟨(commitPairs (runCommits author "" inputs)).reverse,
       headFileOf (runCommits author "" inputs)⟩ := by
    have h0 := commitRun_state author inputs [] (by
      show ((([] : List CommitObject) ++
        runCommits author (lastFn []) inputs).map commitFilename).Nodup
      rw [show lastFn ([] : List CommitObject) = "" from rfl, List.nil_append]
      exact hnd)
    rw [show lastFn ([] : List CommitObject) = "" from rfl, List.nil_append] at h0
    exact h0
  have hchainOK : chainOKFrom "" ((runCommits author "" inputs).reverse) = true :=
    chainFrom_reverse _ _ (chainFrom_runCommits author inputs "")
  refine ⟨?_, by rw [List.length_reverse, runCommits_length], hchainOK, ?_⟩
  · rw [hstate, Log]
    rw [show (⟨(commitPairs (runCommits author "" inputs)).reverse,
      headFileOf (runCommits author "" inputs)⟩ : CommitState).headFile =
      headFileOf (runCommits author "" inputs) from rfl]
    rw [head_headFileOf]
    cases hlast : (runCommits author "" inputs).getLast? with
    | none =>
      rw [List.getLast?_eq_none_iff] at hlast
      rw [hlast]
      rfl
    | some c0 =>
      have hne : runCommits author "" inputs ≠ [] := by
        intro hh
        rw [hh] at hlast
        exact Option.noConfusion hlast
      cases hrev : (runCommits author "" inputs).reverse with
      | nil => exact absurd (List.reverse_eq_nil_iff.mp hrev) hne
      | cons c0' E =>
        have hc0 : c0' = c0 := by
          have := List.head?_reverse (runCommits author "" inputs)
          rw [hrev, hlast] at this
          exact Option.some.inj this
        subst hc0
        rw [Option.map_some']
        dsimp only
        rw [logWalk_chain E _ inputs.length c0'
          (fun c hc => by
            apply getCommit_pairs _ _ hnd
            · rw [← List.mem_reverse, hrev]
              exact hc
            · apply runCommits_refs author inputs "" hrefs
              rw [← List.mem_reverse, hrev]
              exact hc)
          (by rw [← hrev]; exact hchainOK)
          (by
            have hl2 : (c0' :: E).length = inputs.length := by
              rw [← hrev, List.length_reverse, runCommits_length]
            simp only [List.length_cons] at hl2
            omega)]
  · intro c0 hc0
    rw [hstate]
    rw [show (⟨(commitPairs (runCommits author "" inputs)).reverse,
      headFileOf (runCommits author "" inputs)⟩ : CommitState).headFile =
      headFileOf (runCommits author "" inputs) from rfl]
    rw [head_headFileOf]
    rw [List.head?_reverse] at hc0
    rw [hc0, Option.map_some']

theorem commitLog_chain_witness :
    Log (commitRunAux "a" ⟨[], none⟩ [⟨[], [], "m", "t"⟩])
        ([(⟨[], [], "m", "t"⟩ : CommitInput)].length) =
      some ((runCommits "a" "" [⟨[], [], "m", "t"⟩]).reverse) ∧
    (runCommits "a" "" [⟨[], [], "m", "t"⟩]).reverse.length =
      [(⟨[], [], "m", "t"⟩ : CommitInput)].length ∧
    chainOKFrom "" ((runCommits "a" "" [⟨[], [], "m", "t"⟩]).reverse) = true ∧
    (∀ c0, ((runCommits "a" "" [⟨[], [], "m", "t"⟩]).reverse).head? = some c0 →
      Head (commitRunAux "a" ⟨[], none⟩ [⟨[], [], "m", "t"⟩]).headFile =
        some (some (ComputeCID (commitData c0)))) :=
  commitLog_chain "a" [⟨[], [], "m", "t"⟩] (by decide) (by decide) (by decide)


/-! ## Co-change index (src/internal/dag/cochange.go)

The nested count maps `map[string]map[string]int` are association lists;
Go map iteration orders are unspecified, so set-like listings (the
`changed` set of `diffRefs`, the `unique` set of `flushWindow`) are
determinized in encounter order, which no claim observes.  `time.Time`
ordering is abstracted: `tsLt` stands for `Before` in the event sort and
`exceeds ws ts` for `ts.Sub(ws) > window`. -/

abbrev Pairs := List (String × List (String × Nat))

def rowLookup (row : List (String × Nat)) (id : String) : Option Nat :=
  match row with
  | [] => none
  | (k, v) :: t => if k = id then some v else rowLookup t id

def pairsRow (p : Pairs) (id : String) : List (String × Nat) :=
  match p with
  | [] => []
  | (k, row) :: t => if k = id then row else pairsRow t id

def rowInc (row : List (String × Nat)) (b : String) : List (String × Nat) :=
  match row with
  | [] => [(b, 1)]
  | (k, v) :: t => if k = b then (k, v + 1) :: t else (k, v) :: rowInc t b

/-- `idx.pairs[a][b]++` (allocating empty maps as the source does). -/
def pairsInc (p : Pairs) (a b : String) : Pairs :=
  match p with
  | [] => [(a, rowInc [] b)]
  | (k, row) :: t => if k = a then (k, rowInc row b) :: t else (k, row) :: pairsInc t a b

structure changeEvent where
  ts : String
  changed : List String
deriving DecidableEq

def dedupStr (seen : List String) : List String → List String
  | [] => []
  | x :: t => if x ∈ seen then dedupStr seen t else x :: dedupStr (x :: seen) t

/-- `diffRefs`: the IDs that changed between two ref snapshots (different
CID, added, or removed); child-side ids first, then removed parent ids. -/
def diffRefs (parent child : List (String × String)) : List String :=
  dedupStr []
    ((child.filter (fun kv =>
        match fileLookup parent kv.1 with
        | none => true
        | some pc => pc != kv.2)).map (fun kv => kv.1) ++
     (parent.filter (fun kv => (fileLookup child kv.1).isNone)).map (fun kv => kv.1))

/-- Build lines 50–57: diff each commit against its parent (commits are
newest first), keeping non-empty diffs as events. -/
def adjDiffs : List CommitObject → List changeEvent
  | child :: parent :: rest =>
    if (diffRefs parent.Refs child.Refs).isEmpty then adjDiffs (parent :: rest)
    else ⟨child.Timestamp, diffRefs parent.Refs child.Refs⟩ :: adjDiffs (parent :: rest)
  | _ => []

/-- Build lines 48–69: the adjacent diffs plus the first (oldest) commit's
event carrying all of its refs. -/
def buildEvents (commits : List CommitObject) : List changeEvent :=
  adjDiffs commits ++
    (match commits.getLast? with
     | none => []
     | some first =>
       if first.Refs.isEmpty then []
       else [⟨first.Timestamp, first.Refs.map (fun kv => kv.1)⟩])

def pairsAllPairs (p : Pairs) : List String → Pairs
  | [] => p
  | a :: rest =>
    pairsAllPairs (rest.foldl (fun acc b => pairsInc (pairsInc acc a b) b a) p) rest

/-- `flushWindow`: the unique changed nodes across the window's events;
fewer than two is a no-op, else every unordered pair is incremented both
ways. -/
def flushWindow (p : Pairs) (events : List changeEvent) : Pairs :=
  if (dedupStr [] (events.flatMap (fun e => e.changed))).length < 2 then p
  else pairsAllPairs p (dedupStr [] (events.flatMap (fun e => e.changed)))

/-- Build lines 77–91: group the time-sorted events into windows, flushing
when the next event exceeds the window from its start. -/
def windowLoop (exceeds : String → String → Bool) :
    Pairs → List changeEvent → Option String → List changeEvent → Pairs
  | p, win, _, [] => flushWindow p win
  | p, win, wstart, evt :: rest =>
    match wstart with
    | some ws =>
      if exceeds ws evt.ts then
        windowLoop exceeds (flushWindow p win) [evt] (some evt.ts) rest
      else windowLoop exceeds p (win ++ [evt]) (some ws) rest
    | none => windowLoop exceeds p (win ++ [evt]) (some evt.ts) rest

/-- `CoChangeIndex.Build`, given the `Log(1000)` result (newest first).
The initial `windowStart` is the zero time, modelled `none` (commit
timestamps are non-zero); `sort.Slice` with the strict `Before` is
determinized as an insertion sort. -/
def CoChangeBuild (tsLt exceeds : String → String → Bool)
    (commits : List CommitObject) : Pairs :=
  if commits.length < 2 then []
  else
    windowLoop exceeds [] [] none
      (List.insertionSort (fun a b => tsLt a.ts b.ts = true) (buildEvents commits))

/-- C7 (counterexample): for a chain of exactly one commit with two refs,
the oldest-commit event exists (`buildEvents` produces it, and flushing
it would pair the two refs), but `Build` returns no pairs at all — it
bails out when fewer than two commits come back from `Log`. -/
theorem cochange_single_commit_counterexample :
    CoChangeBuild (fun _ _ => false) (fun _ _ => false)
      [⟨1, "", "a", "t", [("x", "c1"), ("y", "c2")], [], "m"⟩] = [] ∧
    buildEvents [⟨1, "", "a", "t", [("x", "c1"), ("y", "c2")], [], "m"⟩] =
      [⟨"t", ["x", "y"]⟩] ∧
    ¬ flushWindow [] [⟨"t", ["x", "y"]⟩] = [] := by decide

/-- C7 (amended): for every chain of length ≥ 2 whose oldest commit has a
non-empty refs map, `Build` does process the events, and the oldest
commit contributes a change event carrying all of its refs. -/
theorem cochange_oldest_event_amended (tsLt exceeds : String → String → Bool)
    (commits : List CommitObject) (h2 : 2 ≤ commits.length)
    (first : CommitObject) (hlast : commits.getLast? = some first)
    (hne : ¬ first.Refs.isEmpty = true) :
    CoChangeBuild tsLt exceeds commits =
      windowLoop exceeds [] [] none
        (List.insertionSort (fun a b => tsLt a.ts b.ts = true) (buildEvents commits)) ∧
    (⟨first.Timestamp, first.Refs.map (fun kv => kv.1)⟩ : changeEvent) ∈
      buildEvents commits := by
  constructor
  · rw [CoChangeBuild, if_neg (by omega)]
  · rw [buildEvents, hlast]
    refine List.mem_append_right _ ?_
    dsimp only
    rw [if_neg hne]
    exact List.mem_singleton.mpr rfl

theorem cochange_oldest_event_amended_witness :
    CoChangeBuild (fun _ _ => false) (fun _ _ => false)
      [⟨1, "b1", "a", "t2", [("x", "c2")], [], "m2"⟩,
       ⟨1, "", "a", "t1", [("x", "c1")], [], "m1"⟩] =
      windowLoop (fun _ _ => false) [] [] none
        (List.insertionSort (fun a b => (fun _ _ => false) a.ts b.ts = true)
          (buildEvents
            [⟨1, "b1", "a", "t2", [("x", "c2")], [], "m2"⟩,
             ⟨1, "", "a", "t1", [("x", "c1")], [], "m1"⟩])) ∧
    (⟨"t1", ["x"]⟩ : changeEvent) ∈
      buildEvents
        [⟨1, "b1", "a", "t2", [("x", "c2")], [], "m2"⟩,
         ⟨1, "", "a", "t1", [("x", "c1")], [], "m1"⟩] :=
  cochange_oldest_event_amended (fun _ _ => false) (fun _ _ => false)
    [⟨1, "b1", "a", "t2", [("x", "c2")], [], "m2"⟩,
     ⟨1, "", "a", "t1", [("x", "c1")], [], "m1"⟩]
    (by decide) ⟨1, "", "a", "t1", [("x", "c1")], [], "m1"⟩ rfl (by decide)


/-! ## Relatedness (src/internal/dag/related.go)

`Related` merges the co-access row (weight 1.0) and the co-change row
(weight 2.0) into one score map, sorts by score descending with ties by
ID ascending, and truncates.  Every in-domain count is a small integer
and float64 arithmetic on such values is exact, so the float64 scores are
modelled as integers. -/

def scoresAdd (sc : List (String × Int)) (id : String) (delta : Int) :
    List (String × Int) :=
  match sc with
  | [] => [(id, delta)]
  | (k, v) :: t => if k = id then (k, v + delta) :: t else (k, v) :: scoresAdd t id delta

/-- `scores[id] += count * w` over both rows, co-access first. -/
def relScores (coAccess coChange : Pairs) (nodeID : String) : List (String × Int) :=
  (pairsRow coChange nodeID).foldl (fun sc kv => scoresAdd sc kv.1 ((kv.2 : Int) * 2))
    ((pairsRow coAccess nodeID).foldl
      (fun sc kv => scoresAdd sc kv.1 ((kv.2 : Int) * 1)) [])

/-- The sort order of `Related`: score descending, ties by ID ascending
(the source's strict `sort.Slice` comparator is a strict total order on
the distinct rows, so the unstable sort's output is unique and equals
this insertion sort). -/
def relLe (a b : String × Int) : Bool :=
  if a.2 ≠ b.2 then b.2 < a.2 else strLe a.1 b.1

/-- `RelatednessIndex.Related`. -/
def RelatednessRelated (coAccess coChange : Pairs) (nodeID : String) (limit : Int) :
    List String :=
  if (relScores coAccess coChange nodeID).isEmpty then []
  else
    (if 0 < limit ∧ limit <
        ((List.insertionSort (fun a b => relLe a b = true)
          (relScores coAccess coChange nodeID)).length : Int) then
      (List.insertionSort (fun a b => relLe a b = true)
        (relScores coAccess coChange nodeID)).take limit.toNat
    else
      List.insertionSort (fun a b => relLe a b = true)
        (relScores coAccess coChange nodeID)).map (fun r => r.1)

/-- Specification-side ranking, from the claim's words: every peer in
either matrix row scores 1.0 times its co-access count plus 2.0 times its
co-change count; rank by score descending with ties by ID ascending;
truncate to `limit` entries, `limit` 0 meaning no cap. -/
def specRelated (coAccess coChange : Pairs) (nodeID : String) (limit : Int) :
    List String :=
  ((if limit = 0 then id else fun l : List (String × Int) => l.take limit.toNat)
    (List.insertionSort (fun a b => relLe a b = true)
      ((dedupStr [] ((pairsRow coAccess nodeID).map (fun kv => kv.1) ++
        (pairsRow coChange nodeID).map (fun kv => kv.1))).map (fun id =>
          (id, ((rowLookup (pairsRow coAccess nodeID) id).getD 0 : Int) * 1 +
               ((rowLookup (pairsRow coChange nodeID) id).getD 0 : Int) * 2))))).map
    (fun r => r.1)

theorem rowLookup_of_mem (row : List (String × Nat))
    (hnd : (row.map (fun kv => kv.1)).Nodup) :
    ∀ kv ∈ row, rowLookup row kv.1 = some kv.2 := by
  induction row with
  | nil => intro kv hkv; exact absurd hkv (List.not_mem_nil kv)
  | cons p t ih =>
    obtain ⟨k, v⟩ := p
    rw [List.map_cons, List.nodup_cons] at hnd
    intro kv hkv
    rcases List.mem_cons.mp hkv with rfl | hkv
    · rw [rowLookup, if_pos rfl]
    · rw [rowLookup, if_neg (fun hh => hnd.1 (by
        rw [hh]
        exact List.mem_map.mpr ⟨kv, hkv, rfl⟩))]
      exact ih hnd.2 kv hkv

theorem rowLookup_eq_none (row : List (String × Nat)) (k : String)
    (h : ¬ k ∈ row.map (fun kv => kv.1)) : rowLookup row k = none := by
  induction row with
  | nil => rfl
  | cons p t ih =>
    obtain ⟨k', v'⟩ := p
    rw [List.map_cons] at h
    rw [rowLookup, if_neg (fun hh => h (by rw [hh]; exact List.mem_cons_self ..))]
    exact ih (fun hh => h (List.mem_cons_of_mem _ hh))

theorem scoresAdd_absent (sc : List (String × Int)) (id : String) (delta : Int)
    (h : ¬ id ∈ sc.map (fun p => p.1)) : scoresAdd sc id delta = sc ++ [(id, delta)] := by
  induction sc with
  | nil => rfl
  | cons p t ih =>
    obtain ⟨k, v⟩ := p
    rw [List.map_cons] at h
    rw [scoresAdd, if_neg (fun hh => h (by rw [← hh]; exact List.mem_cons_self ..)),
      List.cons_append]
    rw [ih (fun hh => h (List.mem_cons_of_mem _ hh))]

theorem map_update_notmem (t : List (String × Int)) (id : String) (delta : Int)
    (h : ¬ id ∈ t.map (fun p => p.1)) :
    t.map (fun p => if p.1 = id then (p.1, p.2 + delta) else p) = t := by
  induction t with
  | nil => rfl
  | cons p t2 ih =>
    obtain ⟨k, v⟩ := p
    rw [List.map_cons] at h
    rw [List.map_cons, if_neg (fun hh => h (by rw [← hh]; exact List.mem_cons_self ..))]
    rw [ih (fun hh => h (List.mem_cons_of_mem _ hh))]

theorem scoresAdd_present (sc : List (String × Int)) (id : String) (delta : Int)
    (hnd : (sc.map (fun p => p.1)).Nodup) (h : id ∈ sc.map (fun p => p.1)) :
    scoresAdd sc id delta = sc.map (fun p => if p.1 = id then (p.1, p.2 + delta) else p) := by
  induction sc with
  | nil => exact absurd h (List.not_mem_nil id)
  | cons p t ih =>
    obtain ⟨k, v⟩ := p
    rw [List.map_cons, List.nodup_cons] at hnd
    rw [List.map_cons]
    by_cases hk : k = id
    · subst hk
      rw [scoresAdd, if_pos rfl, if_pos rfl]
      rw [map_update_notmem t k delta hnd.1]
    · rw [scoresAdd, if_neg hk, if_neg hk]
      rw [List.map_cons] at h
      rcases List.mem_cons.mp h with hh | hh
      · exact absurd hh.symm hk
      · rw [ih hnd.2 hh]

theorem keys_scoresAdd_update (sc : List (String × Int)) (id : String) (delta : Int) :
    (sc.map (fun p => if p.1 = id then (p.1, p.2 + delta) else p)).map (fun p => p.1) =
      sc.map (fun p => p.1) := by
  rw [List.map_map]
  exact List.map_congr_left (fun p _ => by
    show (if p.1 = id then (p.1, p.2 + delta) else p).1 = p.1
    split <;> rfl)

theorem foldl_scoresAdd_fresh (w : Int) : ∀ (row : List (String × Nat))
    (acc : List (String × Int)),
    (∀ kv ∈ row, ¬ kv.1 ∈ acc.map (fun p => p.1)) →
    (row.map (fun kv => kv.1)).Nodup →
    row.foldl (fun sc kv => scoresAdd sc kv.1 ((kv.2 : Int) * w)) acc =
      acc ++ row.map (fun kv => (kv.1, (kv.2 : Int) * w)) := by
  intro row
  induction row with
  | nil =>
    intro acc _ _
    rw [List.foldl_nil, List.map_nil, List.append_nil]
  | cons kv rest ih =>
    intro acc hacc hnd
    rw [List.map_cons, List.nodup_cons] at hnd
    rw [List.foldl_cons, scoresAdd_absent _ _ _ (hacc kv (List.mem_cons_self ..))]
    rw [ih (acc ++ [(kv.1, (kv.2 : Int) * w)]) (fun kv2 hkv2 => by
        rw [List.map_append, List.mem_append]
        rintro (hh | hh)
        · exact hacc kv2 (List.mem_cons_of_mem _ hkv2) hh
        · have hh3 : kv2.1 = kv.1 := List.mem_singleton.mp hh
          apply hnd.1
          rw [← hh3]
          exact List.mem_map.mpr ⟨kv2, hkv2, rfl⟩) hnd.2]
    rw [List.map_cons, List.append_assoc, List.singleton_append]

/-- The shape of the second fold: existing entries gain twice their
co-change count; fresh co-change peers are appended. -/
def mergeSpec (acc : List (String × Int)) (row : List (String × Nat)) :
    List (String × Int) :=
  acc.map (fun p => (p.1, p.2 + ((rowLookup row p.1).getD 0 : Int) * 2)) ++
  (row.filter (fun kv => ¬ kv.1 ∈ acc.map (fun p => p.1))).map
    (fun kv => (kv.1, (kv.2 : Int) * 2))

theorem foldl_scoresAdd_merge : ∀ (row : List (String × Nat))
    (acc : List (String × Int)),
    (row.map (fun kv => kv.1)).Nodup → (acc.map (fun p => p.1)).Nodup →
    row.foldl (fun sc kv => scoresAdd sc kv.1 ((kv.2 : Int) * 2)) acc =
      mergeSpec acc row := by
  intro row
  induction row with
  | nil =>
    intro acc _ _
    rw [List.foldl_nil, mergeSpec, List.filter_nil, List.map_nil, List.append_nil]
    conv_lhs => rw [show acc = acc.map id from (List.map_id acc).symm]
    exact List.map_congr_left (fun p _ => by
      obtain ⟨k, v⟩ := p
      show (k, v) = (k, v + ((rowLookup [] k).getD 0 : Int) * 2)
      rw [show rowLookup [] k = none from rfl]
      show (k, v) = (k, v + 0 * 2)
      rw [Int.zero_mul, Int.add_zero])
  | cons kv rest ih =>
    intro acc hrow hacc
    rw [List.map_cons, List.nodup_cons] at hrow
    rw [List.foldl_cons]
    by_cases hmem : kv.1 ∈ acc.map (fun p => p.1)
    · rw [scoresAdd_present _ _ _ hacc hmem]
      rw [ih _ hrow.2 (by rw [keys_scoresAdd_update]; exact hacc)]
      rw [mergeSpec, mergeSpec]
      congr 1
      · rw [List.map_map]
        refine List.map_congr_left (fun p hp => ?_)
        show (fun q => (q.1, q.2 + ((rowLookup rest q.1).getD 0 : Int) * 2))
          (if p.1 = kv.1 then (p.1, p.2 + (kv.2 : Int) * 2) else p) =
          (p.1, p.2 + ((rowLookup (kv :: rest) p.1).getD 0 : Int) * 2)
        by_cases hpk : p.1 = kv.1
        · rw [if_pos hpk]
          dsimp only
          rw [show rowLookup (kv :: rest) p.1 = some kv.2 from by
            cases kv
            rw [rowLookup, if_pos hpk.symm]]
          rw [rowLookup_eq_none rest p.1 (by rw [hpk]; exact hrow.1)]
          show (p.1, p.2 + (kv.2 : Int) * 2 + (0 : Int) * 2) = _
          rw [Int.zero_mul, Int.add_zero]
          rfl
        · rw [if_neg hpk]
          dsimp only
          rw [show rowLookup (kv :: rest) p.1 = rowLookup rest p.1 from by
            cases kv
            rw [rowLookup, if_neg (fun hh => hpk hh.symm)]]
      · rw [keys_scoresAdd_update]
        rw [List.filter_cons, if_neg (by simp only [decide_eq_true_eq]; exact fun hh => hh hmem)]
    · rw [scoresAdd_absent _ _ _ hmem]
      rw [ih _ hrow.2 (by
        rw [List.map_append, List.nodup_append]
        exact ⟨hacc, List.nodup_singleton _, fun a ha hb => by
          rcases List.mem_singleton.mp hb with rfl
          exact hmem ha⟩)]
      rw [mergeSpec, mergeSpec]
      rw [List.map_append]
      rw [show ([(kv.1, (kv.2 : Int) * 2)].map
        (fun p => (p.1, p.2 + ((rowLookup rest p.1).getD 0 : Int) * 2))) =
        [(kv.1, (kv.2 : Int) * 2)] from by
          rw [List.map_singleton]
          rw [rowLookup_eq_none rest kv.1 hrow.1]
          show [(kv.1, (kv.2 : Int) * 2 + (0 : Int) * 2)] = _
          rw [Int.zero_mul, Int.add_zero]]
      rw [List.filter_cons, if_pos (by
        simp only [decide_eq_true_eq]
        exact hmem)]
      rw [List.map_cons]
      rw [List.append_assoc, List.singleton_append]
      have hmap1 : acc.map
          (fun p => (p.1, p.2 + ((rowLookup (kv :: rest) p.1).getD 0 : Int) * 2)) =
          acc.map (fun p => (p.1, p.2 + ((rowLookup rest p.1).getD 0 : Int) * 2)) :=
        List.map_congr_left (fun p hp => by
          have hpk : ¬ kv.1 = p.1 := fun hh => hmem (by
            rw [hh]
            exact List.mem_map.mpr ⟨p, hp, rfl⟩)
          rw [show rowLookup (kv :: rest) p.1 = rowLookup rest p.1 from by
            cases kv
            rw [rowLookup, if_neg hpk]])
      rw [hmap1]
      have hfil : rest.filter
          (fun q => ¬ q.1 ∈ ((acc ++ [(kv.1, (kv.2 : Int) * 2)]).map (fun p => p.1))) =
          rest.filter (fun q => ¬ q.1 ∈ (acc.map (fun p => p.1))) :=
        List.filter_congr (fun q hq => by
          have hqk : ¬ q.1 = kv.1 := fun hh =>
            hrow.1 (by
              rw [← hh]
              exact List.mem_map.mpr ⟨q, hq, rfl⟩)
          simp only [List.map_append, List.mem_append, decide_eq_decide]
          constructor
          · intro hh h2
            exact hh (Or.inl h2)
          · intro hh h2
            rcases h2 with h2 | h2
            · exact hh h2
            · rcases List.mem_map.mp h2 with ⟨q2, hq2, hq3⟩
              have hq4 : q2 = (kv.1, (kv.2 : Int) * 2) := List.mem_singleton.mp hq2
              apply hqk
              rw [← hq3, hq4])
      rw [hfil]


theorem dedupStr_congr_seen : ∀ (l s1 s2 : List String),
    (∀ x, x ∈ s1 ↔ x ∈ s2) → dedupStr s1 l = dedupStr s2 l := by
  intro l
  induction l with
  | nil => intro s1 s2 _; rfl
  | cons x t ih =>
    intro s1 s2 h
    rw [dedupStr, dedupStr]
    by_cases hx : x ∈ s1
    · rw [if_pos hx, if_pos ((h x).mp hx)]
      exact ih s1 s2 h
    · rw [if_neg hx, if_neg (fun hh => hx ((h x).mpr hh))]
      rw [ih (x :: s1) (x :: s2) (fun y => by
        simp only [List.mem_cons]
        exact or_congr Iff.rfl (h y))]

theorem dedupStr_fresh : ∀ (A C seen : List String), A.Nodup →
    (∀ a ∈ A, ¬ a ∈ seen) →
    dedupStr seen (A ++ C) = A ++ dedupStr (A ++ seen) C := by
  intro A
  induction A with
  | nil => intro C seen _ _; simp only [List.nil_append]
  | cons a A2 ih =>
    intro C seen hnd hfresh
    rw [List.nodup_cons] at hnd
    rw [List.cons_append, dedupStr, if_neg (hfresh a (List.mem_cons_self ..))]
    rw [ih C (a :: seen) hnd.2 (fun a2 ha2 => by
      intro hh
      rcases List.mem_cons.mp hh with rfl | hh
      · exact hnd.1 ha2
      · exact hfresh a2 (List.mem_cons_of_mem _ ha2) hh)]
    rw [List.cons_append]
    congr 1
    exact congrArg (fun z => A2 ++ z)
      (dedupStr_congr_seen C (A2 ++ a :: seen) ((a :: A2) ++ seen) (fun y => by
      simp only [List.mem_append, List.mem_cons]
      constructor
      · rintro (h | h | h)
        · exact Or.inl (Or.inr h)
        · exact Or.inl (Or.inl h)
        · exact Or.inr h
      · rintro ((h | h) | h)
        · exact Or.inr (Or.inl h)
        · exact Or.inl h
        · exact Or.inr (Or.inr h)))

theorem dedupStr_nodup_filter : ∀ (C seen : List String), C.Nodup →
    dedupStr seen C = C.filter (fun x => ¬ x ∈ seen) := by
  intro C
  induction C with
  | nil => intro seen _; rfl
  | cons x t ih =>
    intro seen hnd
    rw [List.nodup_cons] at hnd
    rw [dedupStr, List.filter_cons]
    by_cases hx : x ∈ seen
    · rw [if_pos hx, if_neg (by simp only [decide_eq_true_eq]; exact fun hh => hh hx)]
      exact ih seen hnd.2
    · rw [if_neg hx, if_pos (by simp only [decide_eq_true_eq]; exact hx)]
      rw [ih (x :: seen) hnd.2]
      congr 1
      refine List.filter_congr (fun y hy => ?_)
      have hyx : ¬ y = x := fun hh => hnd.1 (by rw [← hh]; exact hy)
      simp only [List.mem_cons, decide_eq_decide]
      constructor
      · intro hh h2
        exact hh (Or.inr h2)
      · intro hh h2
        rcases h2 with h2 | h2
        · exact hyx h2
        · exact hh h2

theorem filter_of_map (l : List (String × Nat)) (p : String → Bool) :
    (l.map (fun kv => kv.1)).filter p = (l.filter (fun kv => p kv.1)).map (fun kv => kv.1) := by
  induction l with
  | nil => rfl
  | cons kv t ih =>
    rw [List.map_cons, List.filter_cons, List.filter_cons]
    by_cases hp : p kv.1 = true
    · rw [if_pos hp, if_pos hp, List.map_cons, ih]
    · rw [if_neg hp, if_neg hp, ih]

theorem relScores_spec (coAccess coChange : Pairs) (nodeID : String)
    (hA : ((pairsRow coAccess nodeID).map (fun kv => kv.1)).Nodup)
    (hC : ((pairsRow coChange nodeID).map (fun kv => kv.1)).Nodup) :
    relScores coAccess coChange nodeID =
      (dedupStr [] ((pairsRow coAccess nodeID).map (fun kv => kv.1) ++
        (pairsRow coChange nodeID).map (fun kv => kv.1))).map (fun id =>
          (id, ((rowLookup (pairsRow coAccess nodeID) id).getD 0 : Int) * 1 +
               ((rowLookup (pairsRow coChange nodeID) id).getD 0 : Int) * 2)) := by
  have hfold1 := foldl_scoresAdd_fresh 1 (pairsRow coAccess nodeID) []
    (fun kv _ => List.not_mem_nil _) hA
  rw [List.nil_append] at hfold1
  have hkeys : ((pairsRow coAccess nodeID).map
      (fun kv => ((kv.1 : String), (kv.2 : Int) * 1))).map (fun p => p.1) =
      (pairsRow coAccess nodeID).map (fun kv => kv.1) := by
    rw [List.map_map]
    rfl
  rw [relScores, hfold1,
    foldl_scoresAdd_merge (pairsRow coChange nodeID) _ hC (by rw [hkeys]; exact hA)]
  rw [dedupStr_fresh _ _ [] hA (fun a _ => List.not_mem_nil a), List.append_nil]
  rw [dedupStr_nodup_filter _ _ hC]
  rw [List.map_append, mergeSpec]
  congr 1
  · rw [List.map_map, List.map_map]
    refine List.map_congr_left (fun kv hkv => ?_)
    show ((kv.1 : String), ((kv.2 : Int) * 1) +
        ((rowLookup (pairsRow coChange nodeID) kv.1).getD 0 : Int) * 2) =
      (kv.1, ((rowLookup (pairsRow coAccess nodeID) kv.1).getD 0 : Int) * 1 +
        ((rowLookup (pairsRow coChange nodeID) kv.1).getD 0 : Int) * 2)
    rw [rowLookup_of_mem _ hA kv hkv]
    rfl
  · rw [show (pairsRow coChange nodeID).filter (fun kv => ¬ kv.1 ∈
        ((pairsRow coAccess nodeID).map (fun kv => ((kv.1 : String), (kv.2 : Int) * 1))).map
          (fun p => p.1)) =
      (pairsRow coChange nodeID).filter (fun kv => ¬ kv.1 ∈
        (pairsRow coAccess nodeID).map (fun kv => kv.1)) from
      List.filter_congr (fun q _ => by rw [hkeys])]
    rw [filter_of_map, List.map_map]
    refine List.map_congr_left (fun q hq => ?_)
    rw [List.mem_filter] at hq
    have hq2 : ¬ q.1 ∈ (pairsRow coAccess nodeID).map (fun kv => kv.1) := by
      have := hq.2
      simp only [decide_eq_true_eq] at this
      exact this
    show ((q.1 : String), (q.2 : Int) * 2) =
      (q.1, ((rowLookup (pairsRow coAccess nodeID) q.1).getD 0 : Int) * 1 +
        ((rowLookup (pairsRow coChange nodeID) q.1).getD 0 : Int) * 2)
    rw [rowLookup_eq_none _ _ hq2, rowLookup_of_mem _ hC q hq.1]
    show (q.1, (q.2 : Int) * 2) = (q.1, (0 : Int) * 1 + (q.2 : Int) * 2)
    rw [Int.zero_mul, Int.zero_add]

/-- C9: `RelatednessIndex.Related` returns the peers ranked by
1.0·(co-access count) + 2.0·(co-change count), score descending with ties
by ID ascending, truncated to `limit` entries with 0 meaning no cap —
byte-for-byte the specification-side ranking.  The matrix rows, being Go
maps, have no duplicate keys. -/
theorem relatedness_ranking (coAccess coChange : Pairs) (nodeID : String) (limit : Int)
    (hA : ((pairsRow coAccess nodeID).map (fun kv => kv.1)).Nodup)
    (hC : ((pairsRow coChange nodeID).map (fun kv => kv.1)).Nodup)
    (hlim : 0 ≤ limit) :
    RelatednessRelated coAccess coChange nodeID limit =
      specRelated coAccess coChange nodeID limit := by
  rw [RelatednessRelated, specRelated, relScores_spec coAccess coChange nodeID hA hC]
  by_cases hemp : ((dedupStr [] ((pairsRow coAccess nodeID).map (fun kv => kv.1) ++
      (pairsRow coChange nodeID).map (fun kv => kv.1))).map (fun id =>
        (id, ((rowLookup (pairsRow coAccess nodeID) id).getD 0 : Int) * 1 +
             ((rowLookup (pairsRow coChange nodeID) id).getD 0 : Int) * 2))).isEmpty
  · rw [if_pos hemp]
    rw [List.isEmpty_iff.mp hemp]
    by_cases hl0 : limit = 0
    · rw [if_pos hl0]
      rfl
    · rw [if_neg hl0]
      rw [show List.insertionSort (fun a b => relLe a b = true)
        ([] : List (String × Int)) = [] from rfl, List.take_nil]
      rfl
  · rw [if_neg hemp]
    by_cases hl0 : limit = 0
    · rw [if_pos hl0]
      rw [if_neg (fun hh => by rw [hl0] at hh; exact absurd hh.1 (by omega))]
      rfl
    · rw [if_neg hl0]
      have hpos : 0 < limit := by omega
      by_cases hlen : limit < ((List.insertionSort (fun a b => relLe a b = true)
          ((dedupStr [] ((pairsRow coAccess nodeID).map (fun kv => kv.1) ++
            (pairsRow coChange nodeID).map (fun kv => kv.1))).map (fun id =>
              (id, ((rowLookup (pairsRow coAccess nodeID) id).getD 0 : Int) * 1 +
                   ((rowLookup (pairsRow coChange nodeID) id).getD 0 : Int) * 2)))).length : Int)
      · rw [if_pos ⟨hpos, hlen⟩]
      · rw [if_neg (fun hh => hlen hh.2)]
        rw [List.take_of_length_le (by omega)]

theorem relatedness_ranking_witness :
    RelatednessRelated [("n", [("p", 2)])] [("n", [("p", 1), ("q", 3)])] "n" 0 =
      specRelated [("n", [("p", 2)])] [("n", [("p", 1), ("q", 3)])] "n" 0 :=
  relatedness_ranking [("n", [("p", 2)])] [("n", [("p", 1), ("q", 3)])] "n" 0
    (by decide) (by decide) (by decide)


/-! ## The search index (src/unnamed/part_003)

`SearchIndex` holds two `map[string]map[string]bool` tables (term → set of
ref IDs, type → set of ref IDs), modelled as association lists with the
inner sets in encounter order (no claim observes map iteration order).
`IndexNode` assembles searchable text from the ID, the type, the content
(decoded as base64 if it parses, else taken verbatim) and the meta values
rendered with `fmt %v`; Go's `string([]byte)` rune iteration replaces each
invalid UTF-8 byte with U+FFFD. -/

def utf8DecodeReplace : Nat → Bytes → List Char
  | 0, _ => []
  | _ + 1, [] => []
  | fuel + 1, b :: rest =>
    match utf8DecodeOne (b :: rest) with
    | some (c, rest2) => c :: utf8DecodeReplace fuel rest2
    | none => Char.ofNat 0xFFFD :: utf8DecodeReplace fuel rest

def bytesToText (bs : Bytes) : List Char := utf8DecodeReplace bs.length bs

/-- `strings.Join(parts, " ")`. -/
def joinSpace : List (List Char) → List Char
  | [] => []
  | [x] => x
  | x :: y :: t => x ++ ' ' :: joinSpace (y :: t)

mutual

/-- `fmt.Sprintf("%v", v)` on an unmarshalled JSON value: strings print
verbatim, numbers in decimal, booleans as `true`/`false`, nil as `<nil>`,
slices as `[a b]`, and maps as `map[k:v ...]` with sorted keys. -/
def goFmtV : Json → List Char
  | Json.null => "<nil>".toList
  | Json.bool b => if b then "true".toList else "false".toList
  | Json.num n => renderInt n
  | Json.str s => s.toList
  | Json.arr xs => '[' :: joinSpace (goFmtItems xs) ++ [']']
  | Json.obj kvs =>
    "map[".toList ++
      joinSpace ((List.insertionSort (fun a b => strLe a.1 b.1 = true)
        (goFmtFields kvs)).map (fun kv => kv.1.toList ++ ':' :: kv.2)) ++ [']']

def goFmtItems : List Json → List (List Char)
  | [] => []
  | x :: t => goFmtV x :: goFmtItems t

def goFmtFields : List (String × Json) → List (String × List Char)
  | [] => []
  | (k, v) :: t => (k, goFmtV v) :: goFmtFields t

end

structure SearchIndex where
  index : List (String × List String)
  types : List (String × List String)

/-- `tbl[key][id] = true` (allocating the inner map as the source does). -/
def setAdd (row : List String) (id : String) : List String :=
  if id ∈ row then row else row ++ [id]

def tableAdd : List (String × List String) → String → String → List (String × List String)
  | [], key, id => [(key, [id])]
  | (k, row) :: t, key, id =>
    if k = key then (k, setAdd row id) :: t else (k, row) :: tableAdd t key id

/-- One table of `RemoveNode`: delete `id` from every row, dropping rows
that become empty. -/
def tableRemove (tbl : List (String × List String)) (id : String) :
    List (String × List String) :=
  (tbl.map (fun kv => (kv.1, kv.2.filter (fun x => ¬ x = id)))).filter
    (fun kv => ¬ kv.2.isEmpty)

/-- `SearchIndex.IndexNode`.  Nil and zero-length content are identified
(either way the content part contributes no token); the meta parts are
listed in the model's field order (a Go map range, unobserved). -/
def SearchIndex.IndexNode (U : UnicodeTables) (s : SearchIndex) (id : String)
    (node : NodeEnvelope) : SearchIndex :=
  let parts : List (List Char) :=
    [id.toList, node.Type'.toList] ++
    (if node.Content.isEmpty then []
     else
       match base64Decode (String.mk (bytesToText node.Content)) with
       | some decoded => [bytesToText decoded]
       | none => [bytesToText node.Content]) ++
    node.Meta.map (fun kv => goFmtV kv.2)
  let terms := tokenize U (joinSpace parts)
  ⟨terms.foldl (fun acc term => tableAdd acc (String.mk term) id) s.index,
   if node.Type' = "" then s.types else tableAdd s.types node.Type' id⟩

/-- `SearchIndex.RemoveNode`. -/
def SearchIndex.RemoveNode (s : SearchIndex) (id : String) : SearchIndex :=
  ⟨tableRemove s.index id, tableRemove s.types id⟩


/-! ## The repository facade (src/internal/dag/repo.go)

The `Repository` state is its object store, refs directory, link list,
search index, HEAD file and configured author.  `commit` never propagates
errors (the source logs and continues, and the modelled `Commit` path
cannot fail), so the mutations below carry the commit through.  The two
`time.Now()` readings of a mutation (the envelope timestamp and the commit
timestamp) are the explicit parameters `now` and `cnow`. -/

structure Repository where
  store : ObjectStore
  refs : RefStore
  links : List LinkEntry
  search : SearchIndex
  headFile : Option String
  author : String

/-- `OpenRepository` on a fresh directory: empty store, refs, links and
search index, no HEAD. -/
def emptyRepository (author : String) : Repository :=
  ⟨[], [], [], ⟨[], []⟩, none, author⟩

/-- Step 1 of `CommitLog.Commit`: list the refs, sort the IDs, resolve
each (skipping failures) and re-encode the CID. -/
def commitSnapshotRefs (refs : RefStore) : List (String × String) :=
  (List.insertionSort (fun a b => strLe a b = true) (RefStore.List refs)).filterMap
    (fun id => (RefStore.Get refs id).map (fun c => (id, CIDToFilename c)))

/-- `Repository.commit`: run `Commits.Commit` over the shared store and
HEAD. -/
def repoCommit (r : Repository) (message ts : String) : Repository :=
  let st := (doCommit r.author ⟨r.store, r.headFile⟩
    ⟨commitSnapshotRefs r.refs, r.links, message, ts⟩).1
  { r with store := st.store, headFile := st.headFile }

/-- `Repository.getNodeEnvelope`: ref → CID → bytes → envelope. -/
def getNodeEnvelope (r : Repository) (id : String) : Option NodeEnvelope :=
  (RefStore.Get r.refs id).bind fun c =>
    (ObjectStore.Get r.store c).bind fun data =>
      (goUnmarshal data).bind unmarshalEnvelope

/-- `Repository.GetNode`: a deleted envelope is an error. -/
def GetNode (r : Repository) (id : String) : Option NodeEnvelope :=
  (getNodeEnvelope r id).bind fun node =>
    if node.Deleted then none else some node

/-- The `ListNodes` loop body: skip broken refs and deleted nodes. -/
def liveNode (r : Repository) (id : String) : Bool :=
  match getNodeEnvelope r id with
  | none => false
  | some node => !node.Deleted

/-- `Repository.ListNodes`: all live IDs, truncated when a positive limit
is exceeded. -/
def ListNodes (r : Repository) (limit : Int) : List String :=
  let result := (RefStore.List r.refs).filter (liveNode r)
  if 0 < limit ∧ limit < (result.length : Int) then result.take limit.toNat else result

/-- `Repository.CreateNode`: build the v=1 envelope, canonical-serialize,
`Put`, `Set` the ref, index, commit. -/
def CreateNode (U : UnicodeTables) (r : Repository) (id typ : String) (content : Bytes)
    (meta : List (String × Json)) (now cnow : String) : Repository × NodeEnvelope :=
  let node : NodeEnvelope := ⟨1, id, typ, content, meta, now, now, "", false⟩
  let data := CanonicalJSON (envelopeToJson node)
  let pr := ObjectStore.Put r.store data
  (repoCommit
    { r with
      store := pr.1,
      refs := RefStore.Set r.refs id pr.2,
      search := SearchIndex.IndexNode U r.search id node }
    ("create " ++ id) cnow,
   node)

/-- The soft-delete path of `DeleteNode`, after the current envelope has
been read: tombstone with the content dropped and `prev` pointing at the
replaced CID (`gocid.Undef`, unreachable after a successful read, is the
empty byte string), then `Put`, `Set`, `RemoveNode`, commit. -/
def deleteSoft (r : Repository) (id : String) (current : NodeEnvelope)
    (now cnow : String) : Repository :=
  let prevCid := (RefStore.Get r.refs id).getD []
  let tombstone : NodeEnvelope :=
    ⟨1, id, current.Type', [], current.Meta, current.Created, now,
     CIDToFilename prevCid, true⟩
  let data := CanonicalJSON (envelopeToJson tombstone)
  let pr := ObjectStore.Put r.store data
  repoCommit
    { r with
      store := pr.1,
      refs := RefStore.Set r.refs id pr.2,
      search := SearchIndex.RemoveNode r.search id }
    ("delete " ++ id) cnow

/-- `Repository.DeleteNode`: hard delete removes the ref (an error when
the ref file is missing, as `os.Remove`); soft delete writes a tombstone. -/
def DeleteNode (r : Repository) (id : String) (force : Bool) (now cnow : String) :
    Option Repository :=
  if force then
    if RefStore.Has r.refs id then
      some (repoCommit
        { r with
          search := SearchIndex.RemoveNode r.search id,
          refs := RefStore.Delete r.refs id }
        ("delete " ++ id) cnow)
    else none
  else
    match getNodeEnvelope r id with
    | none => none
    | some current => some (deleteSoft r id current now cnow)

/-- `Repository.Ingest`: content-address, dedup on the ref, else create a
`Source` node with format and byte-size metadata. -/
def Ingest (U : UnicodeTables) (r : Repository) (content format now cnow : String) :
    Repository × String × Bool :=
  let id := "sha256:" ++ bytesToHex (sha256 (strBytes content))
  if RefStore.Has r.refs id then (r, id, false)
  else
    ((CreateNode U r id "Source" (strBytes content)
        [("format", Json.str format), ("size_bytes", Json.num ((strBytes content).length : Int))]
        now cnow).1,
     id, true)


/-! Unfolding equations and store/ref lemmas for the repository layer. -/

theorem storeLookup_head (n : String) (d : Bytes) (t : ObjectStore) :
    storeLookup ((n, d) :: t) n = some d := by
  rw [storeLookup, if_pos rfl]

theorem fileWrite_lookup : ∀ (r : RefStore) (name v : String),
    fileLookup (fileWrite r name v) name = some v := by
  intro r
  induction r with
  | nil => intro name v; rw [fileWrite, fileLookup, if_pos rfl]
  | cons p t ih =>
    intro name v
    obtain ⟨n, c⟩ := p
    rw [fileWrite]
    by_cases hn : n = name
    · rw [if_pos hn, fileLookup, if_pos rfl]
    · rw [if_neg hn, fileLookup, if_neg hn]
      exact ih name v

theorem refGet_set (r : RefStore) (id : String) (d : Bytes) :
    RefStore.Get (RefStore.Set r id (ComputeCID d)) id = some (ComputeCID d) := by
  simp only [RefStore.Set, RefStore.Get]
  rw [fileWrite_lookup]
  simp only [Option.some_bind]
  rw [goTrimSpace_no_space _ (multibaseB32_chars (ComputeCID d)), string_mk_toList,
    multibaseDecode_encode _ (computeCID_valid d)]
  simp only [Option.some_bind]
  rw [castCid_computeCID]

theorem refHas_set (r : RefStore) (id : String) (c : Bytes) :
    RefStore.Has (RefStore.Set r id c) id = true := by
  simp only [RefStore.Has, RefStore.Set]
  rw [fileWrite_lookup]
  rfl

theorem storeLookup_put_preserve (s : ObjectStore) (d : Bytes) (n : String) (d0 : Bytes)
    (h : storeLookup s n = some d0) :
    storeLookup (ObjectStore.Put s d).1 n = some d0 := by
  rw [objectStore_put_eq]
  cases hl : storeLookup s (CIDToFilename (ComputeCID d)) with
  | some x =>
    rw [if_pos (show (some x).isSome = true from rfl)]
    exact h
  | none =>
    rw [if_neg (show ¬ (none : Option Bytes).isSome = true from Bool.false_ne_true)]
    show storeLookup ((CIDToFilename (ComputeCID d), d) :: s) n = some d0
    rw [storeLookup]
    by_cases hn : CIDToFilename (ComputeCID d) = n
    · rw [hn] at hl
      rw [hl] at h
      exact Option.noConfusion h
    · rw [if_neg hn]
      exact h

theorem storeLookup_put_self (s : ObjectStore) (b : Bytes)
    (hwf : ∀ p ∈ s, p.1 = CIDToFilename (ComputeCID p.2))
    (hnc : ∀ p ∈ s, sha256 p.2 = sha256 b → p.2 = b) :
    storeLookup (ObjectStore.Put s b).1 (CIDToFilename (ComputeCID b)) = some b := by
  rw [objectStore_put_eq]
  cases hl : storeLookup s (CIDToFilename (ComputeCID b)) with
  | some d =>
    rw [if_pos (show (some d).isSome = true from rfl)]
    have hmem := storeLookup_mem _ _ _ hl
    have h1 := hwf _ hmem
    have h2 : ComputeCID d = ComputeCID b :=
      multibaseB32_inj _ _ (computeCID_valid d) (computeCID_valid b) h1.symm
    have h3 : d = b := hnc _ hmem (computeCID_inj_of_sha _ _ h2)
    rw [hl, h3]
  | none =>
    rw [if_neg (show ¬ (none : Option Bytes).isSome = true from Bool.false_ne_true)]
    show storeLookup ((CIDToFilename (ComputeCID b), b) :: s)
      (CIDToFilename (ComputeCID b)) = some b
    rw [storeLookup, if_pos rfl]

theorem repoCommit_refs (r : Repository) (m ts : String) :
    (repoCommit r m ts).refs = r.refs := rfl

theorem repoCommit_search (r : Repository) (m ts : String) :
    (repoCommit r m ts).search = r.search := rfl

theorem repoCommit_store (r : Repository) (m ts : String) :
    (repoCommit r m ts).store =
      (ObjectStore.Put r.store (commitData (mkCommit r.author ⟨r.store, r.headFile⟩
        ⟨commitSnapshotRefs r.refs, r.links, m, ts⟩))).1 := rfl

theorem getNodeEnvelope_of (r : Repository) (id : String) (e : NodeEnvelope)
    (hr : RefStore.Get r.refs id = some (ComputeCID (CanonicalJSON (envelopeToJson e))))
    (hs : storeLookup r.store
      (CIDToFilename (ComputeCID (CanonicalJSON (envelopeToJson e)))) =
      some (CanonicalJSON (envelopeToJson e)))
    (hm : isCanon (Json.obj e.Meta) = true)
    (hv : validBytes e.Content) :
    getNodeEnvelope r id = some e := by
  simp only [getNodeEnvelope, hr, Option.some_bind]
  rw [show ObjectStore.Get r.store (ComputeCID (CanonicalJSON (envelopeToJson e))) =
    storeLookup r.store (CIDToFilename (ComputeCID (CanonicalJSON (envelopeToJson e))))
    from rfl]
  rw [hs, Option.some_bind, goUnmarshal_canonicalJSON _ (envelopeToJson_isCanon e hm),
    Option.some_bind]
  exact unmarshalEnvelope_toJson e hv

theorem tableRemove_not_mem (tbl : List (String × List String)) (id : String) :
    ∀ kv ∈ tableRemove tbl id, ¬ id ∈ kv.2 := by
  intro kv hkv hid
  rw [tableRemove] at hkv
  obtain ⟨kv0, _, heq⟩ := List.mem_map.mp (List.mem_filter.mp hkv).1
  have heq2 : kv = (kv0.1, kv0.2.filter (fun x => ¬ x = id)) := heq.symm
  rw [heq2] at hid
  have := (List.mem_filter.mp hid).2
  rw [decide_eq_true_eq] at this
  exact this rfl

theorem deleteSoft_eq (r : Repository) (id : String) (cur : NodeEnvelope)
    (now cnow : String) :
    deleteSoft r id cur now cnow = repoCommit { r with
      store := (ObjectStore.Put r.store (CanonicalJSON (envelopeToJson
        ⟨1, id, cur.Type', [], cur.Meta, cur.Created, now,
         CIDToFilename ((RefStore.Get r.refs id).getD []), true⟩))).1,
      refs := RefStore.Set r.refs id (ObjectStore.Put r.store (CanonicalJSON (envelopeToJson
        ⟨1, id, cur.Type', [], cur.Meta, cur.Created, now,
         CIDToFilename ((RefStore.Get r.refs id).getD []), true⟩))).2,
      search := SearchIndex.RemoveNode r.search id } ("delete " ++ id) cnow := rfl

theorem deleteNode_false_eq (r : Repository) (id now cnow : String) :
    DeleteNode r id false now cnow =
      match getNodeEnvelope r id with
      | none => none
      | some current => some (deleteSoft r id current now cnow) := rfl

theorem createNode_fst (U : UnicodeTables) (r : Repository) (id typ : String)
    (content : Bytes) (meta : List (String × Json)) (now cnow : String) :
    (CreateNode U r id typ content meta now cnow).1 =
      repoCommit { r with
        store := (ObjectStore.Put r.store (CanonicalJSON (envelopeToJson
          ⟨1, id, typ, content, meta, now, now, "", false⟩))).1,
        refs := RefStore.Set r.refs id (ObjectStore.Put r.store (CanonicalJSON (envelopeToJson
          ⟨1, id, typ, content, meta, now, now, "", false⟩))).2,
        search := SearchIndex.IndexNode U r.search id
          ⟨1, id, typ, content, meta, now, now, "", false⟩ }
        ("create " ++ id) cnow := rfl

theorem ingest_eq (U : UnicodeTables) (r : Repository) (content format now cnow : String) :
    Ingest U r content format now cnow =
      if RefStore.Has r.refs ("sha256:" ++ bytesToHex (sha256 (strBytes content))) then
        (r, "sha256:" ++ bytesToHex (sha256 (strBytes content)), false)
      else
        ((CreateNode U r ("sha256:" ++ bytesToHex (sha256 (strBytes content))) "Source"
            (strBytes content)
            [("format", Json.str format),
             ("size_bytes", Json.num ((strBytes content).length : Int))] now cnow).1,
         "sha256:" ++ bytesToHex (sha256 (strBytes content)), true) := rfl

theorem listNodes_eq (r : Repository) (limit : Int) :
    ListNodes r limit =
      if 0 < limit ∧ limit < (((RefStore.List r.refs).filter (liveNode r)).length : Int)
      then ((RefStore.List r.refs).filter (liveNode r)).take limit.toNat
      else (RefStore.List r.refs).filter (liveNode r) := rfl



/-! The ingest ID `sha256:<hex>` contains no underscore, so the ref
filename encoding round-trips on it (see the C10 analysis). -/

theorem no_underscore_contains (l : List Char) (d : Char)
    (h : ∀ c ∈ l, ¬ c = '_') : goContains l ['_', d] = false := by
  induction l with
  | nil => rfl
  | cons c t ih =>
    rw [goContains, Bool.or_eq_false_iff]
    refine ⟨?_, ih (fun x hx => h x (List.mem_cons_of_mem _ hx))⟩
    show (('_' == c) && List.isPrefixOf [d] t) = false
    rw [show ('_' == c) = false from by
      cases hbe : ('_' == c) with
      | true => exact absurd (beq_iff_eq.mp hbe).symm (h c (List.mem_cons_self ..))
      | false => rfl]
    rw [Bool.false_and]

theorem sha_id_no_underscore (bs : Bytes) :
    ∀ c ∈ ("sha256:" ++ bytesToHex bs).toList, ¬ c = '_' := by
  intro c hc
  rw [show ("sha256:" ++ bytesToHex bs).toList =
    ['s', 'h', 'a', '2', '5', '6', ':'] ++ bs.flatMap byteToHex from rfl] at hc
  rcases List.mem_append.mp hc with hc | hc
  · simp only [List.mem_cons, List.not_mem_nil, or_false] at hc
    rcases hc with rfl | rfl | rfl | rfl | rfl | rfl | rfl <;> decide
  · obtain ⟨b, _, hcb⟩ := List.mem_flatMap.mp hc
    rw [byteToHex] at hcb
    rcases List.mem_cons.mp hcb with rfl | hcb
    · exact @getD_prop (fun x => ¬ x = '_') hexChars _ '0' (by decide) (by decide)
    rcases List.mem_singleton.mp hcb with rfl
    exact @getD_prop (fun x => ¬ x = '_') hexChars _ '0' (by decide) (by decide)

theorem refID_roundtrip_hex (bs : Bytes) :
    refIDFromFilename (refFilename ("sha256:" ++ bytesToHex bs)) =
      "sha256:" ++ bytesToHex bs :=
  refFilename_roundtrip _
    (no_underscore_contains _ '_' (sha_id_no_underscore bs))
    (no_underscore_contains _ ':' (sha_id_no_underscore bs))

theorem ingestMeta_canon (format : String) (n : Int) :
    isCanon (Json.obj [("format", Json.str format), ("size_bytes", Json.num n)]) = true :=
  rfl

theorem listNodes_single (r1 : Repository) (id c : String) (limit : Int)
    (hrefs : r1.refs = [(refFilename id, c)])
    (hrt : refIDFromFilename (refFilename id) = id)
    (hlive : liveNode r1 id = true) :
    ListNodes r1 limit = [id] := by
  rw [listNodes_eq, hrefs]
  rw [show RefStore.List [(refFilename id, c)] =
    [refIDFromFilename (refFilename id)] from rfl]
  rw [hrt, List.filter_cons, if_pos hlive, List.filter_nil]
  rw [if_neg (show ¬ (0 < limit ∧ limit < (([id] : List String).length : Int)) from by
    rw [List.length_singleton]
    intro h
    omega)]

/-- C5: soft-deleting an existing node writes a tombstone: `GetNode` then
fails, the ref remains, the envelope read back through the ref and the
object store is marked deleted with the type, meta and created timestamp
preserved, no content and `prev` holding the replaced CID, and the ID is
removed from every row of both search tables.  The store is assumed
well-formed (every file sits under its content CID) and free of SHA-256
collisions with the tombstone bytes. -/
theorem deleteNode_soft_tombstone (r : Repository) (id : String) (e : NodeEnvelope)
    (prevCid : Bytes) (now cnow : String)
    (hget : getNodeEnvelope r id = some e)
    (hprev : RefStore.Get r.refs id = some prevCid)
    (hdel : e.Deleted = false)
    (hm : isCanon (Json.obj e.Meta) = true)
    (hwf : ∀ p ∈ r.store, p.1 = CIDToFilename (ComputeCID p.2))
    (hnc : ∀ p ∈ r.store, sha256 p.2 = sha256 (CanonicalJSON (envelopeToJson
        ⟨1, id, e.Type', [], e.Meta, e.Created, now, CIDToFilename prevCid, true⟩)) →
      p.2 = CanonicalJSON (envelopeToJson
        ⟨1, id, e.Type', [], e.Meta, e.Created, now, CIDToFilename prevCid, true⟩)) :
    ∃ r2, DeleteNode r id false now cnow = some r2 ∧
      GetNode r2 id = none ∧
      RefStore.Has r2.refs id = true ∧
      getNodeEnvelope r2 id = some
        ⟨1, id, e.Type', [], e.Meta, e.Created, now, CIDToFilename prevCid, true⟩ ∧
      (∀ kv ∈ r2.search.index, ¬ id ∈ kv.2) ∧
      (∀ kv ∈ r2.search.types, ¬ id ∈ kv.2) := by
  have hstate := deleteSoft_eq r id e now cnow
  rw [hprev, Option.getD_some] at hstate
  have hr2 : RefStore.Get (deleteSoft r id e now cnow).refs id =
      some (ComputeCID (CanonicalJSON (envelopeToJson
        ⟨1, id, e.Type', [], e.Meta, e.Created, now, CIDToFilename prevCid, true⟩))) := by
    rw [hstate, repoCommit_refs]
    show RefStore.Get (RefStore.Set r.refs id (ObjectStore.Put r.store (CanonicalJSON
      (envelopeToJson ⟨1, id, e.Type', [], e.Meta, e.Created, now,
        CIDToFilename prevCid, true⟩))).2) id = _
    rw [objectStore_put_snd]
    exact refGet_set r.refs id _
  have hs2 : storeLookup (deleteSoft r id e now cnow).store
      (CIDToFilename (ComputeCID (CanonicalJSON (envelopeToJson
        ⟨1, id, e.Type', [], e.Meta, e.Created, now, CIDToFilename prevCid, true⟩)))) =
      some (CanonicalJSON (envelopeToJson
        ⟨1, id, e.Type', [], e.Meta, e.Created, now, CIDToFilename prevCid, true⟩)) := by
    rw [hstate, repoCommit_store]
    exact storeLookup_put_preserve _ _ _ _ (storeLookup_put_self r.store _ hwf hnc)
  have henv2 : getNodeEnvelope (deleteSoft r id e now cnow) id = some
      ⟨1, id, e.Type', [], e.Meta, e.Created, now, CIDToFilename prevCid, true⟩ :=
    getNodeEnvelope_of _ _ _ hr2 hs2 hm (fun b hb => absurd hb (List.not_mem_nil b))
  refine ⟨deleteSoft r id e now cnow, ?_, ?_, ?_, henv2, ?_, ?_⟩
  · rw [deleteNode_false_eq, hget]
  · simp only [GetNode, henv2, Option.some_bind]
    rfl
  · rw [hstate, repoCommit_refs]
    exact refHas_set r.refs id _
  · rw [hstate, repoCommit_search]
    exact tableRemove_not_mem r.search.index id
  · rw [hstate, repoCommit_search]
    exact tableRemove_not_mem r.search.types id

def envW : NodeEnvelope := ⟨1, "n", "t", [], [], "c", "m", "", false⟩

def dataW : Bytes := CanonicalJSON (envelopeToJson envW)

def repoW : Repository :=
  ⟨(ObjectStore.Put [] dataW).1, RefStore.Set [] "n" (ComputeCID dataW), [],
   ⟨[], []⟩, none, "a"⟩

set_option maxRecDepth 40000 in
set_option maxHeartbeats 2000000 in
theorem deleteNode_soft_tombstone_witness :
    ∃ r2, DeleteNode repoW "n" false "m2" "c2" = some r2 ∧
      GetNode r2 "n" = none ∧
      RefStore.Has r2.refs "n" = true ∧
      getNodeEnvelope r2 "n" = some
        ⟨1, "n", envW.Type', [], envW.Meta, envW.Created, "m2",
         CIDToFilename (ComputeCID dataW), true⟩ ∧
      (∀ kv ∈ r2.search.index, ¬ "n" ∈ kv.2) ∧
      (∀ kv ∈ r2.search.types, ¬ "n" ∈ kv.2) :=
  deleteNode_soft_tombstone repoW "n" envW (ComputeCID dataW) "m2" "c2"
    (getNodeEnvelope_of repoW "n" envW (refGet_set [] "n" dataW)
      (storeLookup_put_self [] dataW (fun p hp => absurd hp (List.not_mem_nil p))
        (fun p hp => absurd hp (List.not_mem_nil p)))
      rfl (fun b hb => absurd hb (List.not_mem_nil b)))
    (refGet_set [] "n" dataW) rfl rfl
    (fun p hp => by
      rw [show repoW.store = [(CIDToFilename (ComputeCID dataW), dataW)] from rfl] at hp
      rcases List.mem_singleton.mp hp with rfl
      rfl)
    (fun p hp hsha => by
      rw [show repoW.store = [(CIDToFilename (ComputeCID dataW), dataW)] from rfl] at hp
      rcases List.mem_singleton.mp hp with rfl
      exact absurd hsha (by decide))

set_option maxRecDepth 8000 in
set_option maxHeartbeats 1000000 in
/-- C8: from a fresh repository, `Ingest` computes the ID `sha256:` ++
the lowercase hex SHA-256 of the content bytes; the first call creates a
`Source` node carrying the content bytes with `format`/`size_bytes`
metadata and returns created=true; a second call with the same content
returns the same ID with created=false and the repository unchanged; and
`ListNodes` lists exactly that one node. -/
theorem ingest_dedup (U : UnicodeTables) (author content format t1 t2 t3 t4 : String)
    (limit : Int) :
    (Ingest U (emptyRepository author) content format t1 t2).2.1 =
      "sha256:" ++ bytesToHex (sha256 (strBytes content)) ∧
    (Ingest U (emptyRepository author) content format t1 t2).2.2 = true ∧
    Ingest U (Ingest U (emptyRepository author) content format t1 t2).1 content format t3 t4 =
      ((Ingest U (emptyRepository author) content format t1 t2).1,
       "sha256:" ++ bytesToHex (sha256 (strBytes content)), false) ∧
    getNodeEnvelope (Ingest U (emptyRepository author) content format t1 t2).1
        ("sha256:" ++ bytesToHex (sha256 (strBytes content))) =
      some ⟨1, "sha256:" ++ bytesToHex (sha256 (strBytes content)), "Source",
        strBytes content,
        [("format", Json.str format),
         ("size_bytes", Json.num ((strBytes content).length : Int))],
        t1, t1, "", false⟩ ∧
    ListNodes (Ingest U (emptyRepository author) content format t1 t2).1 limit =
      ["sha256:" ++ bytesToHex (sha256 (strBytes content))] := by
  have hfirst : Ingest U (emptyRepository author) content format t1 t2 =
      ((CreateNode U (emptyRepository author)
          ("sha256:" ++ bytesToHex (sha256 (strBytes content))) "Source" (strBytes content)
          [("format", Json.str format),
           ("size_bytes", Json.num ((strBytes content).length : Int))] t1 t2).1,
       "sha256:" ++ bytesToHex (sha256 (strBytes content)), true) := by
    rw [ingest_eq, if_neg (show ¬ RefStore.Has (emptyRepository author).refs
      ("sha256:" ++ bytesToHex (sha256 (strBytes content))) = true from by
      rw [show RefStore.Has (emptyRepository author).refs
        ("sha256:" ++ bytesToHex (sha256 (strBytes content))) = false from rfl]
      exact Bool.false_ne_true)]
  rw [hfirst]
  have hr1 : RefStore.Get (CreateNode U (emptyRepository author)
      ("sha256:" ++ bytesToHex (sha256 (strBytes content))) "Source" (strBytes content)
      [("format", Json.str format),
       ("size_bytes", Json.num ((strBytes content).length : Int))] t1 t2).1.refs
      ("sha256:" ++ bytesToHex (sha256 (strBytes content))) =
      some (ComputeCID (CanonicalJSON (envelopeToJson
        ⟨1, "sha256:" ++ bytesToHex (sha256 (strBytes content)), "Source",
         strBytes content,
         [("format", Json.str format),
          ("size_bytes", Json.num ((strBytes content).length : Int))],
         t1, t1, "", false⟩))) :=
    refGet_set [] ("sha256:" ++ bytesToHex (sha256 (strBytes content)))
      (CanonicalJSON (envelopeToJson
        ⟨1, "sha256:" ++ bytesToHex (sha256 (strBytes content)), "Source",
         strBytes content,
         [("format", Json.str format),
          ("size_bytes", Json.num ((strBytes content).length : Int))],
         t1, t1, "", false⟩))
  have hs1 : storeLookup (CreateNode U (emptyRepository author)
      ("sha256:" ++ bytesToHex (sha256 (strBytes content))) "Source" (strBytes content)
      [("format", Json.str format),
       ("size_bytes", Json.num ((strBytes content).length : Int))] t1 t2).1.store
      (CIDToFilename (ComputeCID (CanonicalJSON (envelopeToJson
        ⟨1, "sha256:" ++ bytesToHex (sha256 (strBytes content)), "Source",
         strBytes content,
         [("format", Json.str format),
          ("size_bytes", Json.num ((strBytes content).length : Int))],
         t1, t1, "", false⟩)))) =
      some (CanonicalJSON (envelopeToJson
        ⟨1, "sha256:" ++ bytesToHex (sha256 (strBytes content)), "Source",
         strBytes content,
         [("format", Json.str format),
          ("size_bytes", Json.num ((strBytes content).length : Int))],
         t1, t1, "", false⟩)) := by
    rw [createNode_fst, repoCommit_store]
    refine storeLookup_put_preserve _ _ _ _ ?_
    exact storeLookup_put_self []
      (CanonicalJSON (envelopeToJson
        ⟨1, "sha256:" ++ bytesToHex (sha256 (strBytes content)), "Source",
         strBytes content,
         [("format", Json.str format),
          ("size_bytes", Json.num ((strBytes content).length : Int))],
         t1, t1, "", false⟩))
      (fun p hp => absurd hp (List.not_mem_nil p))
      (fun p hp => absurd hp (List.not_mem_nil p))
  have henv1 : getNodeEnvelope (CreateNode U (emptyRepository author)
      ("sha256:" ++ bytesToHex (sha256 (strBytes content))) "Source" (strBytes content)
      [("format", Json.str format),
       ("size_bytes", Json.num ((strBytes content).length : Int))] t1 t2).1
      ("sha256:" ++ bytesToHex (sha256 (strBytes content))) =
      some ⟨1, "sha256:" ++ bytesToHex (sha256 (strBytes content)), "Source",
        strBytes content,
        [("format", Json.str format),
         ("size_bytes", Json.num ((strBytes content).length : Int))],
        t1, t1, "", false⟩ :=
    getNodeEnvelope_of _ _ _ hr1 hs1
      (ingestMeta_canon format ((strBytes content).length : Int))
      (utf8Encode_valid content.toList)
  refine ⟨rfl, rfl, ?_, henv1, ?_⟩
  · rw [ingest_eq, if_pos (show RefStore.Has (CreateNode U (emptyRepository author)
      ("sha256:" ++ bytesToHex (sha256 (strBytes content))) "Source" (strBytes content)
      [("format", Json.str format),
       ("size_bytes", Json.num ((strBytes content).length : Int))] t1 t2).1.refs
      ("sha256:" ++ bytesToHex (sha256 (strBytes content))) = true from
      refHas_set [] ("sha256:" ++ bytesToHex (sha256 (strBytes content))) _)]
  · have hlive : liveNode (CreateNode U (emptyRepository author)
        ("sha256:" ++ bytesToHex (sha256 (strBytes content))) "Source" (strBytes content)
        [("format", Json.str format),
         ("size_bytes", Json.num ((strBytes content).length : Int))] t1 t2).1
        ("sha256:" ++ bytesToHex (sha256 (strBytes content))) = true := by
      simp only [liveNode, henv1]
      rfl
    exact listNodes_single _ _
      (multibaseB32 (ComputeCID (CanonicalJSON (envelopeToJson
        ⟨1, "sha256:" ++ bytesToHex (sha256 (strBytes content)), "Source",
         strBytes content,
         [("format", Json.str format),
          ("size_bytes", Json.num ((strBytes content).length : Int))],
         t1, t1, "", false⟩)))) limit rfl
      (refID_roundtrip_hex (sha256 (strBytes content))) hlive


end MemexFS
